import Mathlib

/-!
Verification development for the virtual-tree reconciliation engine
(`packages/core`): a shallow embedding of the diff engine
(`diffable.rs`), the creation engine (`create.rs`), the mutation log
(`mutations.rs`) and the suspense boundary bookkeeping
(`scheduler/suspense.rs`), together with theorems settling the spec's
claims about them.

Machine pointers, interior-mutability cells and bump arenas are embedded
as follows: a `ptr : Nat` tag stands for a node's address (the code's
`std::ptr::eq` short-circuits become tag comparisons), `Cell<Option<T>>`
slots become `Option` fields read at diff time, and fallible paths
(`unwrap`, `expect`, `todo!`, `debug_assert!`) are made explicit in an
`Except DiffErr` result.
-/

namespace Dioxus

abbrev ElementId := Nat

abbrev ScopeId := Nat

/-- The edit operations of the mutation log, after `mutations.rs`
(`enum Mutation`) plus the operations the diff engine invokes on the
store (`remove`, `remove_attribute`, `insert_after`, `insert_before`,
`mark_dirty_scope`) that the mid-refactor enum does not yet list.  The
`NewEventListener` payload is reduced to the event name; the scope and
mounted-node ids the code threads through cells do not affect any claim. -/
inductive Mutation where
  | AppendChildren (m : Nat)
  | AssignId (path : List Nat) (id : ElementId)
  | CreateElement (name : String) (ns : Option String) (id : ElementId)
  | CreatePlaceholder (id : ElementId)
  | CreateStaticText (value : String)
  | CreateTextNode (value : String) (id : ElementId)
  | HydrateText (path : List Nat) (value : String) (id : ElementId)
  | LoadTemplate (name : String) (index : Nat)
  | ReplaceWith (id : ElementId) (m : Nat)
  | ReplacePlaceholder (m : Nat) (path : List Nat)
  | SaveTemplate (name : String) (m : Nat)
  | SetAttribute (name : String) (value : String) (id : ElementId) (ns : Option String)
  | SetBoolAttribute (name : String) (value : Bool) (id : ElementId) (ns : Option String)
  | SetText (value : String) (id : ElementId)
  | NewEventListener (event : String)
  | RemoveEventListener (id : ElementId) (event : String)
  | RemoveAttribute (name : String) (id : ElementId)
  | Remove (id : ElementId)
  | InsertAfter (id : ElementId) (m : Nat)
  | InsertBefore (id : ElementId) (m : Nat)
  | MarkDirtyScope (scope : ScopeId)
  deriving Repr, DecidableEq

/-- How a diff computation can abort: `panicked` models `unwrap` /
`expect` failures and `todo!()` bodies, `assertFailed` models a
`debug_assert!` firing (assertions are modelled as always active), and
`fuelOut` is the recursion budget of the embedding running out (it never
occurs for sufficient fuel and is not a behaviour of the code). -/
inductive DiffErr where
  | panicked
  | assertFailed
  | fuelOut
  deriving Repr, DecidableEq

abbrev DiffT := Except DiffErr (List Mutation)

/-- `unwrap` / `expect` on an option. -/
def expectSome : Option α → Except DiffErr α
  | some a => .ok a
  | none => .error .panicked

/-- A dynamic attribute as the element diff reads it: compared by
`value`, re-emitted when `is_volatile` is set. -/
structure Attribute where
  name : String
  value : String
  isVolatile : Bool
  ns : Option String
  deriving Repr, DecidableEq

/-- An event listener as the element diff reads it (the `mounted_node`
cell writes have no effect on the mutation log and are dropped). -/
structure Listener where
  event : String
  deriving Repr, DecidableEq

/-- `VText`: text plus the lazily-assigned id cell. -/
structure VText where
  ptr : Nat
  text : String
  id : Option ElementId
  deriving Repr, DecidableEq

/-- `VPlaceholder`: just the id cell. -/
structure VPlaceholder where
  ptr : Nat
  id : Option ElementId
  deriving Repr, DecidableEq

/-- `VComponent`: function identity (`user_fc` as a numeric tag), the
memoization flag, the props slot (an opaque value, `None` once taken)
and the mounted scope back-reference. -/
structure VComponent where
  ptr : Nat
  key : Option String
  userFc : Nat
  canMemoize : Bool
  props : Option Nat
  scope : Option ScopeId
  deriving Repr, DecidableEq

/-- The tagged node union of `diffable.rs` (`VNode`). -/
inductive VNode where
  | Text (t : VText)
  | Placeholder (p : VPlaceholder)
  | Element (ptr : Nat) (tag : String) (ns : Option String) (id : Option ElementId)
      (attributes : List Attribute) (listeners : List Listener) (children : List VNode)
  | Fragment (ptr : Nat) (key : Option String) (children : List VNode)
  | Component (c : VComponent)
  deriving Repr

/-- Modelled from the spec: `VNode::key` is not among the source files;
per the data model (§3) keys live on Fragment and Component nodes and
the other kinds are unkeyed. -/
def VNode.key : VNode → Option String
  | .Fragment _ k _ => k
  | .Component c => c.key
  | _ => none

/-- One scope's entry in the arena as the component diff consumes it.
`props` is the stored props value, `memoSame p` is the stored props
object's `memoize` applied to incoming props `p`, `rootNode` is the
scope's current root (for anchor lookup through component nodes), and
`subtree` is — modelled from the spec, since `ScopeArena::run_scope` /
`fin_head` / `wip_head` are not among the source files — the mutation
sequence that re-running the scope and re-diffing its two buffers
produces. -/
structure ScopeEntry where
  props : Option Nat
  memoSame : Nat → Bool
  rootNode : VNode
  subtree : List Mutation

/-- The diff registry (`VDomRegestry`): the forced-diff flag and the
scope arena.  `nodes_to_place` is never incremented by any code path in
the source, so `take_created` is modelled as the constant 0 (see
`takeCreated`). -/
structure Registry where
  forceDiff : Bool
  scopes : List (ScopeId × ScopeEntry)

def Registry.getScope (reg : Registry) (s : ScopeId) : Option ScopeEntry :=
  (reg.scopes.find? (fun e => e.1 == s)).map (·.2)

def Registry.setProps (reg : Registry) (s : ScopeId) (p : Nat) : Registry :=
  { reg with
    scopes := reg.scopes.map (fun e => if e.1 == s then (e.1, { e.2 with props := some p }) else e) }

/-- `VDomRegestry::take_created` reads `nodes_to_place`; no code path in
the source ever increments that counter, so every take yields zero. -/
def takeCreated : Nat := 0

/-- `VText::diff`: short-circuit on pointer identity, otherwise compare
text and emit a set-text.  As written, the code passes `old.text` as the
value and resolves the id from the new node (`self.id`). -/
def diffText (new old : VText) : DiffT :=
  if new.ptr == old.ptr then .ok []
  else if new.text != old.text then do
    let id ← expectSome new.id
    .ok [.SetText old.text id]
  else .ok []

/-- `VPlaceholder::diff` is a no-op. -/
def diffPlaceholder (_new _old : VPlaceholder) : DiffT := .ok []

/-- Attribute part of `VElement::diff`: equal lengths compare
positionally and re-emit changed or volatile entries; unequal lengths
remove every old attribute and set every new one. -/
def diffAttributes (oldA newA : List Attribute) (root : ElementId) : List Mutation :=
  if oldA.length == newA.length then
    ((oldA.zip newA).map (fun p =>
      if p.1.value != p.2.value || p.2.isVolatile then
        [Mutation.SetAttribute p.2.name p.2.value root p.2.ns]
      else [])).flatten
  else
    oldA.map (fun a => Mutation.RemoveAttribute a.name root)
      ++ newA.map (fun a => Mutation.SetAttribute a.name a.value root a.ns)

/-- Listener part of `VElement::diff`: equal lengths compare events
positionally, unequal lengths remove all old listeners and add all new
ones. -/
def diffListeners (oldL newL : List Listener) (root : ElementId) : List Mutation :=
  if oldL.length == newL.length then
    ((oldL.zip newL).map (fun p =>
      if p.1.event != p.2.event then
        [Mutation.RemoveEventListener root p.1.event, Mutation.NewEventListener p.2.event]
      else [])).flatten
  else
    oldL.map (fun l => Mutation.RemoveEventListener root l.event)
      ++ newL.map (fun l => Mutation.NewEventListener l.event)

/-- `VElement::diff`: pointer short-circuit, resolve the root id from
the new node, bail out with no mutations when tag or namespace differ,
otherwise diff attributes then listeners.  Child diffing is commented
out in the source and therefore absent here. -/
def diffElement (nptr : Nat) (ntag : String) (nns : Option String) (nid : Option ElementId)
    (nattrs : List Attribute) (nls : List Listener)
    (optr : Nat) (otag : String) (ons : Option String)
    (oattrs : List Attribute) (ols : List Listener) : DiffT := do
  if nptr == optr then return []
  let root ← expectSome nid
  if ntag != otag || nns != ons then return []
  return diffAttributes oattrs nattrs root ++ diffListeners ols nls root

/-- `VComponent::diff`, returning the emitted mutations, the updated
scope arena and the list of scopes whose render function was invoked
(`run_scope` calls).  The memoized-skip path drops the incoming props
and leaves the arena untouched; the re-render path swaps the props in,
runs the scope and re-diffs its buffers (the latter two yield the
spec-modelled `subtree` of the entry, preceded by the dirty-scope
mark).  A changed function identity would destroy-and-create, but both
`VComponent::destroy` and `VComponent::create` are `todo!()`. -/
def diffComponentFull (reg : Registry) (new old : VComponent) :
    Except DiffErr (List Mutation × Registry × List ScopeId) := do
  let scopeAddr ← expectSome old.scope
  if new.ptr == old.ptr then return ([], reg, [])
  if old.userFc == new.userFc then do
    let entry ← expectSome (reg.getScope scopeAddr)
    let newProps ← expectSome new.props
    let shouldDiff ←
      if old.canMemoize then do
        let _stored ← expectSome entry.props
        pure (!(entry.memoSame newProps) || reg.forceDiff)
      else pure true
    if shouldDiff then
      return (Mutation.MarkDirtyScope scopeAddr :: entry.subtree,
        reg.setProps scopeAddr newProps, [scopeAddr])
    else
      return ([], reg, [])
  else .error .panicked

/-- The node-level operations the sibling-list diff calls out to
(`VNode::diff`, `VNode::create`, `VNode::destroy`, the anchor finders
and the create-and-insert helpers).  The keyed algorithm is defined
over this record and tied to the recursive engine afterwards, exactly
as the free functions in `diffable.rs` call back into the node
implementations. -/
structure KeyedOps where
  d : VNode → VNode → DiffT
  destroyN : VNode → DiffT
  destroyL : List VNode → DiffT
  createL : List VNode → DiffT
  createCnt : VNode → Except DiffErr (List Mutation × Nat)
  pushAll : VNode → Except DiffErr Nat
  fstEl : VNode → Except DiffErr (Option ElementId)
  lstEl : VNode → Except DiffErr (Option ElementId)
  cia : List VNode → VNode → DiffT
  cib : List VNode → VNode → DiffT
  cap : List VNode → DiffT

/-- The front scan of `diff_keyed_ends`: walk matching keys from the
left, diffing each matched pair in place; returns the emitted mutations
and the offset reached. -/
def scanLeftEnds (d : VNode → VNode → DiffT) : List VNode → List VNode →
    Except DiffErr (List Mutation × Nat)
  | o :: os, n :: ns =>
    if o.key == n.key then do
      let m ← d n o
      let (ms, l) ← scanLeftEnds d os ns
      pure (m ++ ms, l + 1)
    else pure ([], 0)
  | _, _ => pure ([], 0)

/-- `diff_keyed_ends`: left scan; if it consumed all of `old` the rest
of `new` is created-and-inserted after the last old node, if it
consumed all of `new` the old tail is destroyed (both finishing the
diff, returned as `none`); otherwise scan from the right over the
reversed lists and return both offsets. -/
def diffKeyedEnds (ops : KeyedOps) (old new : List VNode) :
    Except DiffErr (List Mutation × Option (Nat × Nat)) := do
  let (lmuts, l) ← scanLeftEnds ops.d old new
  if l == old.length then do
    let lastOld ← expectSome old.getLast?
    let ms ← ops.cia (new.drop l) lastOld
    pure (lmuts ++ ms, none)
  else if l == new.length then do
    let ms ← ops.destroyL (old.drop l)
    pure (lmuts ++ ms, none)
  else do
    let (rmuts, r) ← scanLeftEnds ops.d old.reverse new.reverse
    pure (lmuts ++ rmuts, some (l, r))

/-- The debug-build uniqueness check of `diff_keyed_children`: every
sibling carries a key and the keys are pairwise distinct (the code
inserts each key into a set and compares sizes). -/
def assertUniqueKeys (l : List VNode) : Bool :=
  l.all (fun c => c.key.isSome) && ((l.map VNode.key).dedup.length == l.length)

/-- `u32::MAX as usize`: the sentinel for a new key absent from the old
list. -/
def u32Max : Nat := 4294967295

/-- The `old key -> old index` map.  The code collects into a hash map,
so a later index overwrites an earlier one for a duplicated key. -/
def oldIndexOf (old : List VNode) (k : String) : Option Nat :=
  (old.enum.reverse.find? (fun p => p.2.key == some k)).map (·.1)

/-- `new_index_to_old_index`: each new key mapped to its old index, or
the sentinel when absent; a keyless sibling makes the `unwrap` panic. -/
def newIndexToOldIndex (old new : List VNode) : Except DiffErr (List Nat) :=
  new.mapM (fun node => do
    let k ← expectSome node.key
    match oldIndexOf old k with
    | some i => pure i
    | none => pure u32Max)

/-- The `shared_keys` set: keys of new-middle nodes that also occur in
the old middle. -/
def sharedKeyList (old new : List VNode) : List String :=
  (new.filterMap VNode.key).filter (fun k => (oldIndexOf old k).isSome)

/-- The positions `ixs` pick strictly increasing values out of `seq`. -/
def increasingAt (seq : List Nat) (ixs : List Nat) : Prop :=
  List.Chain' (· < ·) (ixs.map (fun i => seq.getD i 0))

instance (seq ixs : List Nat) : Decidable (increasingAt seq ixs) := by
  unfold increasingAt; infer_instance

/-- All strictly-increasing position subsequences of `seq`. -/
def lisCandidates (seq : List Nat) : List (List Nat) :=
  (List.range seq.length).sublists.filter (fun ixs => decide (increasingAt seq ixs))

/-- Modelled from the spec: the external `longest_increasing_subsequence`
crate's `lis_with` is not among the source files; per the spec (§4.3
step 4 and the glossary) it yields a longest strictly-increasing
subsequence of the index sequence.  We pick one of maximal length;
the crate's tie-breaking among equally long answers is unspecified.
The result is already in ascending position order, which is the state
the code's subsequent `sort_unstable` establishes. -/
def lisIndices (seq : List Nat) : List Nat :=
  (lisCandidates seq).foldl (fun best c => if best.length < c.length then c else best) []

/-- The length of a longest strictly-increasing subsequence of `seq` —
the `LIS_length` of the spec. -/
def LISLength (seq : List Nat) : Nat :=
  ((lisCandidates seq).map List.length).foldl max 0

/-- The sentinel pop after the LIS: if the last (largest) chosen
position maps to the sentinel it is discarded. -/
def lisAdjusted (seq : List Nat) : List Nat :=
  let lis := lisIndices seq
  if (lis.getLast?.map (fun i => seq.getD i 0)) == some u32Max then lis.dropLast else lis

/-- One run of not-in-LIS new-middle children (`diff_keyed_middle`'s
inner loops): a sentinel entry is created fresh, a shared entry is
diffed against its old counterpart and its real nodes counted; returns
the emitted mutations and the accumulated `nodes_created`. -/
def middleSegment (ops : KeyedOps) (old new : List VNode) (mapIdx : List Nat) :
    List Nat → Except DiffErr (List Mutation × Nat)
  | [] => pure ([], 0)
  | i :: rest => do
    let newNode ← expectSome new[i]?
    let oldIndex ← expectSome mapIdx[i]?
    let (ms, c) ←
      if oldIndex == u32Max then ops.createCnt newNode
      else do
        let oldNode ← expectSome old[oldIndex]?
        let ms ← ops.d newNode oldNode
        let c ← ops.pushAll newNode
        pure (ms, c)
    let (ms2, c2) ← middleSegment ops old new mapIdx rest
    pure (ms ++ ms2, c + c2)

/-- The mount instruction for the items beyond the last LIS member: a
single insert-after against the last LIS member's last real element. -/
def middleTailBlock (ops : KeyedOps) (old new : List VNode) (mapIdx : List Nat)
    (last : Nat) : DiffT :=
  if last < new.length - 1 then do
    let (ms, c) ← middleSegment ops old new mapIdx (List.range' (last + 1) (new.length - 1 - last))
    let anchor ← expectSome new[last]?
    let idOpt ← ops.lstEl anchor
    let id ← expectSome idOpt
    pure (ms ++ [Mutation.InsertAfter id c])
  else pure []

/-- The per-gap mount instructions between consecutive LIS members,
walked from the back (the code iterates the LIS in reverse); the input
list is the LIS in descending order. -/
def gapBlocks (ops : KeyedOps) (old new : List VNode) (mapIdx : List Nat) :
    List Nat → DiffT
  | last :: next :: rest => do
    let ms1 ←
      if last - next > 1 then do
        let (ms, c) ← middleSegment ops old new mapIdx
          (List.range' (next + 1) (last - next - 1))
        let anchor ← expectSome new[last]?
        let idOpt ← ops.fstEl anchor
        let id ← expectSome idOpt
        pure (ms ++ [Mutation.InsertBefore id c])
      else pure []
    let ms2 ← gapBlocks ops old new mapIdx (next :: rest)
    pure (ms1 ++ ms2)
  | _ => pure []

/-- The mount instruction for the items before the first LIS member: a
single insert-before against the first LIS member's first real
element. -/
def middleHeadBlock (ops : KeyedOps) (old new : List VNode) (mapIdx : List Nat)
    (first : Nat) : DiffT :=
  if first > 0 then do
    let (ms, c) ← middleSegment ops old new mapIdx (List.range first)
    let anchor ← expectSome new[first]?
    let idOpt ← ops.fstEl anchor
    let id ← expectSome idOpt
    pure (ms ++ [Mutation.InsertBefore id c])
  else pure []

/-- The in-place diffs of the LIS members themselves (no move
instructions). -/
def lisInPlaceDiffs (ops : KeyedOps) (old new : List VNode) (mapIdx : List Nat) :
    List Nat → DiffT
  | [] => pure []
  | i :: rest => do
    let newNode ← expectSome new[i]?
    let oldIndex ← expectSome mapIdx[i]?
    let oldNode ← expectSome old[oldIndex]?
    let m ← ops.d newNode oldNode
    let ms ← lisInPlaceDiffs ops old new mapIdx rest
    pure (m ++ ms)

/-- The removal loop over old-middle children whose key is not shared.
`self.remove_nodes([child], true)` is not among the source files; it is
modelled from the spec as the node's removal (its destroy). -/
def removeUnshared (ops : KeyedOps) (old : List VNode) (shared : List String) : DiffT := do
  let ms ← old.mapM (fun child => do
    let k ← expectSome child.key
    if shared.contains k then pure [] else ops.destroyN child)
  pure ms.flatten

/-- `diff_keyed_middle`: the first/last-key sanity asserts, the
index mapping, the no-shared-keys fast path (destroy the old middle
but its first node, create the new middle, replace the first old node
— `replace_inner` is not among the source files and is modelled from
the spec as a replace-with mutation at that node's first real element,
with the taken created-count), then removal of unshared old children,
the LIS, in-place diffs of LIS members, and the three mount-instruction
blocks. -/
def diffKeyedMiddle (ops : KeyedOps) (old new : List VNode) : DiffT := do
  if (new.head?.map VNode.key) == (old.head?.map VNode.key) then .error .assertFailed
  else if (new.getLast?.map VNode.key) == (old.getLast?.map VNode.key) then .error .assertFailed
  else do
  let mapIdx ← newIndexToOldIndex old new
  let shared := sharedKeyList old new
  if shared.isEmpty then
    match old.head? with
    | some firstOld => do
      let m1 ← ops.destroyL old.tail
      let m2 ← ops.createL new
      let idOpt ← ops.fstEl firstOld
      let id ← expectSome idOpt
      pure (m1 ++ m2 ++ [Mutation.ReplaceWith id takeCreated])
    | none => ops.cap new
  else do
    let removals ← removeUnshared ops old shared
    let lis := lisAdjusted mapIdx
    let inPlace ← lisInPlaceDiffs ops old new mapIdx lis
    let last ← expectSome lis.getLast?
    let msA ← middleTailBlock ops old new mapIdx last
    let msB ← gapBlocks ops old new mapIdx lis.reverse
    let first ← expectSome lis.head?
    let msC ← middleHeadBlock ops old new mapIdx first
    pure (removals ++ inPlace ++ msA ++ msB ++ msC)

/-- `diff_keyed_children`: uniqueness asserts on both lists, the
prefix/suffix scan, then the middle window (pure removal, pure
insertion with the appropriate foothold, or the general middle
algorithm). -/
def diffKeyedChildren (ops : KeyedOps) (old new : List VNode) : DiffT := do
  if !assertUniqueKeys old then .error .assertFailed
  else if !assertUniqueKeys new then .error .assertFailed
  else do
  let (ms0, offs) ← diffKeyedEnds ops old new
  match offs with
  | none => pure ms0
  | some (l, r) => do
    let oldMiddle := (old.drop l).take (old.length - r - l)
    let newMiddle := (new.drop l).take (new.length - r - l)
    if oldMiddle.length == newMiddle.length && oldMiddle.isEmpty then .error .assertFailed
    else if newMiddle.isEmpty then do
      let ms ← ops.destroyL oldMiddle
      pure (ms0 ++ ms)
    else if oldMiddle.isEmpty then
      if l == 0 then do
        let foothold ← expectSome old[old.length - r]?
        let ms ← ops.cib newMiddle foothold
        pure (ms0 ++ ms)
      else if r == 0 then do
        let foothold ← expectSome old.getLast?
        let ms ← ops.cia newMiddle foothold
        pure (ms0 ++ ms)
      else do
        let foothold ← expectSome old[l - 1]?
        let ms ← ops.cia newMiddle foothold
        pure (ms0 ++ ms)
    else do
      let ms ← diffKeyedMiddle ops oldMiddle newMiddle
      pure (ms0 ++ ms)

/-- `diff_non_keyed_children`: nonemptiness asserts, the tail handling
(destroy the old tail or create-and-insert the new tail after the last
old node), then the positional pair diffs over the common length. -/
def diffNonKeyedChildren (d : VNode → VNode → DiffT) (destroyN : VNode → DiffT)
    (cia : List VNode → VNode → DiffT) (old new : List VNode) : DiffT := do
  if new.isEmpty then .error .assertFailed
  else if old.isEmpty then .error .assertFailed
  else do
  let tail ←
    if new.length < old.length then do
      let ms ← (old.drop new.length).mapM destroyN
      pure ms.flatten
    else if old.length < new.length then do
      let lastOld ← expectSome old.getLast?
      cia (new.drop old.length) lastOld
    else pure []
  let pairs ← (new.zip old).mapM (fun p => d p.1 p.2)
  pure (tail ++ pairs.flatten)

mutual

/-- `VNode::create` dispatch: text and placeholder emit their creation
against the id cell's content (`unwrap` on an empty cell); element,
fragment and component creation are `todo!()` in the source and
panic. -/
def createVNodeF : Nat → Registry → VNode → DiffT
  | 0, _, _ => .error .fuelOut
  | _ + 1, _, v =>
    match v with
    | .Text t => do
      let id ← expectSome t.id
      pure [Mutation.CreateTextNode t.text id]
    | .Placeholder p => do
      let id ← expectSome p.id
      pure [Mutation.CreatePlaceholder id]
    | .Element _ _ _ _ _ _ _ => .error .panicked
    | .Fragment _ _ _ => .error .panicked
    | .Component _ => .error .panicked

/-- `<&[VNode]>::create`: create each node in order. -/
def createListF : Nat → Registry → List VNode → DiffT
  | 0, _, _ => .error .fuelOut
  | f + 1, reg, l => do
    let ms ← l.mapM (fun v => createVNodeF f reg v)
    pure ms.flatten

/-- `VNode::destroy` dispatch: a text node is removed only if its id
cell is populated, a placeholder unwraps its id; element, fragment and
component destruction are `todo!()` in the source and panic. -/
def destroyVNodeF : Nat → Registry → VNode → DiffT
  | 0, _, _ => .error .fuelOut
  | _ + 1, _, v =>
    match v with
    | .Text t => pure (match t.id with | some id => [Mutation.Remove id] | none => [])
    | .Placeholder p => do
      let id ← expectSome p.id
      pure [Mutation.Remove id]
    | .Element _ _ _ _ _ _ _ => .error .panicked
    | .Fragment _ _ _ => .error .panicked
    | .Component _ => .error .panicked

/-- `<&[VNode]>::destroy`: destroy each node in order. -/
def destroyListF : Nat → Registry → List VNode → DiffT
  | 0, _, _ => .error .fuelOut
  | f + 1, reg, l => do
    let ms ← l.mapM (fun v => destroyVNodeF f reg v)
    pure ms.flatten

/-- `find_first_element`: resolve through fragments (first child) and
components (the scope's root node) to the nearest concrete node's id
cell. -/
def findFirstElementF : Nat → Registry → VNode → Except DiffErr (Option ElementId)
  | 0, _, _ => .error .fuelOut
  | f + 1, reg, v =>
    match v with
    | .Text t => pure t.id
    | .Element _ _ _ id _ _ _ => pure id
    | .Placeholder p => pure p.id
    | .Fragment _ _ ch =>
      match ch.head? with
      | some c => findFirstElementF f reg c
      | none => .error .panicked
    | .Component c => do
      let sid ← expectSome c.scope
      let entry ← expectSome (reg.getScope sid)
      findFirstElementF f reg entry.rootNode

/-- `find_last_element`: as `find_first_element` but through a
fragment's last child. -/
def findLastElementF : Nat → Registry → VNode → Except DiffErr (Option ElementId)
  | 0, _, _ => .error .fuelOut
  | f + 1, reg, v =>
    match v with
    | .Text t => pure t.id
    | .Element _ _ _ id _ _ _ => pure id
    | .Placeholder p => pure p.id
    | .Fragment _ _ ch =>
      match ch.getLast? with
      | some c => findLastElementF f reg c
      | none => .error .panicked
    | .Component c => do
      let sid ← expectSome c.scope
      let entry ← expectSome (reg.getScope sid)
      findLastElementF f reg entry.rootNode

/-- Modelled from the spec: `push_all_real_nodes` is not among the
source files; per §4.3 it resolves a node to its concrete
(text/element/placeholder) nodes — recursing through fragments and into
a component's rendered root — and yields their count. -/
def pushAllRealNodesF : Nat → Registry → VNode → Except DiffErr Nat
  | 0, _, _ => .error .fuelOut
  | f + 1, reg, v =>
    match v with
    | .Text _ => pure 1
    | .Element _ _ _ _ _ _ _ => pure 1
    | .Placeholder _ => pure 1
    | .Fragment _ _ ch => do
      let ns ← ch.mapM (fun c => pushAllRealNodesF f reg c)
      pure ns.sum
    | .Component c => do
      let sid ← expectSome c.scope
      let entry ← expectSome (reg.getScope sid)
      pushAllRealNodesF f reg entry.rootNode

/-- `create_node` as `diff_keyed_middle` consumes it: create the node
and report how many real nodes the creation put on the stack. -/
def createNodeCntF : Nat → Registry → VNode → Except DiffErr (List Mutation × Nat)
  | 0, _, _ => .error .fuelOut
  | f + 1, reg, v => do
    let ms ← createVNodeF f reg v
    let n ← pushAllRealNodesF f reg v
    pure (ms, n)

/-- `create_and_insert_after`: create the nodes, take the created
count (always zero, see `takeCreated`), and insert after the anchor's
last real element. -/
def createAndInsertAfterF : Nat → Registry → List VNode → VNode → DiffT
  | 0, _, _, _ => .error .fuelOut
  | f + 1, reg, nodes, after => do
    let ms ← createListF f reg nodes
    let idOpt ← findLastElementF f reg after
    let id ← expectSome idOpt
    pure (ms ++ [Mutation.InsertAfter id takeCreated])

/-- `create_and_insert_before`: create the nodes, read
`nodes_to_place` (never written in the source, hence zero), and insert
before the anchor's first real element. -/
def createAndInsertBeforeF : Nat → Registry → List VNode → VNode → DiffT
  | 0, _, _, _ => .error .fuelOut
  | f + 1, reg, nodes, before => do
    let ms ← createListF f reg nodes
    let idOpt ← findFirstElementF f reg before
    let id ← expectSome idOpt
    pure (ms ++ [Mutation.InsertBefore id takeCreated])

/-- `create_and_append_children`. -/
def createAndAppendF : Nat → Registry → List VNode → DiffT
  | 0, _, _ => .error .fuelOut
  | f + 1, reg, nodes => do
    let ms ← createListF f reg nodes
    pure (ms ++ [Mutation.AppendChildren takeCreated])

/-- `<VNode as Diffable>::diff`: dispatch on the kind pair; same kinds
diff structurally, and a kind mismatch destroys the old node and
creates the new one.  The fragment case inlines `VFragment::diff`:
pointer short-circuit, the single-child fast path, the nonemptiness
asserts, then the sibling-list diff. -/
def diffVNodeF : Nat → Registry → VNode → VNode → DiffT
  | 0, _, _, _ => .error .fuelOut
  | f + 1, reg, new, old =>
    match new, old with
    | .Text nt, .Text ot => diffText nt ot
    | .Placeholder np, .Placeholder op => diffPlaceholder np op
    | .Element nptr ntag nns nid nattrs nls _, .Element optr otag ons _ oattrs ols _ =>
      diffElement nptr ntag nns nid nattrs nls optr otag ons oattrs ols
    | .Component nc, .Component oc => (diffComponentFull reg nc oc).map (·.1)
    | .Fragment nptr _ nch, .Fragment optr _ och =>
      if nptr == optr then pure []
      else
        match nch, och with
        | [n1], [o1] => diffVNodeF f reg n1 o1
        | _, _ =>
          if och.isEmpty then .error .assertFailed
          else if nch.isEmpty then .error .assertFailed
          else diffListF f reg och nch
    | n, o => do
      let m1 ← destroyVNodeF f reg o
      let m2 ← createVNodeF f reg n
      pure (m1 ++ m2)

/-- `<&[VNode]>::diff`: the empty cases, the keyed-homogeneity asserts,
then keyed or positional reconciliation.  (The source's
`std::ptr::eq(old, self)` compares the addresses of the two temporary
slice references and is dropped.) -/
def diffListF : Nat → Registry → List VNode → List VNode → DiffT
  | 0, _, _, _ => .error .fuelOut
  | f + 1, reg, old, new =>
    match old, new with
    | [], [] => pure []
    | [], _ :: _ => createAndAppendF f reg new
    | _ :: _, [] => destroyListF f reg old
    | o0 :: _, n0 :: _ =>
      let newKeyed := n0.key.isSome
      let oldKeyed := o0.key.isSome
      if !(new.all (fun n => n.key.isSome == newKeyed)) then .error .assertFailed
      else if !(old.all (fun o => o.key.isSome == oldKeyed)) then .error .assertFailed
      else if newKeyed && oldKeyed then
        diffKeyedChildren
          { d := fun n o => diffVNodeF f reg n o
            destroyN := fun v => destroyVNodeF f reg v
            destroyL := fun l => destroyListF f reg l
            createL := fun l => createListF f reg l
            createCnt := fun v => createNodeCntF f reg v
            pushAll := fun v => pushAllRealNodesF f reg v
            fstEl := fun v => findFirstElementF f reg v
            lstEl := fun v => findLastElementF f reg v
            cia := fun l v => createAndInsertAfterF f reg l v
            cib := fun l v => createAndInsertBeforeF f reg l v
            cap := fun l => createAndAppendF f reg l } old new
      else
        diffNonKeyedChildren (fun n o => diffVNodeF f reg n o)
          (fun v => destroyVNodeF f reg v)
          (fun l v => createAndInsertAfterF f reg l v) old new

end

/-- The engine's operations at a given fuel, for stating theorems about
the keyed subsystem as `diffListF` invokes it. -/
def tiedOps (f : Nat) (reg : Registry) : KeyedOps where
  d := fun n o => diffVNodeF f reg n o
  destroyN := fun v => destroyVNodeF f reg v
  destroyL := fun l => destroyListF f reg l
  createL := fun l => createListF f reg l
  createCnt := fun v => createNodeCntF f reg v
  pushAll := fun v => pushAllRealNodesF f reg v
  fstEl := fun v => findFirstElementF f reg v
  lstEl := fun v => findLastElementF f reg v
  cia := fun l v => createAndInsertAfterF f reg l v
  cib := fun l v => createAndInsertBeforeF f reg l v
  cap := fun l => createAndAppendF f reg l

/-!
The creation engine (`create.rs`) operates on the template-based node
model of `nodes.rs`, which is not among the source files; its structure
is reconstructed from how `create.rs` consumes it (a `VNode` holding a
template, the dynamic-node substitutions and the dynamic attributes).
-/

/-- A template attribute: only the static variant is materialized by
`create_static_node`; dynamic slots are skipped there. -/
inductive TemplateAttribute where
  | Static (name : String) (value : String) (ns : Option String)
  | Dynamic (idx : Nat)
  deriving Repr, DecidableEq

/-- A node of the cached static shape. -/
inductive TemplateNode where
  | Element (attrs : List TemplateAttribute) (children : List TemplateNode)
      (ns : Option String) (tag : String) (innerOpt : Bool)
  | Text (value : String)
  | DynamicText (idx : Nat)
  | Dynamic (idx : Nat)
  deriving Repr

/-- The immutable template: key, static roots, and the paths of the
dynamic substitutions (first entry = root index, rest = child path). -/
structure Template where
  id : String
  roots : List TemplateNode
  nodePaths : List (List Nat)
  attrPaths : List (List Nat)
  deriving Repr

/-- A dynamic attribute value; float/int/any/none values are `todo!()`
in `create.rs`. -/
inductive AttributeValue where
  | Text (value : String)
  | Bool (value : Bool)
  | Listener
  | Float
  | Int
  | AnyVal
  | NoneVal
  deriving Repr, DecidableEq

/-- A dynamic attribute (the `mounted_element` cell write is not
observable in the mutation log and is dropped). -/
structure DynAttr where
  name : String
  ns : Option String
  value : AttributeValue
  deriving Repr, DecidableEq

mutual

/-- The template-instance node consumed by `VirtualDom::create`. -/
inductive TNode where
  | mk (template : Template) (dynamicNodes : List DynamicNode) (dynamicAttrs : List DynAttr)

/-- A dynamic substitution.  The component variant's scope/suspense
machinery is settled separately (see `suspendBoundarySplit`); here its
creation is left as the panic it would be without that machinery. -/
inductive DynamicNode where
  | Text (id : Option ElementId) (value : String)
  | Component (props : Nat)
  | Fragment (nodes : List TNode)
  | Placeholder (id : Option ElementId)

end

def TNode.template : TNode → Template
  | .mk t _ _ => t

def TNode.dynamicNodes : TNode → List DynamicNode
  | .mk _ d _ => d

def TNode.dynamicAttrs : TNode → List DynAttr
  | .mk _ _ a => a

/-- The creation engine's state: the template registry, the element-id
counter (`next_element` is not among the source files; modelled from
the spec §3 as allocation from a counter), and the two mutation stores
of `Mutations` (`edits` and `template_mutations`). -/
structure CreateState where
  templates : List (String × Template)
  nextId : Nat
  edits : List Mutation
  templateEdits : List Mutation

def CreateState.emitE (st : CreateState) (m : Mutation) : CreateState :=
  { st with edits := st.edits ++ [m] }

def CreateState.emitT (st : CreateState) (m : Mutation) : CreateState :=
  { st with templateEdits := st.templateEdits ++ [m] }

def CreateState.alloc (st : CreateState) : Nat × CreateState :=
  (st.nextId, { st with nextId := st.nextId + 1 })

def CreateState.hasTemplate (st : CreateState) (key : String) : Bool :=
  st.templates.any (fun p => p.1 == key)

mutual

/-- `create_static_node`: emit the static shape into the template
store; a dynamic child becomes a placeholder, dynamic text a
placeholder text, an element emits itself, its static attributes, its
children and an append — unless it is a childless inner-optimized
element. -/
def createStaticNode (st : CreateState) : TemplateNode → CreateState
  | .Dynamic _ =>
    let (id, st) := st.alloc
    st.emitT (Mutation.CreatePlaceholder id)
  | .Text v => st.emitT (Mutation.CreateStaticText v)
  | .DynamicText _ => st.emitT (Mutation.CreateStaticText "placeholder")
  | .Element attrs children ns tag innerOpt =>
    let (id, st) := st.alloc
    let st := st.emitT (Mutation.CreateElement tag ns id)
    let st := attrs.foldl (fun s a =>
      match a with
      | .Static n v ans => s.emitT (Mutation.SetAttribute n v id ans)
      | .Dynamic _ => s) st
    if children.isEmpty && innerOpt then st
    else (createStaticNodeList st children).emitT (Mutation.AppendChildren children.length)

def createStaticNodeList (st : CreateState) : List TemplateNode → CreateState
  | [] => st
  | n :: ns => createStaticNodeList (createStaticNode st n) ns

end

/-- One dynamic attribute assignment (the match on `attribute.value`):
text and bool set the attribute, a listener registers an event
listener, the remaining variants are `todo!()`. -/
def setDynAttr (st : CreateState) (a : DynAttr) (id : ElementId) :
    Except DiffErr CreateState :=
  match a.value with
  | .Text v => .ok (st.emitE (Mutation.SetAttribute a.name v id a.ns))
  | .Bool v => .ok (st.emitE (Mutation.SetBoolAttribute a.name v id a.ns))
  | .Listener => .ok (st.emitE (Mutation.NewEventListener a.name))
  | _ => .error .panicked

/-- The dynamic-node collection loop of the root walk: pop consecutive
path entries rooted at `rootIdx`, skipping the length-one entries (the
roots themselves), and report the first and last qualifying indices
plus the remaining entries. -/
def collectDynNodes (rootIdx : Nat) :
    List (Nat × List Nat) → (Option Nat × Option Nat × List (Nat × List Nat))
  | [] => (none, none, [])
  | (i, p) :: rest =>
    if p.head? == some rootIdx then
      let (s, e, rem) := collectDynNodes rootIdx rest
      if p.length == 1 then (s, e, rem)
      else (some i, some (e.getD i), rem)
    else (none, none, (i, p) :: rest)

mutual

/-- `VirtualDom::create`: register the template on first sight (static
walk into the template store plus a save, and an insertion into the
registry), then walk the roots — loading cached roots, substituting
dynamic roots — interleaving the dynamic attribute and child
assignments; yields the number of nodes left on the stack. -/
def createF : Nat → CreateState → TNode → Except DiffErr (Nat × CreateState)
  | 0, _, _ => .error .fuelOut
  | f + 1, st0, v =>
    let tpl := v.template
    let st1 :=
      if st0.hasTemplate tpl.id then st0
      else
        let st := createStaticNodeList st0 tpl.roots
        let st := st.emitT (Mutation.SaveTemplate tpl.id tpl.roots.length)
        { st with templates := st.templates ++ [(tpl.id, tpl)] }
    rootsWalkF f st1 v 0 tpl.roots tpl.attrPaths.enum tpl.nodePaths.enum
termination_by structural f => f

/-- The enumerated walk over the template's roots. -/
def rootsWalkF : Nat → CreateState → TNode → Nat → List TemplateNode →
    List (Nat × List Nat) → List (Nat × List Nat) → Except DiffErr (Nat × CreateState)
  | 0, _, _, _, _, _, _ => .error .fuelOut
  | _ + 1, st, _, _, [], _, _ => .ok (0, st)
  | f + 1, st, v, rootIdx, root :: rest, attrs, nodes => do
    let (m, st, attrs, nodes) ← processRootF f st v rootIdx root attrs nodes
    let (m2, st) ← rootsWalkF f st v (rootIdx + 1) rest attrs nodes
    .ok (m + m2, st)
termination_by structural f => f

/-- The first step of one root of the walk: load a cached static root,
or substitute a dynamic one (a dynamic text pushes a `SetText` edit —
that is what the `Vec` store's `create_text` does — and a dynamic
placeholder its creation; fragments and components go through
`create_dynamic_node`). -/
def rootStepF : Nat → CreateState → TNode → Nat → TemplateNode →
    Except DiffErr (Nat × CreateState)
  | 0, _, _, _, _ => .error .fuelOut
  | f + 1, st, v, rootIdx, root =>
    match root with
    | .Element _ _ _ _ _ => .ok (1, st.emitE (Mutation.LoadTemplate v.template.id rootIdx))
    | .Text _ => .ok (1, st.emitE (Mutation.LoadTemplate v.template.id rootIdx))
    | .DynamicText i | .Dynamic i => do
      let dn ← expectSome v.dynamicNodes[i]?
      match dn with
      | .Fragment _ | .Component _ => createDynamicNodeF f st v dn i
      | .Text _ value =>
        let (id, st) := st.alloc
        .ok (1, st.emitE (Mutation.SetText value id))
      | .Placeholder _ =>
        let (id, st) := st.alloc
        .ok (1, st.emitE (Mutation.CreatePlaceholder id))
termination_by structural f => f

/-- The dynamic-child part of one root: collect this root's dynamic
descendants and substitute the collected range. -/
def dynPartF : Nat → CreateState → TNode → Nat → List (Nat × List Nat) →
    Except DiffErr (CreateState × List (Nat × List Nat))
  | 0, _, _, _, _ => .error .fuelOut
  | f + 1, st, v, rootIdx, nodes =>
    match collectDynNodes rootIdx nodes with
    | (some s, some e, nodes') => (dynRangeF f st v s (e + 1 - s)).map (fun st2 => (st2, nodes'))
    | (_, _, nodes') => .ok (st, nodes')
termination_by structural f => f

/-- One root of the walk: the root step, then the dynamic-attribute
loop, then the dynamic-child range for descendants of this root. -/
def processRootF : Nat → CreateState → TNode → Nat → TemplateNode →
    List (Nat × List Nat) → List (Nat × List Nat) →
    Except DiffErr (Nat × CreateState × List (Nat × List Nat) × List (Nat × List Nat))
  | 0, _, _, _, _, _, _ => .error .fuelOut
  | f + 1, st, v, rootIdx, root, attrs, nodes => do
    let p1 ← rootStepF f st v rootIdx root
    let p2 ← attrOuterF f p1.2 v rootIdx attrs
    let p3 ← dynPartF f p2.1 v rootIdx nodes
    .ok (p1.1, p3.1, p2.2, p3.2)
termination_by structural f => f

/-- The outer dynamic-attribute loop: for each run of attribute paths
rooted at this root, allocate an id, assign it at the path, then set
every consecutive attribute sharing that exact path. -/
def attrOuterF : Nat → CreateState → TNode → Nat → List (Nat × List Nat) →
    Except DiffErr (CreateState × List (Nat × List Nat))
  | 0, _, _, _, _ => .error .fuelOut
  | _ + 1, st, _, _, [] => .ok (st, [])
  | f + 1, st, v, rootIdx, (attrId, path) :: rest =>
    if path.head? == some rootIdx then do
      let (id, st) := st.alloc
      let st := st.emitE (Mutation.AssignId path.tail id)
      let (st, rest') ← attrInnerF f st v id path attrId rest
      attrOuterF f st v rootIdx rest'
    else .ok (st, (attrId, path) :: rest)
termination_by structural f => f

/-- The inner dynamic-attribute loop: set the attribute at `attrId`
(an out-of-range index panics, as does `todo!()` for exotic values),
then continue with the next entry only while it carries the same full
path. -/
def attrInnerF : Nat → CreateState → TNode → ElementId → List Nat → Nat →
    List (Nat × List Nat) → Except DiffErr (CreateState × List (Nat × List Nat))
  | 0, _, _, _, _, _, _ => .error .fuelOut
  | f + 1, st, v, id, path, attrId, rest => do
    let a ← expectSome v.dynamicAttrs[attrId]?
    let st ← setDynAttr st a id
    match rest with
    | (nextId, p) :: rest' =>
      if p == path then attrInnerF f st v id path nextId rest'
      else .ok (st, rest)
    | [] => .ok (st, [])
termination_by structural f => f

/-- The dynamic-child range `start..=end`: substitute each dynamic
node, replacing the placeholder at its path whenever the substitution
produced nodes. -/
def dynRangeF : Nat → CreateState → TNode → Nat → Nat → Except DiffErr CreateState
  | 0, _, _, _, _ => .error .fuelOut
  | _ + 1, st, _, _, 0 => .ok st
  | f + 1, st, v, idx, n + 1 => do
    let dn ← expectSome v.dynamicNodes[idx]?
    let (m, st) ← createDynamicNodeF f st v dn idx
    let st :=
      if m > 0 then
        st.emitE (Mutation.ReplacePlaceholder m
          ((v.template.nodePaths.getD idx []).tail))
      else st
    dynRangeF f st v (idx + 1) n
termination_by structural f => f

/-- `create_dynamic_node` for the variants reachable without the scope
machinery: dynamic text hydrates at its path, a placeholder gets an id
assigned at its path, a fragment creates each of its nodes; the
component path (scope creation, render, suspense bookkeeping) needs
the scope store, which is not among the source files — its
suspense-boundary split is settled separately by
`suspendBoundarySplit`. -/
def createDynamicNodeF : Nat → CreateState → TNode → DynamicNode → Nat →
    Except DiffErr (Nat × CreateState)
  | 0, _, _, _, _ => .error .fuelOut
  | f + 1, st, v, dn, idx =>
    match dn with
    | .Text _ value =>
      let (id, st) := st.alloc
      .ok (0, st.emitE (Mutation.HydrateText
        ((v.template.nodePaths.getD idx []).tail) value id))
    | .Component _ => .error .panicked
    | .Fragment nodes => createFragmentNodesF f st nodes
    | .Placeholder _ =>
      let (id, st) := st.alloc
      .ok (0, st.emitE (Mutation.AssignId
        ((v.template.nodePaths.getD idx []).tail) id))
termination_by structural f => f

/-- The fragment fold: accumulate the created-node counts of the
children. -/
def createFragmentNodesF : Nat → CreateState → List TNode →
    Except DiffErr (Nat × CreateState)
  | 0, _, _ => .error .fuelOut
  | _ + 1, st, [] => .ok (0, st)
  | f + 1, st, c :: cs => do
    let (m, st) ← createF f st c
    let (m2, st) ← createFragmentNodesF f st cs
    .ok (m + m2, st)
termination_by structural f => f

end

/-- The boundary branch of `create_dynamic_node` for a synchronous
component render with collected suspense leaves: the placeholder id is
assigned into the main log, `MutationStore::take` then empties the main
log into `split_off`, the recursive `create` for the component's
template writes into the now-empty main log, and `split_off` — the
pre-existing main-log prefix — is appended to the boundary's private
buffer.  `subtree` stands for the mutations that recursive `create`
emits.  Returns the main log and the boundary buffer after the
branch. -/
def suspendBoundarySplit (mainLog boundary : List Mutation)
    (assignPath : List Nat) (newId : ElementId) (subtree : List Mutation) :
    List Mutation × List Mutation :=
  let mainAssigned := mainLog ++ [Mutation.AssignId assignPath newId]
  let splitOff := mainAssigned
  let mainAfter := subtree
  (mainAfter, boundary ++ splitOff)

/-! ## Shared concrete inputs -/

/-- An empty registry: no forced diff, no scopes. -/
def regEmpty : Registry := ⟨false, []⟩

/-! ## C1 -/

/-- C1: at the spec's scenario — old text "a", new text "b", the
existing ElementId being 1 — the diff emits exactly one set-text
mutation, but it carries the OLD text "a" (and resolves the id from
the new node's cell), not the new value "b" the claim requires:
`VText::diff` passes `old.text` to `set_text` and reads `self.id`. -/
theorem c1_set_text_emits_old_text :
    diffText ⟨1, "b", some 1⟩ ⟨0, "a", some 1⟩ = .ok [.SetText "a" 1] := rfl

/-! ## C10 -/

/-- C10: an element-vs-element diff whose tag or namespace differ
emits no mutations at all — the old element is neither destroyed nor
replaced and no attribute or listener mutation appears — as the code
returns directly after the (modelled) id unwrap; the new node's id
cell must be populated because the code unwraps it before the tag
check. -/
theorem c10_element_kind_change_emits_nothing
    (f : Nat) (reg : Registry)
    (nptr : Nat) (ntag : String) (nns : Option String) (r : ElementId)
    (nattrs : List Attribute) (nls : List Listener) (nch : List VNode)
    (optr : Nat) (otag : String) (ons : Option String) (oid : Option ElementId)
    (oattrs : List Attribute) (ols : List Listener) (och : List VNode)
    (hne : ntag ≠ otag ∨ nns ≠ ons) :
    diffVNodeF (f + 1) reg
      (.Element nptr ntag nns (some r) nattrs nls nch)
      (.Element optr otag ons oid oattrs ols och) = .ok [] := by
  have hb : (ntag != otag || nns != ons) = true := by
    rcases hne with h | h
    · simp [bne_iff_ne, h]
    · simp [bne_iff_ne, h]
  simp only [diffVNodeF, diffElement, expectSome]
  by_cases hp : (nptr == optr) = true
  · simp [hp, pure, Except.pure]
  · simp only [Bool.not_eq_true] at hp
    simp [hp, hb, pure, Except.pure, Bind.bind, Except.bind]

/-- Witness for C10 at a concrete input: a `div` replacing a `span`
yields no mutations. -/
theorem c10_element_kind_change_emits_nothing_witness :
    diffVNodeF 1 regEmpty
      (.Element 1 "div" none (some 5) [] [] [])
      (.Element 0 "span" none (some 5) [] [] []) = .ok [] :=
  c10_element_kind_change_emits_nothing 0 regEmpty 1 "div" none 5 [] [] []
    0 "span" none (some 5) [] [] [] (Or.inl (by decide))

/-! ## C2 -/

/-- C2: a component-vs-component diff with identical function identity
whose memoization predicate reports the incoming props equal to the
stored ones, with the force-diff flag unset, runs no render function
(`run_scope` log empty), emits no mutations for the subtree, and
leaves the arena as it was. -/
theorem c2_memoized_skip_no_render_no_mutations
    (reg : Registry) (new old : VComponent) (s : ScopeId) (entry : ScopeEntry) (p : Nat)
    (hs : old.scope = some s)
    (hfc : old.userFc = new.userFc)
    (hm : old.canMemoize = true)
    (hget : reg.getScope s = some entry)
    (hp : new.props = some p)
    (hstored : entry.props.isSome = true)
    (hsame : entry.memoSame p = true)
    (hforce : reg.forceDiff = false) :
    diffComponentFull reg new old = .ok ([], reg, []) := by
  obtain ⟨stored, hstored'⟩ := Option.isSome_iff_exists.mp hstored
  by_cases hptr : (new.ptr == old.ptr) = true
  · simp [diffComponentFull, expectSome, hs, hptr, pure, Except.pure, Bind.bind, Except.bind]
  · simp only [Bool.not_eq_true] at hptr
    simp [diffComponentFull, expectSome, hs, hptr, hfc, hm, hget, hp, hstored',
      hsame, hforce, pure, Except.pure, Bind.bind, Except.bind]

def regC2 : Registry :=
  ⟨false, [(4, ⟨some 11, fun q => q == 11, .Placeholder ⟨0, none⟩, []⟩)]⟩

/-- Witness for C2: a memoizable component whose predicate accepts the
incoming props (11 vs stored 11) renders nothing and emits nothing. -/
theorem c2_memoized_skip_no_render_no_mutations_witness :
    diffComponentFull regC2 ⟨1, none, 3, true, some 11, none⟩
      ⟨0, none, 3, true, none, some 4⟩ = .ok ([], regC2, []) :=
  c2_memoized_skip_no_render_no_mutations regC2 _ _ 4
    ⟨some 11, fun q => q == 11, .Placeholder ⟨0, none⟩, []⟩ 11
    rfl rfl rfl rfl rfl rfl rfl rfl

/-! ## C3 -/

def regC3 : Registry :=
  ⟨false, [(7, ⟨some 10, fun _ => true, .Placeholder ⟨0, none⟩, []⟩)]⟩

def oldC3 : VComponent := ⟨0, none, 3, true, none, some 7⟩

def newC3 : VComponent := ⟨1, none, 3, true, some 20, none⟩

/-- C3 counterexample: a memoized skip with incoming props 20 over
stored props 10 returns the arena unchanged — the scope still stores
props 10, so a subsequent read sees the old value, not the new one;
the code's skip branch is `drop(new_props)`, not a swap. -/
theorem c3_counterexample_props_dropped_on_skip :
    diffComponentFull regC3 newC3 oldC3 = .ok ([], regC3, []) ∧
      (regC3.getScope 7).map ScopeEntry.props = some (some 10) ∧
      (some (some 10) : Option (Option Nat)) ≠ some (some 20) := by
  refine ⟨rfl, rfl, by simp⟩

/-- C3 amended: when the memoized skip occurs, the incoming props are
dropped and the scope's stored props are left unchanged, so a
subsequent read of the scope's props sees the previously stored
value. -/
theorem c3_memoized_skip_keeps_stored_props
    (reg : Registry) (new old : VComponent) (s : ScopeId) (entry : ScopeEntry)
    (p stored : Nat)
    (hs : old.scope = some s)
    (hfc : old.userFc = new.userFc)
    (hm : old.canMemoize = true)
    (hget : reg.getScope s = some entry)
    (hp : new.props = some p)
    (hstored : entry.props = some stored)
    (hsame : entry.memoSame p = true)
    (hforce : reg.forceDiff = false) :
    (diffComponentFull reg new old).map
      (fun t => (t.2.1.getScope s).map ScopeEntry.props) = .ok (some (some stored)) := by
  by_cases hptr : (new.ptr == old.ptr) = true
  · simp [diffComponentFull, expectSome, hs, hptr, hget, hstored, pure, Except.pure,
      Bind.bind, Except.bind, Except.map]
  · simp only [Bool.not_eq_true] at hptr
    simp [diffComponentFull, expectSome, hs, hptr, hfc, hm, hget, hp, hstored,
      hsame, hforce, pure, Except.pure, Bind.bind, Except.bind, Except.map]

/-- Witness for the amended C3 at the counterexample's input: the
post-diff read of the stored props yields 10. -/
theorem c3_memoized_skip_keeps_stored_props_witness :
    (diffComponentFull regC3 newC3 oldC3).map
      (fun t => (t.2.1.getScope 7).map ScopeEntry.props) = .ok (some (some 10)) :=
  c3_memoized_skip_keeps_stored_props regC3 newC3 oldC3 7
    ⟨some 10, fun _ => true, .Placeholder ⟨0, none⟩, []⟩ 20 10
    rfl rfl rfl rfl rfl rfl rfl rfl

/-! ## C4 -/

mutual

/-- Structural equality of trees disregarding pointer identity: the
claim's "identical copy" relation (same kinds, equal text, equal ids,
equal keys, equal attribute and listener lists). -/
def structEq : VNode → VNode → Bool
  | .Text a, .Text b => a.text == b.text && a.id == b.id
  | .Placeholder a, .Placeholder b => a.id == b.id
  | .Element _ atag ans aid aattrs als ach, .Element _ btag bns bid battrs bls bch =>
    atag == btag && ans == bns && aid == bid && aattrs == battrs && als == bls
      && structEqList ach bch
  | .Fragment _ ak ach, .Fragment _ bk bch => ak == bk && structEqList ach bch
  | .Component a, .Component b =>
    a.key == b.key && a.userFc == b.userFc && a.canMemoize == b.canMemoize
      && a.props == b.props && a.scope == b.scope
  | _, _ => false

def structEqList : List VNode → List VNode → Bool
  | [], [] => true
  | a :: xs, b :: ys => structEq a b && structEqList xs ys
  | _, _ => false

end

mutual

/-- The tree class of the amended C4: text and placeholder nodes,
elements with a populated id cell and no volatile attribute, and
fragments with at least one child whose children are all unkeyed; no
component nodes. -/
def goodTree : VNode → Bool
  | .Text _ => true
  | .Placeholder _ => true
  | .Element _ _ _ id attrs _ _ => id.isSome && attrs.all (fun a => !a.isVolatile)
  | .Fragment _ _ ch =>
    !ch.isEmpty && ch.all (fun c => c.key == none) && goodTreeList ch
  | .Component _ => false

def goodTreeList : List VNode → Bool
  | [] => true
  | c :: cs => goodTree c && goodTreeList cs

end

mutual

/-- Fuel sufficient to diff a tree of this shape against a copy. -/
def needF : VNode → Nat
  | .Fragment _ _ ch => needFList ch + 3
  | _ => 1

def needFList : List VNode → Nat
  | [] => 0
  | c :: cs => max (needF c) (needFList cs)

end

theorem structEq_key {a b : VNode} (h : structEq a b = true) : a.key = b.key := by
  cases a <;> cases b <;> simp_all [structEq, VNode.key]

theorem structEqList_length : ∀ {l2 l1 : List VNode},
    structEqList l2 l1 = true → l2.length = l1.length := by
  intro l2
  induction l2 with
  | nil => intro l1 h; cases l1 with
    | nil => rfl
    | cons b ys => simp [structEqList] at h
  | cons a xs ih => intro l1 h; cases l1 with
    | nil => simp [structEqList] at h
    | cons b ys =>
      simp only [structEqList, Bool.and_eq_true] at h
      simp [ih h.2]

theorem structEqList_zip : ∀ {l2 l1 : List VNode}, structEqList l2 l1 = true →
    ∀ p ∈ l2.zip l1, structEq p.1 p.2 = true := by
  intro l2
  induction l2 with
  | nil => intro l1 _ p hp; simp [List.zip] at hp
  | cons a xs ih => intro l1 h p hp; cases l1 with
    | nil => simp [List.zip] at hp
    | cons b ys =>
      simp only [structEqList, Bool.and_eq_true] at h
      rcases List.mem_cons.mp hp with rfl | hp'
      · exact h.1
      · exact ih h.2 p hp'

theorem structEqList_unkeyed : ∀ {l2 l1 : List VNode}, structEqList l2 l1 = true →
    (l1.all fun c => c.key == none) = true → (l2.all fun c => c.key == none) = true := by
  intro l2
  induction l2 with
  | nil => intro l1 _ _; rfl
  | cons a xs ih => intro l1 h hk; cases l1 with
    | nil => simp [structEqList] at h
    | cons b ys =>
      simp only [structEqList, Bool.and_eq_true] at h
      simp only [List.all_cons, Bool.and_eq_true] at hk ⊢
      refine ⟨?_, ih h.2 hk.2⟩
      have := structEq_key h.1
      simp only [this, hk.1]

theorem goodTreeList_mem : ∀ {l : List VNode}, goodTreeList l = true →
    ∀ c ∈ l, goodTree c = true := by
  intro l
  induction l with
  | nil => intro _ c hc; simp at hc
  | cons a xs ih =>
    intro h c hc
    simp only [goodTreeList, Bool.and_eq_true] at h
    rcases List.mem_cons.mp hc with rfl | hc'
    · exact h.1
    · exact ih h.2 c hc'

theorem needFList_mem : ∀ {l : List VNode}, ∀ c ∈ l, needF c ≤ needFList l := by
  intro l
  induction l with
  | nil => intro c hc; simp at hc
  | cons a xs ih =>
    intro c hc
    rcases List.mem_cons.mp hc with rfl | hc'
    · simp [needFList]
    · exact le_trans (ih c hc') (by simp [needFList])

theorem diffText_self {a b : VText} (h : a.text = b.text) : diffText a b = .ok [] := by
  unfold diffText
  by_cases hp : (a.ptr == b.ptr) = true
  · simp [hp]
  · simp only [Bool.not_eq_true] at hp
    simp [hp, h]

theorem diffAttributes_self (root : ElementId) :
    ∀ l : List Attribute, (l.all fun a => !a.isVolatile) = true →
    diffAttributes l l root = [] := by
  intro l hl
  unfold diffAttributes
  simp only [beq_self_eq_true, if_pos]
  induction l with
  | nil => rfl
  | cons a xs ih =>
    simp only [List.all_cons, Bool.and_eq_true] at hl
    have hv : a.isVolatile = false := by
      rcases hl with ⟨h1, _⟩
      revert h1; cases a.isVolatile <;> simp
    simp only [List.zip_cons_cons, List.map_cons, List.flatten_cons, bne_self_eq_false,
      Bool.false_or, hv, if_neg, List.nil_append]
    exact ih hl.2

theorem diffListeners_self (root : ElementId) :
    ∀ l : List Listener, diffListeners l l root = [] := by
  intro l
  unfold diffListeners
  simp only [beq_self_eq_true, if_pos]
  induction l with
  | nil => rfl
  | cons a xs ih =>
    simp only [List.zip_cons_cons, List.map_cons, List.flatten_cons, bne_self_eq_false,
      if_neg, List.nil_append]
    exact ih

theorem mapM_pair_nil (d : VNode → VNode → DiffT) :
    ∀ l : List (VNode × VNode), (∀ p ∈ l, d p.1 p.2 = .ok []) →
    l.mapM (fun p => d p.1 p.2) = .ok (l.map (fun _ => ([] : List Mutation))) := by
  intro l
  induction l with
  | nil => intro _; rfl
  | cons x xs ih =>
    intro h
    rw [List.mapM_cons, h x (List.mem_cons_self x xs), ih (fun p hp => h p (List.mem_cons_of_mem x hp))]
    rfl

theorem flatten_map_nil (l : List (VNode × VNode)) :
    (l.map (fun _ => ([] : List Mutation))).flatten = [] := by
  induction l with
  | nil => rfl
  | cons x xs ih => simp [ih]

/-- The positional diff of two equal-length nonempty unkeyed lists
whose pairwise diffs all emit nothing emits nothing. -/
theorem diffNonKeyed_self (d : VNode → VNode → DiffT) (destroyN : VNode → DiffT)
    (cia : List VNode → VNode → DiffT) (l1 l2 : List VNode)
    (h1 : l1 ≠ []) (hlen : l2.length = l1.length)
    (hd : ∀ p ∈ l2.zip l1, d p.1 p.2 = .ok []) :
    diffNonKeyedChildren d destroyN cia l1 l2 = .ok [] := by
  have h2 : l2 ≠ [] := by
    intro hnil
    apply h1
    rw [hnil] at hlen
    exact List.eq_nil_of_length_eq_zero hlen.symm
  unfold diffNonKeyedChildren
  rw [mapM_pair_nil d _ hd]
  simp [h1, h2, hlen, List.isEmpty_iff, flatten_map_nil, Bind.bind, Except.bind,
    pure, Except.pure]

/-- C4 amended, main induction: diffing a tree of the good class
against a structural copy emits no mutations, given sufficient
fuel. -/
theorem c4_self_diff (F : Nat) : ∀ (reg : Registry) (t1 t2 : VNode),
    goodTree t1 = true → structEq t2 t1 = true → needF t1 ≤ F →
    diffVNodeF F reg t2 t1 = .ok [] := by
  induction F using Nat.strong_induction_on with
  | _ F IH =>
    intro reg t1 t2 hg hs hf
    match F, t1, t2 with
    | 0, t1, _ =>
      exfalso
      cases t1 <;> simp [needF] at hf
    | f + 1, .Text ot, t2 =>
      cases t2 with
      | Text nt =>
        have ht : nt.text = ot.text := by
          simp only [structEq, Bool.and_eq_true, beq_iff_eq] at hs
          exact hs.1
        simpa [diffVNodeF] using diffText_self ht
      | Placeholder p => simp [structEq] at hs
      | Element a b c d e g i => simp [structEq] at hs
      | Fragment a b c => simp [structEq] at hs
      | Component c => simp [structEq] at hs
    | f + 1, .Placeholder op, t2 =>
      cases t2 with
      | Placeholder np => simp [diffVNodeF, diffPlaceholder]
      | Text t => simp [structEq] at hs
      | Element a b c d e g i => simp [structEq] at hs
      | Fragment a b c => simp [structEq] at hs
      | Component c => simp [structEq] at hs
    | f + 1, .Element optr otag ons oid oattrs ols och, t2 =>
      cases t2 with
      | Element nptr ntag nns nid nattrs nls nch =>
        simp only [structEq, Bool.and_eq_true, beq_iff_eq] at hs
        obtain ⟨⟨⟨⟨⟨htag, hns⟩, hid⟩, hattrs⟩, hls⟩, _⟩ := hs
        simp only [goodTree, Bool.and_eq_true] at hg
        obtain ⟨hids, hvol⟩ := hg
        obtain ⟨r, hr⟩ := Option.isSome_iff_exists.mp hids
        simp only [diffVNodeF, diffElement, hid, hr, expectSome, htag, hns,
          bne_self_eq_false, Bool.or_self, Bind.bind, Except.bind]
        simp [hattrs, hls, diffAttributes_self r oattrs hvol, diffListeners_self r ols,
          pure, Except.pure]
      | Text t => simp [structEq] at hs
      | Placeholder p => simp [structEq] at hs
      | Fragment a b c => simp [structEq] at hs
      | Component c => simp [structEq] at hs
    | f + 1, .Component oc, t2 =>
      simp [goodTree] at hg
    | f + 1, .Fragment optr okey och, t2 =>
      cases t2 with
      | Fragment nptr nkey nch =>
        simp only [structEq, Bool.and_eq_true] at hs
        obtain ⟨hkey, hch⟩ := hs
        simp only [goodTree, Bool.and_eq_true] at hg
        obtain ⟨⟨hne, hunk⟩, hgl⟩ := hg
        simp only [needF] at hf
        by_cases hptr : (nptr == optr) = true
        · simp [diffVNodeF, hptr, pure, Except.pure]
        · simp only [Bool.not_eq_true] at hptr
          have hlen := structEqList_length hch
          cases nch with
          | nil =>
            exfalso
            cases och with
            | nil => simp at hne
            | cons o1 otl => simp at hlen
          | cons n1 ntl =>
            cases och with
            | nil => simp at hlen
            | cons o1 otl =>
              cases ntl with
              | nil =>
                cases otl with
                | cons o2 otl' => simp at hlen
                | nil =>
                  simp only [structEqList, Bool.and_eq_true] at hch
                  simp only [goodTreeList, Bool.and_eq_true] at hgl
                  have hn1 : needF o1 ≤ f := by
                    have := needFList_mem o1 (List.mem_cons_self o1 ([] : List VNode))
                    omega
                  simp only [diffVNodeF, hptr, Bool.false_eq_true, if_neg]
                  exact IH f (by omega) reg o1 n1 hgl.1 hch.1 hn1
              | cons n2 ntl2 =>
                cases otl with
                | nil => simp at hlen
                | cons o2 otl2 =>
                  -- the sibling-list diff path
                  have hf2 : needFList (o1 :: o2 :: otl2) + 2 ≤ f := by omega
                  obtain ⟨f', rfl⟩ : ∃ f', f = f' + 1 := by
                    cases f with
                    | zero => omega
                    | succ k => exact ⟨k, rfl⟩
                  have hkeysO : ((o1 :: o2 :: otl2).all fun c => c.key == none) = true := hunk
                  have hkeysN := structEqList_unkeyed hch hkeysO
                  have hk1 : n1.key = none := by
                    have := List.all_eq_true.mp hkeysN n1 (by simp)
                    simpa using this
                  have hok1 : o1.key = none := by
                    have := List.all_eq_true.mp hkeysO o1 (by simp)
                    simpa using this
                  have hallN : ((n1 :: n2 :: ntl2).all fun n =>
                      n.key.isSome == (VNode.key n1).isSome) = true := by
                    rw [List.all_eq_true]
                    intro x hx
                    have := List.all_eq_true.mp hkeysN x hx
                    simp only [beq_iff_eq] at this
                    simp [this, hk1]
                  have hallO : ((o1 :: o2 :: otl2).all fun o =>
                      o.key.isSome == (VNode.key o1).isSome) = true := by
                    rw [List.all_eq_true]
                    intro x hx
                    have := List.all_eq_true.mp hkeysO x hx
                    simp only [beq_iff_eq] at this
                    simp [this, hok1]
                  have hpair : ∀ p ∈ (n1 :: n2 :: ntl2).zip (o1 :: o2 :: otl2),
                      diffVNodeF f' reg p.1 p.2 = .ok [] := by
                    intro p hp
                    have hmem := List.of_mem_zip hp
                    have hgood := goodTreeList_mem hgl p.2 hmem.2
                    have hseq := structEqList_zip hch p hp
                    have hneed : needF p.2 ≤ f' := by
                      have := needFList_mem p.2 hmem.2
                      omega
                    exact IH f' (by omega) reg p.2 p.1 hgood hseq hneed
                  have hmain := diffNonKeyed_self (fun n o => diffVNodeF f' reg n o)
                    (fun v => destroyVNodeF f' reg v)
                    (fun l v => createAndInsertAfterF f' reg l v)
                    (o1 :: o2 :: otl2) (n1 :: n2 :: ntl2)
                    (by simp) (by simpa using hlen) hpair
                  have hcondN : ¬(n2.key.isSome = true ∨ ∃ x ∈ ntl2, ¬x.key = none) := by
                    push_neg
                    constructor
                    · have := List.all_eq_true.mp hkeysN n2 (by simp)
                      simp only [beq_iff_eq] at this
                      simp [this]
                    · intro x hx
                      have := List.all_eq_true.mp hkeysN x (by simp [hx])
                      simpa using this
                  have hcondO : ¬(o2.key.isSome = true ∨ ∃ x ∈ otl2, ¬x.key = none) := by
                    push_neg
                    constructor
                    · have := List.all_eq_true.mp hkeysO o2 (by simp)
                      simp only [beq_iff_eq] at this
                      simp [this]
                    · intro x hx
                      have := List.all_eq_true.mp hkeysO x (by simp [hx])
                      simpa using this
                  simp only [diffVNodeF, hptr, Bool.false_eq_true, if_neg, diffListF]
                  simp only [hk1, hok1]
                  simp only [hk1] at hallN
                  simp only [hok1] at hallO
                  simp [hallN, hallO, hmain]
                  have hcN : ¬(n1.key.isSome = true ∨ n2.key.isSome = true ∨
                      ∃ x ∈ ntl2, ¬x.key = none) := by
                    rcases not_or.mp hcondN with ⟨h2, h3⟩
                    push_neg at h3 ⊢
                    exact ⟨by simp [hk1], h2, h3⟩
                  have hcO : ¬(o1.key.isSome = true ∨ o2.key.isSome = true ∨
                      ∃ x ∈ otl2, ¬x.key = none) := by
                    rcases not_or.mp hcondO with ⟨h2, h3⟩
                    push_neg at h3 ⊢
                    exact ⟨by simp [hok1], h2, h3⟩
                  rw [if_neg hcN, if_neg hcO]
      | Text t => simp [structEq] at hs
      | Placeholder p => simp [structEq] at hs
      | Element a b c d e g i => simp [structEq] at hs
      | Component c => simp [structEq] at hs

def volElemOld : VNode := .Element 0 "div" none (some 1) [⟨"style", "x", true, none⟩] [] []

def volElemNew : VNode := .Element 2 "div" none (some 1) [⟨"style", "x", true, none⟩] [] []

/-- C4 counterexample: a tree consisting of one element with a single
volatile attribute, diffed against an identical copy, emits a
set-attribute mutation — not zero mutations as the claim states. -/
theorem c4_counterexample_volatile_attribute :
    diffVNodeF 1 regEmpty volElemNew volElemOld = .ok [.SetAttribute "style" "x" 1 none] ∧
      diffVNodeF 1 regEmpty volElemNew volElemOld ≠ .ok [] := by
  refine ⟨rfl, ?_⟩
  intro h
  rw [show diffVNodeF 1 regEmpty volElemNew volElemOld =
    .ok [.SetAttribute "style" "x" 1 none] from rfl] at h
  simp at h

/-- Witness for the amended C4 at a concrete input: a two-child
fragment of a text and a placeholder, diffed against a copy of itself,
emits nothing. -/
theorem c4_self_diff_witness :
    diffVNodeF 6 regEmpty
      (.Fragment 10 none [.Text ⟨11, "x", some 1⟩, .Placeholder ⟨12, some 2⟩])
      (.Fragment 0 none [.Text ⟨1, "x", some 1⟩, .Placeholder ⟨2, some 2⟩]) = .ok [] :=
  c4_self_diff 6 regEmpty
    (.Fragment 0 none [.Text ⟨1, "x", some 1⟩, .Placeholder ⟨2, some 2⟩])
    (.Fragment 10 none [.Text ⟨11, "x", some 1⟩, .Placeholder ⟨12, some 2⟩])
    (by decide) (by decide) (by decide)

/-! ## C6 -/

def oldC6 : List VNode := [.Text ⟨0, "a", some 1⟩]

def newC6 : List VNode := [.Text ⟨2, "a", some 1⟩, .Element 3 "div" none none [] [] []]

/-- C6: on unkeyed lists of lengths 1 and 2 whose new tail is an
element, the claim requires exactly one node creation at the tail, but
the code panics: `VElement::create` is `todo!()`, so the
create-and-insert of the tail aborts instead of emitting the
creation. -/
theorem c6_unkeyed_tail_create_panics :
    diffListF 9 regEmpty oldC6 newC6 = .error .panicked := rfl

/-! ## C7 -/

def Mutation.isLoad : Mutation → Bool
  | .LoadTemplate _ _ => true
  | _ => false

def Mutation.isSave : Mutation → Bool
  | .SaveTemplate _ _ => true
  | _ => false

/-- The dynamic nodes whose creation needs no scope machinery. -/
def DynamicNode.isLeaf : DynamicNode → Bool
  | .Text _ _ => true
  | .Placeholder _ => true
  | _ => false

/-- The load-cached-template mutations a root walk emits: one per
static (element or text) root, indexed in order. -/
def staticLoads (key : String) : Nat → List TemplateNode → List Mutation
  | _, [] => []
  | i, .Element _ _ _ _ _ :: rest => .LoadTemplate key i :: staticLoads key (i + 1) rest
  | i, .Text _ :: rest => .LoadTemplate key i :: staticLoads key (i + 1) rest
  | i, _ :: rest => staticLoads key (i + 1) rest

/-- The invariant the root walk maintains: the template registry and
the template-mutation store are untouched, and the edit store's
load-template mutations grow by exactly `ls`. -/
def createInv (st st' : CreateState) (ls : List Mutation) : Prop :=
  st'.templates = st.templates ∧ st'.templateEdits = st.templateEdits ∧
    st'.edits.filter Mutation.isLoad = st.edits.filter Mutation.isLoad ++ ls

theorem createInv_rfl (st : CreateState) : createInv st st [] := ⟨rfl, rfl, by simp⟩

theorem createInv_trans {a b c : CreateState} {l1 l2 : List Mutation}
    (h1 : createInv a b l1) (h2 : createInv b c l2) : createInv a c (l1 ++ l2) := by
  obtain ⟨t1, e1, f1⟩ := h1
  obtain ⟨t2, e2, f2⟩ := h2
  exact ⟨t2.trans t1, e2.trans e1, by rw [f2, f1, List.append_assoc]⟩

theorem createInv_emitE {st : CreateState} {m : Mutation} (h : m.isLoad = false) :
    createInv st (st.emitE m) [] := by
  refine ⟨rfl, rfl, ?_⟩
  simp [CreateState.emitE, List.filter_append, h]

theorem createInv_emitE_load (st : CreateState) (k : String) (i : Nat) :
    createInv st (st.emitE (.LoadTemplate k i)) [.LoadTemplate k i] := by
  refine ⟨rfl, rfl, ?_⟩
  simp [CreateState.emitE, List.filter_append, Mutation.isLoad]

theorem createInv_alloc (st : CreateState) : createInv st st.alloc.2 [] := by
  refine ⟨rfl, rfl, by simp [CreateState.alloc]⟩

theorem setDynAttr_inv {st st' : CreateState} {a : DynAttr} {id : ElementId}
    (h : setDynAttr st a id = .ok st') : createInv st st' [] := by
  unfold setDynAttr at h
  cases hv : a.value <;> rw [hv] at h <;> simp only [Except.ok.injEq] at h <;>
    first
      | (subst h; exact createInv_emitE (by rfl))
      | (exact absurd h (by simp))

theorem attrInner_inv : ∀ (f : Nat) (st : CreateState) (v : TNode) (id : ElementId)
    (path : List Nat) (attrId : Nat) (rest : List (Nat × List Nat))
    (st' : CreateState) (rest' : List (Nat × List Nat)),
    attrInnerF f st v id path attrId rest = .ok (st', rest') → createInv st st' [] := by
  intro f
  induction f with
  | zero => intro st v id path attrId rest st' rest' h; exact absurd h (by simp [attrInnerF])
  | succ f ih =>
    intro st v id path attrId rest st' rest' h
    unfold attrInnerF at h
    cases hl : v.dynamicAttrs[attrId]? with
    | none => rw [hl] at h; exact absurd h (by simp [expectSome, Bind.bind, Except.bind])
    | some a =>
      rw [hl] at h
      simp only [expectSome, Bind.bind, Except.bind] at h
      cases hs : setDynAttr st a id with
      | error e => rw [hs] at h; exact absurd h (by simp)
      | ok st2 =>
        rw [hs] at h
        have h2 := setDynAttr_inv hs
        cases rest with
        | nil =>
          dsimp only at h
          simp only [Except.ok.injEq, Prod.mk.injEq] at h
          obtain ⟨rfl, rfl⟩ := h
          simpa using h2
        | cons nx rest2 =>
          obtain ⟨nxi, nxp⟩ := nx
          dsimp only at h
          by_cases hp : (nxp == path) = true
          · rw [if_pos hp] at h
            have h3 := ih st2 v id path nxi rest2 st' rest' h
            simpa using createInv_trans h2 h3
          · rw [if_neg (by simpa using hp)] at h
            simp only [Except.ok.injEq, Prod.mk.injEq] at h
            obtain ⟨rfl, rfl⟩ := h
            simpa using h2

theorem attrOuter_inv : ∀ (f : Nat) (st : CreateState) (v : TNode) (rootIdx : Nat)
    (attrs : List (Nat × List Nat)) (st' : CreateState) (rest' : List (Nat × List Nat)),
    attrOuterF f st v rootIdx attrs = .ok (st', rest') → createInv st st' [] := by
  intro f
  induction f with
  | zero => intro st v rootIdx attrs st' rest' h; exact absurd h (by simp [attrOuterF])
  | succ f ih =>
    intro st v rootIdx attrs st' rest' h
    unfold attrOuterF at h
    cases attrs with
    | nil =>
      simp only [Except.ok.injEq, Prod.mk.injEq] at h
      obtain ⟨rfl, rfl⟩ := h
      exact createInv_rfl st
    | cons x rest =>
      obtain ⟨xid, xpath⟩ := x
      dsimp only at h
      by_cases hp : (xpath.head? == some rootIdx) = true
      · rw [if_pos hp] at h
        simp only [Bind.bind, Except.bind] at h
        cases hinner : attrInnerF f (((st.alloc.2).emitE
            (Mutation.AssignId xpath.tail st.alloc.1))) v st.alloc.1 xpath xid rest with
        | error e => rw [hinner] at h; exact absurd h (by simp)
        | ok p =>
          obtain ⟨st2, rest2⟩ := p
          rw [hinner] at h
          dsimp only at h
          have hstep : createInv st ((st.alloc.2).emitE
              (Mutation.AssignId xpath.tail st.alloc.1)) [] := by
            simpa using createInv_trans (createInv_alloc st) (createInv_emitE (by rfl))
          have h2 := attrInner_inv f _ v _ _ _ _ _ _ hinner
          have h3 := ih st2 v rootIdx rest2 st' rest' h
          simpa using createInv_trans hstep (createInv_trans h2 h3)
      · rw [if_neg (by simpa using hp)] at h
        simp only [Except.ok.injEq, Prod.mk.injEq] at h
        obtain ⟨rfl, rfl⟩ := h
        exact createInv_rfl st

theorem createDynLeaf_inv : ∀ (f : Nat) (st : CreateState) (v : TNode) (dn : DynamicNode)
    (idx : Nat) (m : Nat) (st' : CreateState), dn.isLeaf = true →
    createDynamicNodeF f st v dn idx = .ok (m, st') → m = 0 ∧ createInv st st' [] := by
  intro f st v dn idx m st' hleaf h
  cases f with
  | zero => exact absurd h (by simp [createDynamicNodeF])
  | succ f =>
    cases dn with
    | Text i val =>
      unfold createDynamicNodeF at h
      simp only [Except.ok.injEq, Prod.mk.injEq] at h
      obtain ⟨hm, rfl⟩ := h
      refine ⟨hm.symm, ?_⟩
      simpa using createInv_trans (createInv_alloc st) (createInv_emitE (by rfl))
    | Placeholder i =>
      unfold createDynamicNodeF at h
      simp only [Except.ok.injEq, Prod.mk.injEq] at h
      obtain ⟨hm, rfl⟩ := h
      refine ⟨hm.symm, ?_⟩
      simpa using createInv_trans (createInv_alloc st) (createInv_emitE (by rfl))
    | Component p => simp [DynamicNode.isLeaf] at hleaf
    | Fragment ns => simp [DynamicNode.isLeaf] at hleaf

theorem dynRange_inv : ∀ (n f : Nat) (st : CreateState) (v : TNode) (idx : Nat)
    (st' : CreateState), (v.dynamicNodes.all DynamicNode.isLeaf) = true →
    dynRangeF f st v idx n = .ok st' → createInv st st' [] := by
  intro n
  induction n with
  | zero =>
    intro f st v idx st' _ h
    cases f with
    | zero => exact absurd h (by simp [dynRangeF])
    | succ f =>
      unfold dynRangeF at h
      simp only [Except.ok.injEq] at h
      subst h
      exact createInv_rfl st
  | succ n ih =>
    intro f st v idx st' hleaf h
    cases f with
    | zero => exact absurd h (by simp [dynRangeF])
    | succ f =>
      unfold dynRangeF at h
      cases hl : v.dynamicNodes[idx]? with
      | none => rw [hl] at h; exact absurd h (by simp [expectSome, Bind.bind, Except.bind])
      | some dn =>
        rw [hl] at h
        simp only [expectSome, Bind.bind, Except.bind] at h
        cases hc : createDynamicNodeF f st v dn idx with
        | error e => rw [hc] at h; exact absurd h (by simp)
        | ok p =>
          obtain ⟨m1, st2⟩ := p
          rw [hc] at h
          dsimp only at h
          have hdnleaf : dn.isLeaf = true := by
            have hmem : dn ∈ v.dynamicNodes := by
              have := List.getElem?_eq_some_iff.mp hl
              obtain ⟨hlt, hget⟩ := this
              exact hget ▸ List.getElem_mem hlt
            exact List.all_eq_true.mp hleaf dn hmem
          obtain ⟨hm0, hinv⟩ := createDynLeaf_inv f st v dn idx m1 st2 hdnleaf hc
          subst hm0
          rw [if_neg (by simp)] at h
          have h2 := ih f st2 v (idx + 1) st' hleaf h
          simpa using createInv_trans hinv h2

/-- The load mutations one root step contributes: one for a static
root, none for a dynamic one. -/
def rootLoads (key : String) (rootIdx : Nat) : TemplateNode → List Mutation
  | .Element _ _ _ _ _ => [.LoadTemplate key rootIdx]
  | .Text _ => [.LoadTemplate key rootIdx]
  | _ => []

theorem rootStep_inv (f : Nat) (st : CreateState) (v : TNode) (rootIdx : Nat)
    (root : TemplateNode) (m : Nat) (st' : CreateState)
    (hleaf : (v.dynamicNodes.all DynamicNode.isLeaf) = true)
    (h : rootStepF f st v rootIdx root = .ok (m, st')) :
    createInv st st' (rootLoads v.template.id rootIdx root) := by
  cases f with
  | zero => exact absurd h (by simp [rootStepF])
  | succ f =>
    cases root with
    | Element a b c d e =>
      unfold rootStepF at h
      dsimp only at h
      simp only [Except.ok.injEq, Prod.mk.injEq] at h
      obtain ⟨rfl, rfl⟩ := h
      exact createInv_emitE_load st v.template.id rootIdx
    | Text tv =>
      unfold rootStepF at h
      dsimp only at h
      simp only [Except.ok.injEq, Prod.mk.injEq] at h
      obtain ⟨rfl, rfl⟩ := h
      exact createInv_emitE_load st v.template.id rootIdx
    | DynamicText i =>
      unfold rootStepF at h
      dsimp only at h
      cases hl : v.dynamicNodes[i]? with
      | none => rw [hl] at h; exact absurd h (by simp [expectSome, Bind.bind, Except.bind])
      | some dn =>
        rw [hl] at h
        simp only [expectSome, Bind.bind, Except.bind] at h
        have hdnleaf : dn.isLeaf = true := by
          have hmem : dn ∈ v.dynamicNodes := by
            have := List.getElem?_eq_some_iff.mp hl
            obtain ⟨hlt, hget⟩ := this
            exact hget ▸ List.getElem_mem hlt
          exact List.all_eq_true.mp hleaf dn hmem
        cases dn with
        | Component p => simp [DynamicNode.isLeaf] at hdnleaf
        | Fragment ns => simp [DynamicNode.isLeaf] at hdnleaf
        | Text ti tval =>
          dsimp only at h
          simp only [Except.ok.injEq, Prod.mk.injEq] at h
          obtain ⟨rfl, rfl⟩ := h
          simpa [rootLoads] using
            createInv_trans (createInv_alloc st) (createInv_emitE (by rfl))
        | Placeholder pi =>
          dsimp only at h
          simp only [Except.ok.injEq, Prod.mk.injEq] at h
          obtain ⟨rfl, rfl⟩ := h
          simpa [rootLoads] using
            createInv_trans (createInv_alloc st) (createInv_emitE (by rfl))
    | Dynamic i =>
      unfold rootStepF at h
      dsimp only at h
      cases hl : v.dynamicNodes[i]? with
      | none => rw [hl] at h; exact absurd h (by simp [expectSome, Bind.bind, Except.bind])
      | some dn =>
        rw [hl] at h
        simp only [expectSome, Bind.bind, Except.bind] at h
        have hdnleaf : dn.isLeaf = true := by
          have hmem : dn ∈ v.dynamicNodes := by
            have := List.getElem?_eq_some_iff.mp hl
            obtain ⟨hlt, hget⟩ := this
            exact hget ▸ List.getElem_mem hlt
          exact List.all_eq_true.mp hleaf dn hmem
        cases dn with
        | Component p => simp [DynamicNode.isLeaf] at hdnleaf
        | Fragment ns => simp [DynamicNode.isLeaf] at hdnleaf
        | Text ti tval =>
          dsimp only at h
          simp only [Except.ok.injEq, Prod.mk.injEq] at h
          obtain ⟨rfl, rfl⟩ := h
          simpa [rootLoads] using
            createInv_trans (createInv_alloc st) (createInv_emitE (by rfl))
        | Placeholder pi =>
          dsimp only at h
          simp only [Except.ok.injEq, Prod.mk.injEq] at h
          obtain ⟨rfl, rfl⟩ := h
          simpa [rootLoads] using
            createInv_trans (createInv_alloc st) (createInv_emitE (by rfl))

theorem dynPart_inv (f : Nat) (st : CreateState) (v : TNode) (rootIdx : Nat)
    (nodes : List (Nat × List Nat)) (st' : CreateState) (nodes' : List (Nat × List Nat))
    (hleaf : (v.dynamicNodes.all DynamicNode.isLeaf) = true)
    (h : dynPartF f st v rootIdx nodes = .ok (st', nodes')) : createInv st st' [] := by
  cases f with
  | zero => exact absurd h (by simp [dynPartF])
  | succ f =>
    unfold dynPartF at h
    rcases hcol : collectDynNodes rootIdx nodes with ⟨s, e, nodes2⟩
    rw [hcol] at h
    cases s with
    | none =>
      dsimp only at h
      simp only [Except.ok.injEq, Prod.mk.injEq] at h
      obtain ⟨rfl, rfl⟩ := h
      exact createInv_rfl st
    | some sv =>
      cases e with
      | none =>
        dsimp only at h
        simp only [Except.ok.injEq, Prod.mk.injEq] at h
        obtain ⟨rfl, rfl⟩ := h
        exact createInv_rfl st
      | some ev =>
        dsimp only at h
        cases hdr : dynRangeF f st v sv (ev + 1 - sv) with
        | error er => rw [hdr] at h; exact absurd h (by simp [Except.map])
        | ok st2 =>
          rw [hdr] at h
          simp only [Except.map, Except.ok.injEq, Prod.mk.injEq] at h
          obtain ⟨rfl, rfl⟩ := h
          exact dynRange_inv (ev + 1 - sv) f st v sv st2 hleaf hdr

theorem processRoot_inv (f : Nat) (st : CreateState) (v : TNode) (rootIdx : Nat)
    (root : TemplateNode) (attrs nodes : List (Nat × List Nat))
    (m : Nat) (st' : CreateState) (attrs' nodes' : List (Nat × List Nat))
    (hleaf : (v.dynamicNodes.all DynamicNode.isLeaf) = true)
    (h : processRootF f st v rootIdx root attrs nodes = .ok (m, st', attrs', nodes')) :
    createInv st st' (rootLoads v.template.id rootIdx root) := by
  cases f with
  | zero => exact absurd h (by simp [processRootF])
  | succ f =>
    unfold processRootF at h
    simp only [Bind.bind, Except.bind] at h
    cases h1 : rootStepF f st v rootIdx root with
    | error e => rw [h1] at h; exact absurd h (by simp)
    | ok p1 =>
      rw [h1] at h
      dsimp only at h
      cases h2 : attrOuterF f p1.2 v rootIdx attrs with
      | error e => rw [h2] at h; exact absurd h (by simp)
      | ok p2 =>
        rw [h2] at h
        dsimp only at h
        cases h3 : dynPartF f p2.1 v rootIdx nodes with
        | error e => rw [h3] at h; exact absurd h (by simp)
        | ok p3 =>
          rw [h3] at h
          dsimp only at h
          simp only [Except.ok.injEq, Prod.mk.injEq] at h
          obtain ⟨rfl, rfl, rfl, rfl⟩ := h
          have i1 := rootStep_inv f st v rootIdx root p1.1 p1.2 hleaf (by
            simpa using h1)
          have i2 := attrOuter_inv f p1.2 v rootIdx attrs p2.1 p2.2 (by simpa using h2)
          have i3 := dynPart_inv f p2.1 v rootIdx nodes p3.1 p3.2 hleaf (by simpa using h3)
          have h4 := createInv_trans i1 (createInv_trans i2 i3)
          have h5 : rootLoads v.template.id rootIdx root ++ ([] ++ []) =
              rootLoads v.template.id rootIdx root := by simp
          rw [h5] at h4
          exact h4

theorem staticLoads_cons (key : String) (i : Nat) (root : TemplateNode)
    (rest : List TemplateNode) :
    staticLoads key i (root :: rest) = rootLoads key i root ++ staticLoads key (i + 1) rest := by
  cases root <;> rfl

theorem rootsWalk_inv : ∀ (roots : List TemplateNode) (f : Nat) (st : CreateState)
    (v : TNode) (rootIdx : Nat) (attrs nodes : List (Nat × List Nat)) (m : Nat)
    (st' : CreateState), (v.dynamicNodes.all DynamicNode.isLeaf) = true →
    rootsWalkF f st v rootIdx roots attrs nodes = .ok (m, st') →
    createInv st st' (staticLoads v.template.id rootIdx roots) := by
  intro roots
  induction roots with
  | nil =>
    intro f st v rootIdx attrs nodes m st' _ h
    cases f with
    | zero => exact absurd h (by simp [rootsWalkF])
    | succ f =>
      unfold rootsWalkF at h
      simp only [Except.ok.injEq, Prod.mk.injEq] at h
      obtain ⟨rfl, rfl⟩ := h
      exact createInv_rfl st
  | cons root rest ih =>
    intro f st v rootIdx attrs nodes m st' hleaf h
    cases f with
    | zero => exact absurd h (by simp [rootsWalkF])
    | succ f =>
      unfold rootsWalkF at h
      simp only [Bind.bind, Except.bind] at h
      cases h1 : processRootF f st v rootIdx root attrs nodes with
      | error e => rw [h1] at h; exact absurd h (by simp)
      | ok p1 =>
        rw [h1] at h
        dsimp only at h
        cases h2 : rootsWalkF f p1.2.1 v (rootIdx + 1) rest p1.2.2.1 p1.2.2.2 with
        | error e => rw [h2] at h; exact absurd h (by simp)
        | ok p2 =>
          rw [h2] at h
          dsimp only at h
          simp only [Except.ok.injEq, Prod.mk.injEq] at h
          obtain ⟨rfl, rfl⟩ := h
          have i1 := processRoot_inv f st v rootIdx root attrs nodes p1.1 p1.2.1 p1.2.2.1
            p1.2.2.2 hleaf (by simpa using h1)
          have i2 := ih f p1.2.1 v (rootIdx + 1) p1.2.2.1 p1.2.2.2 p2.1 p2.2 hleaf
            (by simpa using h2)
          rw [staticLoads_cons]
          exact createInv_trans i1 i2

/-- What the static-shape walk leaves untouched: the registry, the
saved-template count of the template store, and the edit store. -/
def tOnly (st st' : CreateState) : Prop :=
  st'.templates = st.templates ∧
    st'.templateEdits.filter Mutation.isSave = st.templateEdits.filter Mutation.isSave ∧
    st'.edits = st.edits

theorem tOnly_rfl (st : CreateState) : tOnly st st := ⟨rfl, rfl, rfl⟩

theorem tOnly_trans {a b c : CreateState} (h1 : tOnly a b) (h2 : tOnly b c) : tOnly a c :=
  ⟨h2.1.trans h1.1, h2.2.1.trans h1.2.1, h2.2.2.trans h1.2.2⟩

theorem tOnly_emitT {st : CreateState} {m : Mutation} (h : m.isSave = false) :
    tOnly st (st.emitT m) := by
  refine ⟨rfl, ?_, rfl⟩
  simp [CreateState.emitT, List.filter_append, h]

theorem tOnly_alloc (st : CreateState) : tOnly st st.alloc.2 := ⟨rfl, rfl, rfl⟩

theorem tOnly_attrFold (id : ElementId) : ∀ (l : List TemplateAttribute) (st : CreateState),
    tOnly st (l.foldl (fun s a =>
      match a with
      | .Static n val ans => s.emitT (Mutation.SetAttribute n val id ans)
      | .Dynamic _ => s) st) := by
  intro l
  induction l with
  | nil => intro st; exact tOnly_rfl st
  | cons a rest ih =>
    intro st
    cases a with
    | Static n val ans =>
      exact tOnly_trans (tOnly_emitT (by rfl)) (ih _)
    | Dynamic i => exact ih st

theorem createStatic_inv_aux : ∀ (n : Nat),
    (∀ t : TemplateNode, sizeOf t ≤ n → ∀ st, tOnly st (createStaticNode st t)) ∧
    (∀ l : List TemplateNode, sizeOf l ≤ n → ∀ st, tOnly st (createStaticNodeList st l)) := by
  intro n
  induction n using Nat.strong_induction_on with
  | _ n IH =>
    have IHt : ∀ m, m < n → ∀ t : TemplateNode, sizeOf t ≤ m → ∀ st,
        tOnly st (createStaticNode st t) := fun m hm => (IH m hm).1
    have IHl : ∀ m, m < n → ∀ l : List TemplateNode, sizeOf l ≤ m → ∀ st,
        tOnly st (createStaticNodeList st l) := fun m hm => (IH m hm).2
    constructor
    · intro t hsz st
      cases t with
      | Dynamic i =>
        unfold createStaticNode
        exact tOnly_trans (tOnly_alloc st) (tOnly_emitT (by rfl))
      | Text tv => exact tOnly_emitT (by rfl)
      | DynamicText i => exact tOnly_emitT (by rfl)
      | Element tattrs children ns tag innerOpt =>
        have hlt : sizeOf children < n := by
          have h1 : sizeOf children <
              sizeOf (TemplateNode.Element tattrs children ns tag innerOpt) := by
            rw [TemplateNode.Element.sizeOf_spec]
            omega
          omega
        have hlist := IHl (sizeOf children) hlt children (le_refl _)
        unfold createStaticNode
        dsimp only [CreateState.alloc]
        have h1 : tOnly st ((st.alloc.2).emitT (Mutation.CreateElement tag ns st.alloc.1)) :=
          tOnly_trans (tOnly_alloc st) (tOnly_emitT (by rfl))
        have h2 := tOnly_attrFold st.alloc.1 tattrs
          ((st.alloc.2).emitT (Mutation.CreateElement tag ns st.alloc.1))
        by_cases hcase : (children.isEmpty && innerOpt) = true
        · rw [if_pos hcase]
          exact tOnly_trans h1 h2
        · rw [if_neg hcase]
          exact tOnly_trans h1 (tOnly_trans h2 (tOnly_trans (hlist _) (tOnly_emitT (by rfl))))
    · intro l hsz st
      cases l with
      | nil => exact tOnly_rfl st
      | cons t rest =>
        have ht : sizeOf t < n := by
          have : sizeOf t < sizeOf (t :: rest) := by
            rw [List.cons.sizeOf_spec]
            omega
          omega
        have hr : sizeOf rest < n := by
          have : sizeOf rest < sizeOf (t :: rest) := by
            rw [List.cons.sizeOf_spec]
            omega
          omega
        unfold createStaticNodeList
        exact tOnly_trans (IHt (sizeOf t) ht t (le_refl _) st)
          (IHl (sizeOf rest) hr rest (le_refl _) _)

theorem createStatic_list_inv (l : List TemplateNode) (st : CreateState) :
    tOnly st (createStaticNodeList st l) :=
  (createStatic_inv_aux (sizeOf l)).2 l (le_refl _) st

/-- C7: template registration is idempotent.  First part: creating an
instance whose template key is already registered leaves the registry
and the template-mutation store untouched and appends to the edit
store exactly one load-cached-template mutation per static root (in
root order).  Second part: an unregistered key is registered exactly
once — the registry gains the template and the template store gains
exactly one save-template mutation.  (Stated for instances whose
dynamic nodes are texts and placeholders, the substitutions that need
no scope machinery.) -/
theorem c7_registration_idempotent :
    (∀ (f : Nat) (st : CreateState) (v : TNode) (m : Nat) (st' : CreateState),
      ((TNode.dynamicNodes v).all DynamicNode.isLeaf) = true →
      st.hasTemplate (TNode.template v).id = true →
      createF (f + 1) st v = .ok (m, st') →
      st'.templates = st.templates ∧ st'.templateEdits = st.templateEdits ∧
        st'.edits.filter Mutation.isLoad = st.edits.filter Mutation.isLoad ++
          staticLoads (TNode.template v).id 0 (TNode.template v).roots) ∧
    (∀ (f : Nat) (st : CreateState) (v : TNode) (m : Nat) (st' : CreateState),
      ((TNode.dynamicNodes v).all DynamicNode.isLeaf) = true →
      st.hasTemplate (TNode.template v).id = false →
      createF (f + 1) st v = .ok (m, st') →
      st'.templates = st.templates ++ [((TNode.template v).id, TNode.template v)] ∧
        st'.templateEdits.filter Mutation.isSave = st.templateEdits.filter Mutation.isSave ++
          [.SaveTemplate (TNode.template v).id (TNode.template v).roots.length]) := by
  constructor
  · intro f st v m st' hleaf hreg h
    unfold createF at h
    dsimp only at h
    rw [hreg] at h
    simp only [eq_self_iff_true, if_true] at h
    exact rootsWalk_inv (TNode.template v).roots f st v 0 (TNode.template v).attrPaths.enum
      (TNode.template v).nodePaths.enum m st' hleaf h
  · intro f st v m st' hleaf hreg h
    unfold createF at h
    dsimp only at h
    rw [hreg] at h
    rw [if_neg (by simp)] at h
    have hwalk := rootsWalk_inv (TNode.template v).roots f _ v 0
      (TNode.template v).attrPaths.enum (TNode.template v).nodePaths.enum m st' hleaf h
    have hstat := createStatic_list_inv (TNode.template v).roots st
    obtain ⟨ht1, ht2, _⟩ := hwalk
    obtain ⟨hs1, hs2, _⟩ := hstat
    constructor
    · rw [ht1]
      simp only [CreateState.emitT]
      rw [hs1]
    · rw [ht2]
      simp only [CreateState.emitT, List.filter_append]
      rw [hs2]
      simp [Mutation.isSave]

def tplC7 : Template := ⟨"k", [.Text "hi"], [], []⟩

def vC7 : TNode := .mk tplC7 [] []

def stC7 : CreateState := ⟨[("k", tplC7)], 0, [], []⟩

def stC7u : CreateState := ⟨[], 0, [], []⟩

/-- Witness for C7 at a concrete template (key "k", one static text
root): a registered creation leaves the registry and template store
alone and loads the cached root; an unregistered creation registers
once and saves once. -/
theorem c7_registration_idempotent_witness :
    ((⟨[("k", tplC7)], 0, [Mutation.LoadTemplate "k" 0], []⟩ : CreateState).templates =
        stC7.templates ∧
      (⟨[("k", tplC7)], 0, [Mutation.LoadTemplate "k" 0], []⟩ : CreateState).templateEdits =
        stC7.templateEdits ∧
      (⟨[("k", tplC7)], 0, [Mutation.LoadTemplate "k" 0], []⟩ : CreateState).edits.filter
          Mutation.isLoad =
        stC7.edits.filter Mutation.isLoad ++ staticLoads (TNode.template vC7).id 0
          (TNode.template vC7).roots) ∧
    ((⟨[("k", tplC7)], 0, [Mutation.LoadTemplate "k" 0],
          [Mutation.CreateStaticText "hi", Mutation.SaveTemplate "k" 1]⟩ : CreateState).templates =
        stC7u.templates ++ [((TNode.template vC7).id, TNode.template vC7)] ∧
      (⟨[("k", tplC7)], 0, [Mutation.LoadTemplate "k" 0],
          [Mutation.CreateStaticText "hi", Mutation.SaveTemplate "k" 1]⟩ :
            CreateState).templateEdits.filter Mutation.isSave =
        stC7u.templateEdits.filter Mutation.isSave ++
          [.SaveTemplate (TNode.template vC7).id (TNode.template vC7).roots.length]) :=
  ⟨c7_registration_idempotent.1 5 stC7 vC7 1 _ rfl rfl rfl,
   c7_registration_idempotent.2 5 stC7u vC7 1 _ rfl rfl rfl⟩

/-! ## C5 and C8: the keyed reconciliation -/

/-- The keyed-sibling family for the keyed-reconciliation theorems: a
keyed fragment holding a single text child whose text equals the key
and whose id cell is populated.  Matched pairs of this family diff in
place without emitting anything, so creates, destroys and moves are
exactly the reconciliation's own. -/
def tfragShape : VNode → Bool
  | .Fragment _ (some k) [.Text t] => t.text == k && t.id.isSome
  | _ => false

/-- Move/insert mutations (the only reordering instructions this diff
emits). -/
def Mutation.isMove : Mutation → Bool
  | .InsertAfter _ _ => true
  | .InsertBefore _ _ => true
  | _ => false

theorem tfragShape_elim {v : VNode} (h : tfragShape v = true) :
    ∃ p k tp tid, v = .Fragment p (some k) [.Text ⟨tp, k, some tid⟩] := by
  cases v with
  | Fragment p key ch =>
    cases key with
    | none => simp [tfragShape] at h
    | some k =>
      cases ch with
      | nil => simp [tfragShape] at h
      | cons c rest =>
        cases rest with
        | cons c2 r2 => cases c <;> simp [tfragShape] at h
        | nil =>
          cases c with
          | Text t =>
            obtain ⟨tp, tx, tid⟩ := t
            simp only [tfragShape, Bool.and_eq_true, beq_iff_eq] at h
            obtain ⟨rfl, hid⟩ := h
            obtain ⟨i, rfl⟩ := Option.isSome_iff_exists.mp hid
            exact ⟨p, tx, tp, i, rfl⟩
          | Placeholder q => simp [tfragShape] at h
          | Element a b c d e f g => simp [tfragShape] at h
          | Fragment a b c => simp [tfragShape] at h
          | Component c => simp [tfragShape] at h
  | Text t => simp [tfragShape] at h
  | Placeholder q => simp [tfragShape] at h
  | Element a b c d e f g => simp [tfragShape] at h
  | Component c => simp [tfragShape] at h

theorem tfrag_key {v : VNode} (h : tfragShape v = true) : ∃ k, v.key = some k := by
  obtain ⟨p, k, tp, tid, rfl⟩ := tfragShape_elim h
  exact ⟨k, rfl⟩

/-- Two family nodes with the same key diff in place with no emitted
mutation. -/
theorem tfrag_diff_self (g : Nat) (reg : Registry) {a b : VNode}
    (ha : tfragShape a = true) (hb : tfragShape b = true) (hk : a.key = b.key) :
    diffVNodeF (g + 2) reg a b = .ok [] := by
  obtain ⟨pa, ka, tpa, tia, rfl⟩ := tfragShape_elim ha
  obtain ⟨pb, kb, tpb, tib, rfl⟩ := tfragShape_elim hb
  have hkk : ka = kb := by
    simpa [VNode.key] using hk
  subst hkk
  show diffVNodeF (g + 1 + 1) reg _ _ = .ok []
  by_cases hp : (pa == pb) = true
  · simp [diffVNodeF, hp, pure, Except.pure]
  · simp only [Bool.not_eq_true] at hp
    simp only [diffVNodeF, hp, Bool.false_eq_true, if_neg]
    unfold diffText
    by_cases ht : (tpa == tpb) = true
    · simp [ht]
    · simp only [Bool.not_eq_true] at ht
      simp [ht]

/-- A family node's first and last real element is its text child's
id, and it carries exactly one real node. -/
theorem tfrag_finders (g : Nat) (reg : Registry) {v : VNode} (h : tfragShape v = true) :
    ∃ tid, findFirstElementF (g + 2) reg v = .ok (some tid) ∧
      findLastElementF (g + 2) reg v = .ok (some tid) ∧
      pushAllRealNodesF (g + 2) reg v = .ok 1 := by
  obtain ⟨p, k, tp, tid, rfl⟩ := tfragShape_elim h
  refine ⟨tid, ?_, ?_, ?_⟩
  · show findFirstElementF (g + 1 + 1) reg _ = _
    simp [findFirstElementF, pure, Except.pure]
  · show findLastElementF (g + 1 + 1) reg _ = _
    simp [findLastElementF, pure, Except.pure]
  · show pushAllRealNodesF (g + 1 + 1) reg _ = _
    simp [pushAllRealNodesF, List.mapM, List.mapM.loop, Bind.bind, Except.bind,
      pure, Except.pure]

/-- The length of the matching key run at the front of two lists. -/
def commonKeyLen : List VNode → List VNode → Nat
  | o :: os, n :: ns => if o.key == n.key then commonKeyLen os ns + 1 else 0
  | _, _ => 0

theorem commonKeyLen_le_left : ∀ (old new : List VNode),
    commonKeyLen old new ≤ old.length := by
  intro old
  induction old with
  | nil => intro new; cases new <;> simp [commonKeyLen]
  | cons o os ih =>
    intro new
    cases new with
    | nil => simp [commonKeyLen]
    | cons n ns =>
      by_cases h : (o.key == n.key) = true
      · simp only [commonKeyLen, h, if_pos]
        have := ih ns
        simp only [List.length_cons]
        omega
      · simp only [Bool.not_eq_true] at h
        simp [commonKeyLen, h]

theorem commonKeyLen_le_right : ∀ (old new : List VNode),
    commonKeyLen old new ≤ new.length := by
  intro old
  induction old with
  | nil => intro new; cases new <;> simp [commonKeyLen]
  | cons o os ih =>
    intro new
    cases new with
    | nil => simp [commonKeyLen]
    | cons n ns =>
      by_cases h : (o.key == n.key) = true
      · simp only [commonKeyLen, h, if_pos]
        have := ih ns
        simp only [List.length_cons]
        omega
      · simp only [Bool.not_eq_true] at h
        simp [commonKeyLen, h]

/-- Keys match pointwise on the common run. -/
theorem commonKeyLen_match : ∀ (old new : List VNode) (j : Nat),
    j < commonKeyLen old new →
    (old[j]?.map VNode.key) = (new[j]?.map VNode.key) := by
  intro old
  induction old with
  | nil => intro new j h; cases new <;> simp [commonKeyLen] at h
  | cons o os ih =>
    intro new j h
    cases new with
    | nil => simp [commonKeyLen] at h
    | cons n ns =>
      by_cases hk : (o.key == n.key) = true
      · cases j with
        | zero => simpa using (beq_iff_eq.mp hk)
        | succ j =>
          simp only [commonKeyLen, hk, if_pos] at h
          simpa using ih ns j (by omega)
      · simp only [Bool.not_eq_true] at hk
        simp [commonKeyLen, hk] at h

/-- At the end of a common run that is shorter than both lists, the
keys differ. -/
theorem commonKeyLen_mismatch : ∀ (old new : List VNode),
    commonKeyLen old new < old.length → commonKeyLen old new < new.length →
    ∃ o n, old[commonKeyLen old new]? = some o ∧ new[commonKeyLen old new]? = some n ∧
      o.key ≠ n.key := by
  intro old
  induction old with
  | nil => intro new h1 _; simp at h1
  | cons o os ih =>
    intro new h1 h2
    cases new with
    | nil => simp at h2
    | cons n ns =>
      by_cases hk : (o.key == n.key) = true
      · simp only [commonKeyLen, hk, if_pos] at h1 h2 ⊢
        simp only [List.length_cons] at h1 h2
        obtain ⟨o', n', ho, hn, hne⟩ := ih ns (by omega) (by omega)
        exact ⟨o', n', by simpa using ho, by simpa using hn, hne⟩
      · simp only [Bool.not_eq_true] at hk
        refine ⟨o, n, ?_, ?_, ?_⟩
        · simp [commonKeyLen, hk]
        · simp [commonKeyLen, hk]
        · intro hc
          rw [hc] at hk
          simp at hk

/-- The front scan over lists whose matched-pair diffs emit nothing
returns no mutations and the common key-run length. -/
theorem scanLeftEnds_spec (d : VNode → VNode → DiffT) :
    ∀ (old new : List VNode),
    (∀ o n, o ∈ old → n ∈ new → o.key = n.key → d n o = .ok []) →
    scanLeftEnds d old new = .ok ([], commonKeyLen old new) := by
  intro old
  induction old with
  | nil => intro new _; cases new <;> rfl
  | cons o os ih =>
    intro new hd
    cases new with
    | nil => rfl
    | cons n ns =>
      by_cases hk : (o.key == n.key) = true
      · have hdd := hd o n (by simp) (by simp) (beq_iff_eq.mp hk)
        have ihh := ih ns (fun o' n' ho hn hkk => hd o' n' (by simp [ho]) (by simp [hn]) hkk)
        simp [scanLeftEnds, hk, hdd, ihh, Bind.bind, Except.bind, pure, Except.pure,
          commonKeyLen]
      · simp only [Bool.not_eq_true] at hk
        simp [scanLeftEnds, hk, commonKeyLen, pure, Except.pure]

theorem nil_mem_lisCandidates (seq : List Nat) : [] ∈ lisCandidates seq := by
  simp [lisCandidates, List.mem_filter, List.mem_sublists, increasingAt]

theorem argmax_foldl_mem : ∀ (l : List (List Nat)) (init : List Nat),
    (l.foldl (fun best c => if best.length < c.length then c else best) init) ∈ l ∨
      (l.foldl (fun best c => if best.length < c.length then c else best) init) = init := by
  intro l
  induction l with
  | nil => intro init; right; rfl
  | cons c rest ih =>
    intro init
    simp only [List.foldl_cons]
    rcases ih (if init.length < c.length then c else init) with h | h
    · left; exact List.mem_cons_of_mem c h
    · by_cases hc : init.length < c.length
      · rw [if_pos hc] at h ⊢
        left
        rw [h]
        exact List.mem_cons_self c rest
      · rw [if_neg hc] at h ⊢
        right; exact h

theorem argmax_foldl_ge : ∀ (l : List (List Nat)) (init c : List Nat), c ∈ l →
    c.length ≤ (l.foldl (fun best c => if best.length < c.length then c else best) init).length := by
  intro l
  induction l with
  | nil => intro init c hc; simp at hc
  | cons x rest ih =>
    intro init c hc
    simp only [List.foldl_cons]
    rcases List.mem_cons.mp hc with rfl | hc'
    · -- c = x: foldl result length ≥ (pick init x).length ≥ x.length
      have hbase : ∀ (i : List Nat) (r : List (List Nat)), i.length ≤
          (r.foldl (fun best c => if best.length < c.length then c else best) i).length := by
        intro i r
        induction r generalizing i with
        | nil => exact le_refl _
        | cons y rest2 ih2 =>
          simp only [List.foldl_cons]
          by_cases hy : i.length < y.length
          · rw [if_pos hy]
            exact le_trans (le_of_lt hy) (ih2 y)
          · rw [if_neg hy]
            exact ih2 i
      by_cases hx : init.length < c.length
      · rw [if_pos hx]
        exact hbase c rest
      · rw [if_neg hx]
        exact le_trans (Nat.le_of_not_lt hx) (hbase init rest)
    · exact ih _ c hc'

theorem lisIndices_mem (seq : List Nat) : lisIndices seq ∈ lisCandidates seq := by
  unfold lisIndices
  rcases argmax_foldl_mem (lisCandidates seq) [] with h | h
  · exact h
  · rw [h]
    exact nil_mem_lisCandidates seq

theorem le_foldl_max : ∀ (l : List Nat) (a x : Nat), x ∈ l → x ≤ l.foldl max a := by
  intro l
  induction l with
  | nil => intro a x hx; simp at hx
  | cons y rest ih =>
    intro a x hx
    simp only [List.foldl_cons]
    rcases List.mem_cons.mp hx with rfl | hx'
    · have hbase : ∀ (b : Nat) (r : List Nat), b ≤ r.foldl max b := by
        intro b r
        induction r generalizing b with
        | nil => exact le_refl _
        | cons z r2 ih2 =>
          simp only [List.foldl_cons]
          exact le_trans (le_max_left b z) (ih2 _)
      exact le_trans (le_max_right a x) (hbase _ rest)
    · exact ih _ x hx'

theorem foldl_max_le : ∀ (l : List Nat) (a b : Nat), a ≤ b → (∀ x ∈ l, x ≤ b) →
    l.foldl max a ≤ b := by
  intro l
  induction l with
  | nil => intro a b h _; exact h
  | cons y rest ih =>
    intro a b h hl
    simp only [List.foldl_cons]
    exact ih _ b (max_le h (hl y (by simp))) (fun x hx => hl x (by simp [hx]))

theorem lisIndices_length (seq : List Nat) : (lisIndices seq).length = LISLength seq := by
  apply le_antisymm
  · exact le_foldl_max _ 0 _ (List.mem_map_of_mem _ (lisIndices_mem seq))
  · apply foldl_max_le
    · exact Nat.zero_le _
    · intro x hx
      obtain ⟨c, hc, rfl⟩ := List.mem_map.mp hx
      exact argmax_foldl_ge _ [] c hc

theorem lisCandidates_spec {seq : List Nat} {c : List Nat} (h : c ∈ lisCandidates seq) :
    List.Sublist c (List.range seq.length) ∧ increasingAt seq c := by
  rw [lisCandidates, List.mem_filter] at h
  refine ⟨List.mem_sublists.mp h.1, ?_⟩
  have := h.2
  simpa using this

theorem lisIndices_pairwise (seq : List Nat) :
    (lisIndices seq).Pairwise (· < ·) :=
  List.Pairwise.sublist (lisCandidates_spec (lisIndices_mem seq)).1
    (List.pairwise_lt_range _)

theorem lisIndices_lt (seq : List Nat) : ∀ i ∈ lisIndices seq, i < seq.length := by
  intro i hi
  have hsub := (lisCandidates_spec (lisIndices_mem seq)).1
  exact List.mem_range.mp (hsub.subset hi)

theorem lisLength_pos {seq : List Nat} (h : seq ≠ []) : 1 ≤ LISLength seq := by
  have h0 : [0] ∈ lisCandidates seq := by
    rw [lisCandidates, List.mem_filter]
    constructor
    · rw [List.mem_sublists, List.singleton_sublist, List.mem_range]
      exact List.length_pos.mpr h
    · simp [increasingAt]
  have : (1 : Nat) = [0].length := rfl
  rw [this]
  exact le_foldl_max _ 0 _ (List.mem_map_of_mem _ h0)

/-- The pure value of `new_index_to_old_index` over fully keyed
lists. -/
def mappingPure (old new : List VNode) : List Nat :=
  new.map (fun node =>
    match node.key with
    | some k => (oldIndexOf old k).getD u32Max
    | none => u32Max)

theorem newIndexToOldIndex_eq : ∀ (new old : List VNode),
    (∀ n ∈ new, n.key.isSome = true) →
    newIndexToOldIndex old new = .ok (mappingPure old new) := by
  intro new
  induction new with
  | nil => intro old _; rfl
  | cons n ns ih =>
    intro old h
    have hn : n.key.isSome = true := h n (by simp)
    obtain ⟨k, hk⟩ := Option.isSome_iff_exists.mp hn
    have ihh := ih old (fun x hx => h x (by simp [hx]))
    unfold newIndexToOldIndex at ihh ⊢
    rw [List.mapM_cons, ihh]
    cases hf : oldIndexOf old k with
    | none =>
      simp [hk, hf, Bind.bind, Except.bind, pure, Except.pure, expectSome, mappingPure]
    | some j =>
      simp [hk, hf, Bind.bind, Except.bind, pure, Except.pure, expectSome, mappingPure]

theorem oldIndexOf_mem {old : List VNode} {k : String} {j : Nat}
    (h : oldIndexOf old k = some j) :
    ∃ o, old[j]? = some o ∧ o.key = some k := by
  unfold oldIndexOf at h
  cases hf : old.enum.reverse.find? (fun p => p.2.key == some k) with
  | none => rw [hf] at h; simp at h
  | some pr =>
    rw [hf] at h
    simp only [Option.map_some'] at h
    have hp := List.find?_some hf
    have hm := List.mem_of_find?_eq_some hf
    rw [List.mem_reverse] at hm
    have hget : old[pr.1]? = some pr.2 := List.mem_enum_iff_getElem?.mp hm
    have hj : pr.1 = j := by simpa using h
    refine ⟨pr.2, ?_, ?_⟩
    · rw [← hj]
      exact hget
    · simpa using hp

theorem oldIndexOf_found {old : List VNode} {k : String}
    (h : ∃ o ∈ old, o.key = some k) : (oldIndexOf old k).isSome = true := by
  unfold oldIndexOf
  rw [Option.isSome_map']
  rw [List.find?_isSome]
  obtain ⟨o, ho, hk⟩ := h
  obtain ⟨i, hi⟩ := List.mem_iff_getElem?.mp ho
  refine ⟨(i, o), ?_, ?_⟩
  · rw [List.mem_reverse]
    exact List.mem_enum_iff_getElem?.mpr hi
  · simp [hk]


/-- The result is not the failure of a debug assertion (it may be a
success, a panic, or fuel exhaustion). -/
def NoAssertE {α : Type} (x : Except DiffErr α) : Prop :=
  x ≠ .error .assertFailed

theorem noAssertE_ok {α : Type} (a : α) : NoAssertE (Except.ok a : Except DiffErr α) := by
  simp [NoAssertE]

theorem noAssertE_pure {α : Type} (a : α) : NoAssertE (pure a : Except DiffErr α) :=
  noAssertE_ok a

theorem noAssertE_panicked {α : Type} :
    NoAssertE (Except.error DiffErr.panicked : Except DiffErr α) := by
  simp [NoAssertE]

theorem noAssertE_fuelOut {α : Type} :
    NoAssertE (Except.error DiffErr.fuelOut : Except DiffErr α) := by
  simp [NoAssertE]

theorem noAssertE_bind {α β : Type} {x : Except DiffErr α} {g : α → Except DiffErr β}
    (hx : NoAssertE x) (hg : ∀ a, x = .ok a → NoAssertE (g a)) :
    NoAssertE (x >>= g) := by
  cases x with
  | error e => simpa [NoAssertE, Bind.bind, Except.bind] using hx
  | ok a => simpa [Bind.bind, Except.bind] using hg a rfl

theorem noAssertE_error {α : Type} {x : Except DiffErr α} {e : DiffErr}
    (h : NoAssertE x) (hx : x = .error e) : e ≠ DiffErr.assertFailed := by
  intro hc
  exact h (by rw [hx, hc])

theorem expectSome_noAssertE {α : Type} (o : Option α) : NoAssertE (expectSome o) := by
  cases o <;> simp [expectSome, NoAssertE, pure, Except.pure]

theorem mapM_noAssertE {α β : Type} (g : α → Except DiffErr β) :
    ∀ l : List α, (∀ a ∈ l, NoAssertE (g a)) → NoAssertE (l.mapM g) := by
  intro l
  induction l with
  | nil =>
    intro _
    rw [List.mapM_nil]
    exact noAssertE_pure _
  | cons x xs ih =>
    intro h
    rw [List.mapM_cons]
    exact noAssertE_bind (h x (by simp))
      (fun a _ => noAssertE_bind (ih (fun b hb => h b (by simp [hb])))
        (fun bs _ => noAssertE_pure _))

/-- None of the creation/destruction/search operations can fail a debug
assertion: their only failures are panics and fuel exhaustion. -/
theorem create_half_noAssertE : ∀ (f : Nat) (reg : Registry),
    (∀ v, NoAssertE (createVNodeF f reg v)) ∧
    (∀ l, NoAssertE (createListF f reg l)) ∧
    (∀ v, NoAssertE (destroyVNodeF f reg v)) ∧
    (∀ l, NoAssertE (destroyListF f reg l)) ∧
    (∀ v, NoAssertE (findFirstElementF f reg v)) ∧
    (∀ v, NoAssertE (findLastElementF f reg v)) ∧
    (∀ v, NoAssertE (pushAllRealNodesF f reg v)) := by
  intro f
  induction f with
  | zero =>
    intro reg
    refine ⟨?_, ?_, ?_, ?_, ?_, ?_, ?_⟩ <;> intro x <;>
      simp [createVNodeF, createListF, destroyVNodeF, destroyListF,
        findFirstElementF, findLastElementF, pushAllRealNodesF, NoAssertE]
  | succ f ih =>
    intro reg
    obtain ⟨hc, _, hd, _, hff, hfl, hpa⟩ := ih reg
    refine ⟨?_, ?_, ?_, ?_, ?_, ?_, ?_⟩
    · intro v
      cases v with
      | Text t =>
        simp only [createVNodeF]
        exact noAssertE_bind (expectSome_noAssertE _) (fun a _ => noAssertE_pure _)
      | Placeholder p =>
        simp only [createVNodeF]
        exact noAssertE_bind (expectSome_noAssertE _) (fun a _ => noAssertE_pure _)
      | Element a b c d e g h => simp [createVNodeF, NoAssertE]
      | Fragment a b c => simp [createVNodeF, NoAssertE]
      | Component c => simp [createVNodeF, NoAssertE]
    · intro l
      simp only [createListF]
      exact noAssertE_bind (mapM_noAssertE _ _ (fun a _ => hc a))
        (fun _ _ => noAssertE_pure _)
    · intro v
      cases v with
      | Text t => simp only [destroyVNodeF]; exact noAssertE_pure _
      | Placeholder p =>
        simp only [destroyVNodeF]
        exact noAssertE_bind (expectSome_noAssertE _) (fun a _ => noAssertE_pure _)
      | Element a b c d e g h => simp [destroyVNodeF, NoAssertE]
      | Fragment a b c => simp [destroyVNodeF, NoAssertE]
      | Component c => simp [destroyVNodeF, NoAssertE]
    · intro l
      simp only [destroyListF]
      exact noAssertE_bind (mapM_noAssertE _ _ (fun a _ => hd a))
        (fun _ _ => noAssertE_pure _)
    · intro v
      cases v with
      | Text t => simp only [findFirstElementF]; exact noAssertE_pure _
      | Placeholder p => simp only [findFirstElementF]; exact noAssertE_pure _
      | Element a b c d e g h => simp only [findFirstElementF]; exact noAssertE_pure _
      | Fragment a b ch =>
        simp only [findFirstElementF]
        cases ch.head? with
        | none => simp [NoAssertE]
        | some c => exact hff c
      | Component c =>
        simp only [findFirstElementF]
        exact noAssertE_bind (expectSome_noAssertE _)
          (fun a _ => noAssertE_bind (expectSome_noAssertE _) (fun b _ => hff _))
    · intro v
      cases v with
      | Text t => simp only [findLastElementF]; exact noAssertE_pure _
      | Placeholder p => simp only [findLastElementF]; exact noAssertE_pure _
      | Element a b c d e g h => simp only [findLastElementF]; exact noAssertE_pure _
      | Fragment a b ch =>
        simp only [findLastElementF]
        cases ch.getLast? with
        | none => simp [NoAssertE]
        | some c => exact hfl c
      | Component c =>
        simp only [findLastElementF]
        exact noAssertE_bind (expectSome_noAssertE _)
          (fun a _ => noAssertE_bind (expectSome_noAssertE _) (fun b _ => hfl _))
    · intro v
      cases v with
      | Text t => simp only [pushAllRealNodesF]; exact noAssertE_pure _
      | Placeholder p => simp only [pushAllRealNodesF]; exact noAssertE_pure _
      | Element a b c d e g h => simp only [pushAllRealNodesF]; exact noAssertE_pure _
      | Fragment a b ch =>
        simp only [pushAllRealNodesF]
        exact noAssertE_bind (mapM_noAssertE _ _ (fun a _ => hpa a))
          (fun _ _ => noAssertE_pure _)
      | Component c =>
        simp only [pushAllRealNodesF]
        exact noAssertE_bind (expectSome_noAssertE _)
          (fun a _ => noAssertE_bind (expectSome_noAssertE _) (fun b _ => hpa _))

theorem createNodeCntF_noAssertE (f : Nat) (reg : Registry) (v : VNode) :
    NoAssertE (createNodeCntF f reg v) := by
  cases f with
  | zero => simp [createNodeCntF, NoAssertE]
  | succ f =>
    simp only [createNodeCntF]
    exact noAssertE_bind ((create_half_noAssertE f reg).1 v)
      (fun a _ => noAssertE_bind ((create_half_noAssertE f reg).2.2.2.2.2.2 v)
        (fun b _ => noAssertE_pure _))

theorem createAndInsertAfterF_noAssertE (f : Nat) (reg : Registry)
    (nodes : List VNode) (after : VNode) :
    NoAssertE (createAndInsertAfterF f reg nodes after) := by
  cases f with
  | zero => simp [createAndInsertAfterF, NoAssertE]
  | succ f =>
    simp only [createAndInsertAfterF]
    exact noAssertE_bind ((create_half_noAssertE f reg).2.1 nodes)
      (fun a _ => noAssertE_bind ((create_half_noAssertE f reg).2.2.2.2.2.1 after)
        (fun b _ => noAssertE_bind (expectSome_noAssertE _) (fun c _ => noAssertE_pure _)))

theorem createAndInsertBeforeF_noAssertE (f : Nat) (reg : Registry)
    (nodes : List VNode) (before : VNode) :
    NoAssertE (createAndInsertBeforeF f reg nodes before) := by
  cases f with
  | zero => simp [createAndInsertBeforeF, NoAssertE]
  | succ f =>
    simp only [createAndInsertBeforeF]
    exact noAssertE_bind ((create_half_noAssertE f reg).2.1 nodes)
      (fun a _ => noAssertE_bind ((create_half_noAssertE f reg).2.2.2.2.1 before)
        (fun b _ => noAssertE_bind (expectSome_noAssertE _) (fun c _ => noAssertE_pure _)))

theorem createAndAppendF_noAssertE (f : Nat) (reg : Registry) (nodes : List VNode) :
    NoAssertE (createAndAppendF f reg nodes) := by
  cases f with
  | zero => simp [createAndAppendF, NoAssertE]
  | succ f =>
    simp only [createAndAppendF]
    exact noAssertE_bind ((create_half_noAssertE f reg).2.1 nodes) (fun a _ => noAssertE_pure _)

theorem nodup_of_dedup_length {α : Type} [DecidableEq α] {l : List α}
    (h : l.dedup.length = l.length) : l.Nodup := by
  have hsub := List.dedup_sublist l
  have heq := List.Sublist.eq_of_length hsub h
  rw [← heq]
  exact List.nodup_dedup l

theorem assertUniqueKeys_nodup {l : List VNode} (h : assertUniqueKeys l = true) :
    (l.map VNode.key).Nodup := by
  unfold assertUniqueKeys at h
  rw [Bool.and_eq_true] at h
  have h2 := h.2
  rw [beq_iff_eq] at h2
  exact nodup_of_dedup_length (by rw [h2, List.length_map])

theorem assertUniqueKeys_eq_false_of_dup {l : List VNode}
    (h : ¬ (l.map VNode.key).Nodup) : assertUniqueKeys l = false := by
  cases hb : assertUniqueKeys l with
  | false => rfl
  | true => exact absurd (assertUniqueKeys_nodup hb) h

theorem assertUniqueKeys_of {l : List VNode}
    (hk : ∀ v ∈ l, (VNode.key v).isSome = true)
    (hnd : (l.map VNode.key).Nodup) : assertUniqueKeys l = true := by
  unfold assertUniqueKeys
  rw [Bool.and_eq_true]
  constructor
  · rw [List.all_eq_true]
    intro v hv
    exact hk v hv
  · rw [List.dedup_eq_self.mpr hnd]
    simp


theorem commonKeyLen_comm : ∀ (a b : List VNode), commonKeyLen a b = commonKeyLen b a := by
  intro a
  induction a with
  | nil => intro b; cases b <;> rfl
  | cons x xs ih =>
    intro b
    cases b with
    | nil => rfl
    | cons y ys =>
      by_cases h : x.key = y.key
      · have h1 : (x.key == y.key) = true := beq_iff_eq.mpr h
        have h2 : (y.key == x.key) = true := beq_iff_eq.mpr h.symm
        simp [commonKeyLen, h1, h2, ih ys]
      · have h1 : (x.key == y.key) = false := beq_eq_false_iff_ne.mpr h
        have h2 : (y.key == x.key) = false := beq_eq_false_iff_ne.mpr (Ne.symm h)
        simp [commonKeyLen, h1, h2]

/-- The right-end key run matches pointwise, stated on the original
(unreversed) indices. -/
theorem keyrun_right (old new : List VNode) {j : Nat}
    (hj : j < commonKeyLen old.reverse new.reverse) :
    old[old.length - 1 - j]?.map VNode.key = new[new.length - 1 - j]?.map VNode.key := by
  have h := commonKeyLen_match old.reverse new.reverse j hj
  have hjo : j < old.length := by
    have := commonKeyLen_le_left old.reverse new.reverse
    simp only [List.length_reverse] at this
    omega
  have hjn : j < new.length := by
    have := commonKeyLen_le_right old.reverse new.reverse
    simp only [List.length_reverse] at this
    omega
  rwa [List.getElem?_reverse hjo, List.getElem?_reverse hjn] at h

/-- With equal lengths, the trimmed prefix and suffix never cover the
whole list when the prefix scan stopped at a genuine mismatch. -/
theorem trim_sum_lt_of_eq_length {old new : List VNode}
    (hlen : old.length = new.length)
    (hl : commonKeyLen old new < old.length) :
    commonKeyLen old new + commonKeyLen old.reverse new.reverse < old.length := by
  by_contra hc
  push_neg at hc
  have hln : commonKeyLen old new < new.length := by omega
  obtain ⟨o, n', ho, hn, hne⟩ := commonKeyLen_mismatch old new hl hln
  have hj : old.length - 1 - commonKeyLen old new < commonKeyLen old.reverse new.reverse := by
    omega
  have h := keyrun_right old new hj
  have e1 : old.length - 1 - (old.length - 1 - commonKeyLen old new) =
      commonKeyLen old new := by omega
  have e2 : new.length - 1 - (old.length - 1 - commonKeyLen old new) =
      commonKeyLen old new := by omega
  rw [e1, e2, ho, hn] at h
  exact hne (by simpa using h)

/-- When the old list is strictly shorter and the new list's keys are
unique, the trimmed prefix and suffix cannot overlap in the old list. -/
theorem trim_sum_le_of_lt_length {old new : List VNode}
    (hmn : old.length < new.length)
    (hnd : (new.map VNode.key).Nodup) :
    commonKeyLen old new + commonKeyLen old.reverse new.reverse ≤ old.length := by
  by_contra hc
  push_neg at hc
  have hrle : commonKeyLen old.reverse new.reverse ≤ old.length := by
    have := commonKeyLen_le_left old.reverse new.reverse
    simpa using this
  have hlle : commonKeyLen old new ≤ old.length := commonKeyLen_le_left old new
  have hil : old.length - commonKeyLen old.reverse new.reverse < commonKeyLen old new := by
    omega
  have hleft := commonKeyLen_match old new
    (old.length - commonKeyLen old.reverse new.reverse) hil
  have hj : old.length - 1 - (old.length - commonKeyLen old.reverse new.reverse) <
      commonKeyLen old.reverse new.reverse := by omega
  have hright := keyrun_right old new hj
  have e1 : old.length - 1 -
      (old.length - 1 - (old.length - commonKeyLen old.reverse new.reverse)) =
      old.length - commonKeyLen old.reverse new.reverse := by omega
  have e2 : new.length - 1 -
      (old.length - 1 - (old.length - commonKeyLen old.reverse new.reverse)) =
      (old.length - commonKeyLen old.reverse new.reverse) +
        (new.length - old.length) := by omega
  rw [e1, e2] at hright
  have hcomb : (new.map VNode.key)[old.length - commonKeyLen old.reverse new.reverse]? =
      (new.map VNode.key)[(old.length - commonKeyLen old.reverse new.reverse) +
        (new.length - old.length)]? := by
    rw [List.getElem?_map, List.getElem?_map, ← hleft, hright]
  have hiN : old.length - commonKeyLen old.reverse new.reverse <
      (new.map VNode.key).length := by
    rw [List.length_map]
    omega
  have := List.getElem?_inj hiN hnd hcomb
  omega

theorem trim_sum_le_of_gt_length {old new : List VNode}
    (hmn : new.length < old.length)
    (hnd : (old.map VNode.key).Nodup) :
    commonKeyLen old new + commonKeyLen old.reverse new.reverse ≤ new.length := by
  have h := trim_sum_le_of_lt_length hmn hnd
  rwa [commonKeyLen_comm new old, commonKeyLen_comm new.reverse old.reverse] at h

/-- Under unique keys in both lists, the window that remains between the
matching prefix and suffix cannot be empty on both sides at once. -/
theorem middles_not_both_empty {old new : List VNode}
    (hndO : (old.map VNode.key).Nodup) (hndN : (new.map VNode.key).Nodup)
    (hlO : commonKeyLen old new < old.length)
    (hlN : commonKeyLen old new < new.length) :
    ¬(old.length ≤ commonKeyLen old new + commonKeyLen old.reverse new.reverse ∧
      new.length ≤ commonKeyLen old new + commonKeyLen old.reverse new.reverse) := by
  rintro ⟨h1, h2⟩
  rcases Nat.lt_trichotomy old.length new.length with h | h | h
  · have := trim_sum_le_of_lt_length h hndN
    omega
  · have := trim_sum_lt_of_eq_length h hlO
    omega
  · have := trim_sum_le_of_gt_length h hndO
    omega

theorem middle_head {α : Type} (xs : List α) (a b : Nat) (hb : 0 < b) :
    ((xs.drop a).take b).head? = xs[a]? := by
  rw [List.head?_eq_getElem?, List.getElem?_take_of_lt hb, List.getElem?_drop,
    Nat.add_zero]

theorem middle_last {α : Type} (xs : List α) (a b : Nat)
    (hlen : 0 < ((xs.drop a).take b).length) :
    ((xs.drop a).take b).getLast? = xs[a + (((xs.drop a).take b).length - 1)]? := by
  rw [List.getLast?_eq_getElem?]
  have hLb : ((xs.drop a).take b).length - 1 < b := by
    have h1 : ((xs.drop a).take b).length ≤ b := by
      rw [List.length_take]
      omega
    omega
  rw [List.getElem?_take_of_lt hLb, List.getElem?_drop]

theorem middle_length {α : Type} (xs : List α) (a b : Nat) (hb : b ≤ xs.length - a) :
    ((xs.drop a).take b).length = b := by
  rw [List.length_take, List.length_drop]
  omega


theorem mappingPure_length (oldM newM : List VNode) :
    (mappingPure oldM newM).length = newM.length := by
  simp [mappingPure]

/-- Every entry of the mapping over shared keys is a genuine old index,
pointing at an old node with the same key. -/
theorem mappingPure_entry {oldM newM : List VNode} {i : Nat} {nnode : VNode}
    (hni : newM[i]? = some nnode)
    (hfound : ∀ n ∈ newM, ∃ k, n.key = some k ∧ ∃ o ∈ oldM, o.key = some k) :
    ∃ j o, (mappingPure oldM newM)[i]? = some j ∧ j < oldM.length ∧
      oldM[j]? = some o ∧ o.key = nnode.key := by
  obtain ⟨k, hk, o0, ho0, hk0⟩ := hfound nnode (List.getElem?_mem hni)
  have hfnd : (oldIndexOf oldM k).isSome = true := oldIndexOf_found ⟨o0, ho0, hk0⟩
  obtain ⟨j, hj⟩ := Option.isSome_iff_exists.mp hfnd
  obtain ⟨o, ho, hok⟩ := oldIndexOf_mem hj
  have hjlen : j < oldM.length := by
    rcases List.getElem?_eq_some.mp ho with ⟨h, _⟩
    exact h
  refine ⟨j, o, ?_, hjlen, ho, ?_⟩
  · unfold mappingPure
    rw [List.getElem?_map, hni]
    simp [hk, hj]
  · rw [hok, hk]

theorem mappingPure_bounded {oldM newM : List VNode}
    (hfound : ∀ n ∈ newM, ∃ k, n.key = some k ∧ ∃ o ∈ oldM, o.key = some k)
    (hoLen : oldM.length ≤ u32Max) :
    ∀ (i v : Nat), (mappingPure oldM newM)[i]? = some v → v < u32Max := by
  intro i v hv
  cases hni : newM[i]? with
  | none =>
    unfold mappingPure at hv
    rw [List.getElem?_map, hni] at hv
    simp at hv
  | some nn =>
    obtain ⟨j, o, hmap, hjl, _, _⟩ := mappingPure_entry hni hfound
    rw [hmap] at hv
    injection hv with hv
    omega

/-- A run of shared-key new-middle children: each is diffed in place
against its old counterpart with no mutations, contributing one real
node to the count. -/
theorem middleSegment_shared (F : Nat) (reg : Registry) (oldM newM : List VNode)
    (hO : ∀ v ∈ oldM, tfragShape v = true) (hN : ∀ v ∈ newM, tfragShape v = true)
    (hfound : ∀ n ∈ newM, ∃ k, n.key = some k ∧ ∃ o ∈ oldM, o.key = some k)
    (hoLen : oldM.length ≤ u32Max) :
    ∀ ixs : List Nat, (∀ i ∈ ixs, i < newM.length) →
    middleSegment (tiedOps (F + 2) reg) oldM newM (mappingPure oldM newM) ixs =
      .ok ([], ixs.length) := by
  intro ixs
  induction ixs with
  | nil => intro _; rfl
  | cons i rest ih =>
    intro hbound
    have hi : i < newM.length := hbound i (by simp)
    have hni : newM[i]? = some newM[i] := List.getElem?_eq_getElem hi
    obtain ⟨j, o, hmap, hjlen, ho, hkey⟩ := mappingPure_entry hni hfound
    have hsent : (j == u32Max) = false := by
      rw [beq_eq_false_iff_ne]
      omega
    have hd : diffVNodeF (F + 2) reg newM[i] o = .ok [] :=
      tfrag_diff_self F reg (hN _ (List.getElem?_mem hni)) (hO o (List.getElem?_mem ho))
        hkey.symm
    obtain ⟨tid, _, _, hpush⟩ := tfrag_finders F reg (hN _ (List.getElem?_mem hni))
    have ihh := ih (fun x hx => hbound x (by simp [hx]))
    unfold middleSegment
    rw [hni, hmap, ihh]
    simp [expectSome, hsent, hd, ho, hpush, tiedOps, Bind.bind, Except.bind,
      pure, Except.pure, Nat.add_comm]

/-- The in-place diffs of shared-key pairs emit nothing. -/
theorem lisInPlaceDiffs_shared (F : Nat) (reg : Registry) (oldM newM : List VNode)
    (hO : ∀ v ∈ oldM, tfragShape v = true) (hN : ∀ v ∈ newM, tfragShape v = true)
    (hfound : ∀ n ∈ newM, ∃ k, n.key = some k ∧ ∃ o ∈ oldM, o.key = some k) :
    ∀ ixs : List Nat, (∀ i ∈ ixs, i < newM.length) →
    lisInPlaceDiffs (tiedOps (F + 2) reg) oldM newM (mappingPure oldM newM) ixs =
      .ok [] := by
  intro ixs
  induction ixs with
  | nil => intro _; rfl
  | cons i rest ih =>
    intro hbound
    have hi : i < newM.length := hbound i (by simp)
    have hni : newM[i]? = some newM[i] := List.getElem?_eq_getElem hi
    obtain ⟨j, o, hmap, hjlen, ho, hkey⟩ := mappingPure_entry hni hfound
    have hd : diffVNodeF (F + 2) reg newM[i] o = .ok [] :=
      tfrag_diff_self F reg (hN _ (List.getElem?_mem hni)) (hO o (List.getElem?_mem ho))
        hkey.symm
    have ihh := ih (fun x hx => hbound x (by simp [hx]))
    unfold lisInPlaceDiffs
    rw [hni, hmap, ihh]
    simp [expectSome, hd, ho, tiedOps, Bind.bind, Except.bind, pure, Except.pure]

/-- When every old child's key is in the shared set, the removal loop
removes nothing. -/
theorem removeUnshared_ok (ops : KeyedOps) :
    ∀ (l : List VNode) (shared : List String),
      (∀ o ∈ l, ∃ k, o.key = some k ∧ shared.contains k = true) →
      removeUnshared ops l shared = .ok [] := by
  intro l shared
  induction l with
  | nil => intro _; rfl
  | cons o os ih =>
    intro h
    obtain ⟨k, hk, hc⟩ := h o (by simp)
    have ihh := ih (fun x hx => h x (by simp [hx]))
    unfold removeUnshared at ihh ⊢
    rw [List.mapM_cons, hk]
    cases hm : os.mapM (fun child => do
        let k ← expectSome child.key
        if shared.contains k then pure [] else ops.destroyN child) with
    | error e =>
      rw [hm] at ihh
      simp [Bind.bind, Except.bind] at ihh
    | ok ms =>
      rw [hm] at ihh
      simp only [Bind.bind, Except.bind, pure, Except.pure] at ihh
      injection ihh with ihh
      have hkm : k ∈ shared := by simpa using hc
      simp [expectSome, hkm, Bind.bind, Except.bind, pure, Except.pure, ihh]

theorem sharedKeyList_not_empty {oldM newM : List VNode} {n0 : VNode}
    (hmem : n0 ∈ newM)
    (hfound : ∀ n ∈ newM, ∃ k, n.key = some k ∧ ∃ o ∈ oldM, o.key = some k) :
    (sharedKeyList oldM newM).isEmpty = false := by
  obtain ⟨k, hk, ho⟩ := hfound n0 hmem
  have hkmem : k ∈ sharedKeyList oldM newM := by
    unfold sharedKeyList
    rw [List.mem_filter]
    constructor
    · rw [List.mem_filterMap]
      exact ⟨n0, hmem, hk⟩
    · simpa using oldIndexOf_found ho
  obtain ⟨a, as, hl⟩ := List.exists_cons_of_ne_nil (List.ne_nil_of_mem hkmem)
  rw [hl]
  rfl

/-- When no mapping entry carries the sentinel, the pop-the-sentinel
adjustment is the identity. -/
theorem lisAdjusted_eq_of_bounded {seq : List Nat}
    (hb : ∀ (i v : Nat), seq[i]? = some v → v < u32Max) :
    lisAdjusted seq = lisIndices seq := by
  unfold lisAdjusted
  cases hl : (lisIndices seq).getLast? with
  | none => simp [hl]
  | some i =>
    have hi : i ∈ lisIndices seq := List.mem_of_getLast?_eq_some hl
    have hilt : i < seq.length := lisIndices_lt seq i hi
    have hv : seq[i]? = some seq[i] := List.getElem?_eq_getElem hilt
    have hvlt := hb i seq[i] hv
    have hgd : seq.getD i 0 = seq[i] := by
      rw [List.getD_eq_getElem?_getD, hv]
      rfl
    have hne : ((some seq[i] : Option Nat) == some u32Max) = false := by
      rw [beq_eq_false_iff_ne]
      intro hcc
      injection hcc with hcc
      omega
    simp [hl, hgd, hne]
    intro hcc
    rw [hv] at hcc
    simp at hcc
    omega


/-- The tail mount block: at most one insert-after, and only when items
lie beyond the last LIS member. -/
theorem middleTailBlock_spec (F : Nat) (reg : Registry) (oldM newM : List VNode)
    (hO : ∀ v ∈ oldM, tfragShape v = true) (hN : ∀ v ∈ newM, tfragShape v = true)
    (hfound : ∀ n ∈ newM, ∃ k, n.key = some k ∧ ∃ o ∈ oldM, o.key = some k)
    (hoLen : oldM.length ≤ u32Max) {last : Nat} (hlast : last < newM.length) :
    ∃ ms, middleTailBlock (tiedOps (F + 2) reg) oldM newM (mappingPure oldM newM) last =
        .ok ms ∧
      (∀ m ∈ ms, m.isMove = true) ∧ ms.length ≤ newM.length - 1 - last := by
  unfold middleTailBlock
  by_cases hc : last < newM.length - 1
  · rw [if_pos hc]
    have hseg := middleSegment_shared F reg oldM newM hO hN hfound hoLen
      (List.range' (last + 1) (newM.length - 1 - last))
      (by
        intro i hi
        rw [List.mem_range'_1] at hi
        omega)
    have hni : newM[last]? = some newM[last] := List.getElem?_eq_getElem hlast
    obtain ⟨tid, _, hlst, _⟩ := tfrag_finders F reg (hN _ (List.getElem?_mem hni))
    refine ⟨[Mutation.InsertAfter tid
        ((List.range' (last + 1) (newM.length - 1 - last)).length)], ?_, ?_, ?_⟩
    · rw [hseg, hni]
      simp [hlst, expectSome, tiedOps, Bind.bind, Except.bind, pure, Except.pure]
    · intro m hm
      simp only [List.mem_singleton] at hm
      rw [hm]
      rfl
    · simp
      omega
  · rw [if_neg hc]
    exact ⟨[], rfl, by simp, by simp⟩

/-- The head mount block: at most one insert-before, and only when items
precede the first LIS member. -/
theorem middleHeadBlock_spec (F : Nat) (reg : Registry) (oldM newM : List VNode)
    (hO : ∀ v ∈ oldM, tfragShape v = true) (hN : ∀ v ∈ newM, tfragShape v = true)
    (hfound : ∀ n ∈ newM, ∃ k, n.key = some k ∧ ∃ o ∈ oldM, o.key = some k)
    (hoLen : oldM.length ≤ u32Max) {first : Nat} (hfirst : first < newM.length) :
    ∃ ms, middleHeadBlock (tiedOps (F + 2) reg) oldM newM (mappingPure oldM newM) first =
        .ok ms ∧
      (∀ m ∈ ms, m.isMove = true) ∧ ms.length ≤ first := by
  unfold middleHeadBlock
  by_cases hc : first > 0
  · rw [if_pos hc]
    have hseg := middleSegment_shared F reg oldM newM hO hN hfound hoLen
      (List.range first)
      (by
        intro i hi
        rw [List.mem_range] at hi
        omega)
    have hni : newM[first]? = some newM[first] := List.getElem?_eq_getElem hfirst
    obtain ⟨tid, hfst, _, _⟩ := tfrag_finders F reg (hN _ (List.getElem?_mem hni))
    refine ⟨[Mutation.InsertBefore tid ((List.range first).length)], ?_, ?_, ?_⟩
    · rw [hseg, hni]
      simp [hfst, expectSome, tiedOps, Bind.bind, Except.bind, pure, Except.pure]
    · intro m hm
      simp only [List.mem_singleton] at hm
      rw [hm]
      rfl
    · simp
      omega
  · rw [if_neg hc]
    exact ⟨[], rfl, by simp, by simp⟩

/-- The gap blocks walked down a strictly descending chain: one
insert-before for every gap wider than one, so the emitted count plus
the chain length is bounded by the spread of the chain. -/
theorem gapBlocks_spec (F : Nat) (reg : Registry) (oldM newM : List VNode)
    (hO : ∀ v ∈ oldM, tfragShape v = true) (hN : ∀ v ∈ newM, tfragShape v = true)
    (hfound : ∀ n ∈ newM, ∃ k, n.key = some k ∧ ∃ o ∈ oldM, o.key = some k)
    (hoLen : oldM.length ≤ u32Max) :
    ∀ (c : List Nat) (a lastc : Nat), c.head? = some a → c.getLast? = some lastc →
    List.Chain' (· > ·) c → (∀ i ∈ c, i < newM.length) →
    ∃ ms, gapBlocks (tiedOps (F + 2) reg) oldM newM (mappingPure oldM newM) c = .ok ms ∧
      (∀ m ∈ ms, m.isMove = true) ∧ ms.length + (c.length - 1) + lastc ≤ a := by
  intro c
  induction c with
  | nil =>
    intro a lastc hh
    simp at hh
  | cons x rest ih =>
    intro a lastc hh hl hch hb
    have hxa : x = a := by
      simp only [List.head?_cons] at hh
      injection hh
    subst hxa
    cases rest with
    | nil =>
      have hlx : lastc = x := by
        simp only [List.getLast?_singleton] at hl
        injection hl with hl
        omega
      refine ⟨[], rfl, by simp, by simp [hlx]⟩
    | cons y rest2 =>
      have hxy : x > y := (List.chain'_cons.mp hch).1
      have hch2 := (List.chain'_cons.mp hch).2
      have hl2 : (y :: rest2).getLast? = some lastc := by
        rw [← List.getLast?_cons_cons]
        exact hl
      obtain ⟨ms2, hms2, hmv2, hbd2⟩ := ih y lastc rfl hl2 hch2
        (fun i hi => hb i (by simp [hi]))
      have hxlt : x < newM.length := hb x (by simp)
      unfold gapBlocks
      by_cases hgap : x - y > 1
      · rw [if_pos hgap]
        have hseg := middleSegment_shared F reg oldM newM hO hN hfound hoLen
          (List.range' (y + 1) (x - y - 1))
          (by
            intro i hi
            rw [List.mem_range'_1] at hi
            omega)
        have hni : newM[x]? = some newM[x] := List.getElem?_eq_getElem hxlt
        obtain ⟨tid, hfst, _, _⟩ := tfrag_finders F reg (hN _ (List.getElem?_mem hni))
        refine ⟨[Mutation.InsertBefore tid ((List.range' (y + 1) (x - y - 1)).length)]
            ++ ms2, ?_, ?_, ?_⟩
        · rw [hseg, hni, hms2]
          simp [hfst, expectSome, tiedOps, Bind.bind, Except.bind, pure, Except.pure]
        · intro m hm
          rcases List.mem_append.mp hm with hm | hm
          · simp only [List.mem_singleton] at hm
            rw [hm]
            rfl
          · exact hmv2 m hm
        · simp only [List.length_append, List.length_cons, List.length_nil] at hbd2 ⊢
          omega
      · rw [if_neg hgap]
        refine ⟨ms2, ?_, hmv2, ?_⟩
        · rw [hms2]
          simp [Bind.bind, Except.bind, pure, Except.pure]
        · simp only [List.length_cons]
          simp only [List.length_cons] at hbd2
          omega


/-- `diff_keyed_middle` over family nodes whose middle key sets agree on
both sides: every emitted mutation is an insert/move instruction, and
there are at most `|new| - LIS_length(mapping)` of them. -/
theorem diffKeyedMiddle_family_perm (F : Nat) (reg : Registry) (oldM newM : List VNode)
    (hO : ∀ v ∈ oldM, tfragShape v = true) (hN : ∀ v ∈ newM, tfragShape v = true)
    (hfound : ∀ n ∈ newM, ∃ k, n.key = some k ∧ ∃ o ∈ oldM, o.key = some k)
    (hfoundO : ∀ o ∈ oldM, ∃ k, o.key = some k ∧ ∃ n ∈ newM, n.key = some k)
    (hneN : newM ≠ [])
    (hheads : newM.head?.map VNode.key ≠ oldM.head?.map VNode.key)
    (hlasts : newM.getLast?.map VNode.key ≠ oldM.getLast?.map VNode.key)
    (hoLen : oldM.length ≤ u32Max) :
    ∃ ms, diffKeyedMiddle (tiedOps (F + 2) reg) oldM newM = .ok ms ∧
      (∀ m ∈ ms, m.isMove = true) ∧
      ms.length ≤ newM.length - LISLength (mappingPure oldM newM) := by
  have hh : ((newM.head?.map VNode.key) == (oldM.head?.map VNode.key)) = false :=
    beq_eq_false_iff_ne.mpr hheads
  have hll : ((newM.getLast?.map VNode.key) == (oldM.getLast?.map VNode.key)) = false :=
    beq_eq_false_iff_ne.mpr hlasts
  have hkeysN : ∀ n ∈ newM, n.key.isSome = true := by
    intro n hn
    obtain ⟨k, hk⟩ := tfrag_key (hN n hn)
    rw [hk]
    rfl
  obtain ⟨n0, hn0⟩ := List.exists_mem_of_ne_nil newM hneN
  have hse := sharedKeyList_not_empty hn0 hfound
  have hrem : removeUnshared (tiedOps (F + 2) reg) oldM (sharedKeyList oldM newM) =
      .ok [] := by
    apply removeUnshared_ok
    intro o ho
    obtain ⟨k, hk, n, hnmem, hkn⟩ := hfoundO o ho
    refine ⟨k, hk, ?_⟩
    have hkmem : k ∈ sharedKeyList oldM newM := by
      unfold sharedKeyList
      rw [List.mem_filter]
      constructor
      · rw [List.mem_filterMap]
        exact ⟨n, hnmem, hkn⟩
      · simpa using oldIndexOf_found ⟨o, ho, hk⟩
    simpa using hkmem
  have hmapne : mappingPure oldM newM ≠ [] := by
    intro hc
    have := mappingPure_length oldM newM
    rw [hc] at this
    have h0 : newM.length = 0 := by simpa using this.symm
    exact hneN (List.length_eq_zero.mp h0)
  have hlisAdj := lisAdjusted_eq_of_bounded (mappingPure_bounded hfound hoLen)
  have hlislen : (lisIndices (mappingPure oldM newM)).length =
      LISLength (mappingPure oldM newM) := lisIndices_length _
  have hlispos : 1 ≤ LISLength (mappingPure oldM newM) := lisLength_pos hmapne
  have hlisne : lisIndices (mappingPure oldM newM) ≠ [] := by
    intro hc
    rw [hc] at hlislen
    simp at hlislen
    omega
  have hlisbound : ∀ i ∈ lisIndices (mappingPure oldM newM), i < newM.length := by
    intro i hi
    have := lisIndices_lt (mappingPure oldM newM) i hi
    rwa [mappingPure_length] at this
  obtain ⟨last, hlastEq⟩ : ∃ a, (lisIndices (mappingPure oldM newM)).getLast? = some a := by
    rw [List.getLast?_eq_getElem?]
    have hpos : 0 < (lisIndices (mappingPure oldM newM)).length := List.length_pos.mpr hlisne
    exact ⟨_, List.getElem?_eq_getElem (by omega)⟩
  obtain ⟨first, hfirstEq⟩ : ∃ a, (lisIndices (mappingPure oldM newM)).head? = some a := by
    rw [List.head?_eq_getElem?]
    have hpos : 0 < (lisIndices (mappingPure oldM newM)).length := List.length_pos.mpr hlisne
    exact ⟨_, List.getElem?_eq_getElem (by omega)⟩
  have hlastmem : last ∈ lisIndices (mappingPure oldM newM) :=
    List.mem_of_getLast?_eq_some hlastEq
  have hfirstmem : first ∈ lisIndices (mappingPure oldM newM) := by
    have := List.head?_eq_getElem? (lisIndices (mappingPure oldM newM))
    rw [this] at hfirstEq
    exact List.getElem?_mem hfirstEq
  have hlastlt : last < newM.length := hlisbound last hlastmem
  have hfirstlt : first < newM.length := hlisbound first hfirstmem
  have hinpl := lisInPlaceDiffs_shared F reg oldM newM hO hN hfound
    (lisIndices (mappingPure oldM newM)) hlisbound
  obtain ⟨msA, hmsA, hmvA, hbdA⟩ := middleTailBlock_spec F reg oldM newM hO hN hfound
    hoLen hlastlt
  have hchain : List.Chain' (· > ·) (lisIndices (mappingPure oldM newM)).reverse := by
    apply List.Pairwise.chain'
    rw [List.pairwise_reverse]
    exact lisIndices_pairwise _
  obtain ⟨msB, hmsB, hmvB, hbdB⟩ := gapBlocks_spec F reg oldM newM hO hN hfound hoLen
    (lisIndices (mappingPure oldM newM)).reverse last first
    (by rw [List.head?_reverse]; exact hlastEq)
    (by rw [List.getLast?_reverse]; exact hfirstEq)
    hchain
    (by
      intro i hi
      rw [List.mem_reverse] at hi
      exact hlisbound i hi)
  obtain ⟨msC, hmsC, hmvC, hbdC⟩ := middleHeadBlock_spec F reg oldM newM hO hN hfound
    hoLen hfirstlt
  refine ⟨msA ++ msB ++ msC, ?_, ?_, ?_⟩
  · unfold diffKeyedMiddle
    rw [hh, hll, newIndexToOldIndex_eq newM oldM hkeysN]
    simp only [Bind.bind, Except.bind, Bool.false_eq_true, if_false]
    rw [hse]
    simp only [Bool.false_eq_true, if_false]
    rw [hrem, hlisAdj, hinpl, hlastEq, hfirstEq]
    simp only [expectSome, pure, Except.pure]
    rw [hmsA, hmsB, hmsC]
    simp [pure, Except.pure]
  · intro m hm
    rcases List.mem_append.mp hm with hm | hm
    · rcases List.mem_append.mp hm with hm | hm
      · exact hmvA m hm
      · exact hmvB m hm
    · exact hmvC m hm
  · have hrevlen : (lisIndices (mappingPure oldM newM)).reverse.length =
        LISLength (mappingPure oldM newM) := by
      rw [List.length_reverse]
      exact hlislen
    simp only [List.length_append]
    omega


/-- `diff_keyed_children` when the left scan consumed all of `old`:
the remaining new nodes are created and inserted after the last old
node, finishing the diff. -/
theorem diffKeyedChildren_ends_branch (ops : KeyedOps) (old new : List VNode)
    {l : Nat} {lo : VNode} {ms : List Mutation}
    (hu1 : assertUniqueKeys old = true) (hu2 : assertUniqueKeys new = true)
    (hscan : scanLeftEnds ops.d old new = .ok ([], l))
    (hl : l = old.length) (hlast : old.getLast? = some lo)
    (hcia : ops.cia (new.drop l) lo = .ok ms) :
    diffKeyedChildren ops old new = .ok ms := by
  unfold diffKeyedChildren
  simp only [hu1, hu2, Bool.not_true, Bool.false_eq_true, if_false]
  unfold diffKeyedEnds
  rw [hscan]
  simp only [Bind.bind, Except.bind]
  rw [beq_iff_eq.mpr hl]
  simp only [if_true]
  rw [hlast]
  simp only [expectSome, pure, Except.pure]
  rw [hcia]
  simp [pure, Except.pure]

/-- `diff_keyed_children` when both scans left a nonempty middle window
on each side: the result is the middle diff's. -/
theorem diffKeyedChildren_middle_branch (ops : KeyedOps) (old new : List VNode)
    {l r : Nat} {ms : List Mutation}
    (hu1 : assertUniqueKeys old = true) (hu2 : assertUniqueKeys new = true)
    (hscan : scanLeftEnds ops.d old new = .ok ([], l))
    (hscanR : scanLeftEnds ops.d old.reverse new.reverse = .ok ([], r))
    (hb1 : l ≠ old.length) (hb2 : l ≠ new.length)
    (hcond : ((old.drop l).take (old.length - r - l)).isEmpty = false)
    (hcondN : ((new.drop l).take (new.length - r - l)).isEmpty = false)
    (hmid : diffKeyedMiddle ops ((old.drop l).take (old.length - r - l))
      ((new.drop l).take (new.length - r - l)) = .ok ms) :
    diffKeyedChildren ops old new = .ok ms := by
  unfold diffKeyedChildren
  simp only [hu1, hu2, Bool.not_true, Bool.false_eq_true, if_false]
  unfold diffKeyedEnds
  rw [hscan]
  simp only [Bind.bind, Except.bind]
  rw [beq_eq_false_iff_ne.mpr hb1]
  simp only [Bool.false_eq_true, if_false]
  rw [beq_eq_false_iff_ne.mpr hb2]
  simp only [Bool.false_eq_true, if_false]
  rw [hscanR]
  simp only [Bind.bind, Except.bind, pure, Except.pure]
  simp only [hcond, hcondN, Bool.and_false, Bool.false_eq_true, if_false]
  rw [hmid]
  simp [pure, Except.pure]

/-- The mapping of the claim, as the code computes it:
`new_index_to_old_index` is only ever built inside `diff_keyed_middle`,
over the middle window that remains after `diff_keyed_ends` trims the
matching prefix and suffix; when the end scan finishes the diff by
itself no mapping is built (the empty mapping). -/
def keyedClaimMapping (old new : List VNode) : List Nat :=
  if commonKeyLen old new == old.length || commonKeyLen old new == new.length then []
  else
    mappingPure
      ((old.drop (commonKeyLen old new)).take
        (old.length - commonKeyLen old.reverse new.reverse - commonKeyLen old new))
      ((new.drop (commonKeyLen old new)).take
        (new.length - commonKeyLen old.reverse new.reverse - commonKeyLen old new))

/-- The middle case of the C5 analysis, with the two scan lengths
abstracted. -/
theorem c5_middle_case (f : Nat) (reg : Registry) (old new : List VNode) (l r : Nat)
    (hfo : ∀ v ∈ old, tfragShape v = true) (hfn : ∀ v ∈ new, tfragShape v = true)
    (hperm : List.Perm (new.map VNode.key) (old.map VNode.key))
    (hu1 : assertUniqueKeys old = true) (hu2 : assertUniqueKeys new = true)
    (hmax : old.length ≤ u32Max)
    (hldef : commonKeyLen old new = l)
    (hrdef : commonKeyLen old.reverse new.reverse = r)
    (hlo : l < old.length) (hlen : new.length = old.length) :
    ∃ ms, diffKeyedChildren (tiedOps (f + 3) reg) old new = .ok ms ∧
      (∀ m ∈ ms, m.isMove = true) ∧
      ms.length ≤ old.length - LISLength (keyedClaimMapping old new) := by
  have hln : l < new.length := by omega
  have hl : l ≠ old.length := by omega
  have hl2 : l ≠ new.length := by omega
  have hlr : l + r < old.length := by
    have := trim_sum_lt_of_eq_length hlen.symm (hldef ▸ hlo)
    omega
  have hscan : scanLeftEnds (tiedOps (f + 3) reg).d old new = .ok ([], l) := by
    rw [← hldef]
    apply scanLeftEnds_spec
    intro o n ho hn hk
    exact tfrag_diff_self (f + 1) reg (hfn n hn) (hfo o ho) hk.symm
  have hscanR : scanLeftEnds (tiedOps (f + 3) reg).d old.reverse new.reverse =
      .ok ([], r) := by
    rw [← hrdef]
    apply scanLeftEnds_spec
    intro o n ho hn hk
    exact tfrag_diff_self (f + 1) reg (hfn n (List.mem_reverse.mp hn))
      (hfo o (List.mem_reverse.mp ho)) hk.symm
  have hOMlen : ((old.drop l).take (old.length - r - l)).length = old.length - r - l :=
    middle_length old l (old.length - r - l) (by omega)
  have hNMlen : ((new.drop l).take (new.length - r - l)).length = new.length - r - l :=
    middle_length new l (new.length - r - l) (by omega)
  have hOMpos : 0 < ((old.drop l).take (old.length - r - l)).length := by omega
  have hNMpos : 0 < ((new.drop l).take (new.length - r - l)).length := by omega
  have hfO : ∀ v ∈ (old.drop l).take (old.length - r - l), tfragShape v = true :=
    fun v hv => hfo v (List.mem_of_mem_drop (List.mem_of_mem_take hv))
  have hfN : ∀ v ∈ (new.drop l).take (new.length - r - l), tfragShape v = true :=
    fun v hv => hfn v (List.mem_of_mem_drop (List.mem_of_mem_take hv))
  -- the prefix and suffix key runs agree pointwise
  have hA : (old.take l).map VNode.key = (new.take l).map VNode.key := by
    apply List.ext_getElem?
    intro i
    rw [List.getElem?_map, List.getElem?_map]
    by_cases hi : i < l
    · rw [List.getElem?_take_of_lt hi, List.getElem?_take_of_lt hi]
      exact commonKeyLen_match old new i (by omega)
    · rw [List.getElem?_take_eq_none (by omega), List.getElem?_take_eq_none (by omega)]
  have hC : (old.drop (old.length - r)).map VNode.key =
      (new.drop (new.length - r)).map VNode.key := by
    have e1 : (old.drop (old.length - r)).reverse = old.reverse.take r := by
      rw [List.reverse_drop]
      congr 1
      omega
    have e2 : (new.drop (new.length - r)).reverse = new.reverse.take r := by
      rw [List.reverse_drop]
      congr 1
      omega
    have hT : (old.reverse.take r).map VNode.key = (new.reverse.take r).map VNode.key := by
      apply List.ext_getElem?
      intro i
      rw [List.getElem?_map, List.getElem?_map]
      by_cases hi : i < r
      · rw [List.getElem?_take_of_lt hi, List.getElem?_take_of_lt hi]
        exact commonKeyLen_match old.reverse new.reverse i (by omega)
      · rw [List.getElem?_take_eq_none (by omega), List.getElem?_take_eq_none (by omega)]
    apply List.reverse_injective
    rw [← List.map_reverse, ← List.map_reverse, e1, e2, hT]
  have hsplitO : old = old.take l ++
      ((old.drop l).take (old.length - r - l) ++ old.drop (old.length - r)) := by
    conv_lhs => rw [← List.take_append_drop l old]
    congr 1
    conv_lhs => rw [← List.take_append_drop (old.length - r - l) (old.drop l)]
    congr 1
    rw [List.drop_drop]
    congr 1
    omega
  have hsplitN : new = new.take l ++
      ((new.drop l).take (new.length - r - l) ++ new.drop (new.length - r)) := by
    conv_lhs => rw [← List.take_append_drop l new]
    congr 1
    conv_lhs => rw [← List.take_append_drop (new.length - r - l) (new.drop l)]
    congr 1
    rw [List.drop_drop]
    congr 1
    omega
  have hpermM : List.Perm (((new.drop l).take (new.length - r - l)).map VNode.key)
      (((old.drop l).take (old.length - r - l)).map VNode.key) := by
    have h1 := hperm
    conv at h1 =>
      rw [hsplitO, hsplitN]
    rw [List.map_append, List.map_append, List.map_append, List.map_append] at h1
    rw [← hA, ← hC] at h1
    have h2 := (List.perm_append_left_iff _).mp h1
    exact (List.perm_append_right_iff _).mp h2
  have hfound : ∀ n ∈ (new.drop l).take (new.length - r - l),
      ∃ k, n.key = some k ∧
        ∃ o ∈ (old.drop l).take (old.length - r - l), o.key = some k := by
    intro n hn
    obtain ⟨k, hk⟩ := tfrag_key (hfN n hn)
    have hmem : (some k : Option String) ∈
        ((new.drop l).take (new.length - r - l)).map VNode.key := by
      rw [← hk]
      exact List.mem_map_of_mem _ hn
    have := hpermM.subset hmem
    obtain ⟨o, hoM, hko⟩ := List.mem_map.mp this
    exact ⟨k, hk, o, hoM, hko⟩
  have hfoundO : ∀ o ∈ (old.drop l).take (old.length - r - l),
      ∃ k, o.key = some k ∧
        ∃ n ∈ (new.drop l).take (new.length - r - l), n.key = some k := by
    intro o ho
    obtain ⟨k, hk⟩ := tfrag_key (hfO o ho)
    have hmem : (some k : Option String) ∈
        ((old.drop l).take (old.length - r - l)).map VNode.key := by
      rw [← hk]
      exact List.mem_map_of_mem _ ho
    have := hpermM.symm.subset hmem
    obtain ⟨n, hnM, hkn⟩ := List.mem_map.mp this
    exact ⟨k, hk, n, hnM, hkn⟩
  -- the heads and last elements of the middles have mismatching keys
  obtain ⟨om, onn, hom, hon, hkne⟩ := commonKeyLen_mismatch old new
    (by omega) (by omega)
  rw [hldef] at hom hon
  have hheads : ((new.drop l).take (new.length - r - l)).head?.map VNode.key ≠
      ((old.drop l).take (old.length - r - l)).head?.map VNode.key := by
    rw [middle_head old l (old.length - r - l) (by omega),
      middle_head new l (new.length - r - l) (by omega), hom, hon]
    simp only [Option.map_some']
    intro hc
    injection hc with hc
    exact hkne hc.symm
  have hrO : r < old.length := by omega
  have hrN : r < new.length := by omega
  obtain ⟨orr, nrr, hor, hnr, hkner⟩ := commonKeyLen_mismatch old.reverse new.reverse
    (by rw [hrdef]; simpa using hrO) (by rw [hrdef]; simpa using hrN)
  rw [hrdef] at hor hnr
  rw [List.getElem?_reverse hrO] at hor
  rw [List.getElem?_reverse hrN] at hnr
  have hlastO : ((old.drop l).take (old.length - r - l)).getLast? =
      old[old.length - 1 - r]? := by
    rw [middle_last old l (old.length - r - l) hOMpos]
    congr 1
    omega
  have hlastN : ((new.drop l).take (new.length - r - l)).getLast? =
      new[new.length - 1 - r]? := by
    rw [middle_last new l (new.length - r - l) hNMpos]
    congr 1
    omega
  have hlasts : ((new.drop l).take (new.length - r - l)).getLast?.map VNode.key ≠
      ((old.drop l).take (old.length - r - l)).getLast?.map VNode.key := by
    rw [hlastO, hlastN, hor, hnr]
    simp only [Option.map_some']
    intro hc
    injection hc with hc
    exact hkner hc.symm
  obtain ⟨ms, hms, hmv, hbd⟩ := diffKeyedMiddle_family_perm (f + 1) reg
    ((old.drop l).take (old.length - r - l)) ((new.drop l).take (new.length - r - l))
    hfO hfN hfound hfoundO
    (by
      intro hc
      rw [hc] at hNMpos
      simp at hNMpos)
    hheads hlasts (by omega)
  have hms' : diffKeyedMiddle (tiedOps (f + 3) reg)
      ((old.drop l).take (old.length - r - l))
      ((new.drop l).take (new.length - r - l)) = .ok ms := hms
  have hOMne : ((old.drop l).take (old.length - r - l)).isEmpty = false := by
    obtain ⟨a, as, hcons⟩ := List.exists_cons_of_ne_nil
      (List.length_pos.mp hOMpos)
    rw [hcons]
    rfl
  have hNMne : ((new.drop l).take (new.length - r - l)).isEmpty = false := by
    obtain ⟨a, as, hcons⟩ := List.exists_cons_of_ne_nil
      (List.length_pos.mp hNMpos)
    rw [hcons]
    rfl
  refine ⟨ms, ?_, hmv, ?_⟩
  · exact diffKeyedChildren_middle_branch (tiedOps (f + 3) reg) old new hu1 hu2
      hscan hscanR hl hl2 hOMne hNMne hms'
  · have hmapEq : keyedClaimMapping old new =
        mappingPure ((old.drop l).take (old.length - r - l))
          ((new.drop l).take (new.length - r - l)) := by
      unfold keyedClaimMapping
      rw [hldef, hrdef]
      rw [beq_eq_false_iff_ne.mpr hl, beq_eq_false_iff_ne.mpr hl2]
      simp
    rw [hmapEq]
    omega


/-- C5: over keyed sibling lists drawn from the single-text keyed-fragment
family (so that matched pairs diff in place without emitting anything),
with unique keys on both sides and `new` a permutation of `old`'s keys,
the keyed reconciliation succeeds, every emitted mutation is an
insert/move instruction — in particular no node whose key appears in
both lists is created or destroyed — and the number of emitted
move/insert mutations is at most `n - LIS_length(mapping)`, where the
mapping is the `new_index_to_old_index` table the code itself builds
(over the trimmed middle window; empty when the end scan finishes the
diff). -/
theorem c5_keyed_permutation (f : Nat) (reg : Registry) (old new : List VNode)
    (hfo : ∀ v ∈ old, tfragShape v = true) (hfn : ∀ v ∈ new, tfragShape v = true)
    (hperm : List.Perm (new.map VNode.key) (old.map VNode.key))
    (hne : old ≠ [])
    (hu1 : assertUniqueKeys old = true) (hu2 : assertUniqueKeys new = true)
    (hmax : old.length ≤ u32Max) :
    ∃ ms, diffKeyedChildren (tiedOps (f + 3) reg) old new = .ok ms ∧
      (∀ m ∈ ms, m.isMove = true) ∧
      ms.length ≤ old.length - LISLength (keyedClaimMapping old new) := by
  have hlen : new.length = old.length := by
    have := hperm.length_eq
    simpa using this
  by_cases hl : commonKeyLen old new = old.length
  · have hscan : scanLeftEnds (tiedOps (f + 3) reg).d old new =
        .ok ([], commonKeyLen old new) := by
      apply scanLeftEnds_spec
      intro o n ho hn hk
      exact tfrag_diff_self (f + 1) reg (hfn n hn) (hfo o ho) hk.symm
    have hpos := List.length_pos.mpr hne
    obtain ⟨lo, hlo⟩ : ∃ a, old.getLast? = some a := by
      rw [List.getLast?_eq_getElem?]
      exact ⟨old[old.length - 1], List.getElem?_eq_getElem (by omega)⟩
    have hlomem : lo ∈ old := List.mem_of_getLast?_eq_some hlo
    obtain ⟨tid, _, hlst, _⟩ := tfrag_finders f reg (hfo lo hlomem)
    have hdrop : new.drop (commonKeyLen old new) = [] :=
      List.drop_eq_nil_of_le (by omega)
    have hcia : (tiedOps (f + 3) reg).cia (new.drop (commonKeyLen old new)) lo =
        .ok [Mutation.InsertAfter tid 0] := by
      rw [hdrop]
      show createAndInsertAfterF (f + 2 + 1) reg [] lo = _
      simp only [createAndInsertAfterF]
      have hCL : createListF (f + 2) reg [] = .ok [] := by
        show createListF (f + 1 + 1) reg [] = _
        rfl
      rw [hCL, hlst]
      simp [expectSome, takeCreated, Bind.bind, Except.bind, pure, Except.pure]
    have hchild := diffKeyedChildren_ends_branch (tiedOps (f + 3) reg) old new
      hu1 hu2 hscan hl hlo hcia
    refine ⟨[Mutation.InsertAfter tid 0], hchild, ?_, ?_⟩
    · intro m hm
      simp only [List.mem_singleton] at hm
      rw [hm]
      rfl
    · have hmap0 : keyedClaimMapping old new = [] := by
        unfold keyedClaimMapping
        rw [beq_iff_eq.mpr hl]
        simp
      rw [hmap0]
      have h1 : LISLength ([] : List Nat) = 0 := rfl
      rw [h1]
      simp
      omega
  · exact c5_middle_case f reg old new (commonKeyLen old new)
      (commonKeyLen old.reverse new.reverse) hfo hfn hperm hu1 hu2 hmax rfl rfl
      (lt_of_le_of_ne (commonKeyLen_le_left old new) hl) hlen

def oldC5 : List VNode :=
  [.Fragment 0 (some "a") [.Text ⟨10, "a", some 1⟩],
   .Fragment 2 (some "b") [.Text ⟨12, "b", some 2⟩],
   .Fragment 4 (some "c") [.Text ⟨14, "c", some 3⟩]]

def newC5 : List VNode :=
  [.Fragment 6 (some "c") [.Text ⟨16, "c", some 4⟩],
   .Fragment 7 (some "a") [.Text ⟨17, "a", some 5⟩],
   .Fragment 8 (some "b") [.Text ⟨18, "b", some 6⟩]]

theorem c5_keyed_permutation_witness :
    (∀ v ∈ oldC5, tfragShape v = true) ∧ (∀ v ∈ newC5, tfragShape v = true) ∧
    List.Perm (newC5.map VNode.key) (oldC5.map VNode.key) ∧ oldC5 ≠ [] ∧
    assertUniqueKeys oldC5 = true ∧ assertUniqueKeys newC5 = true ∧
    oldC5.length ≤ u32Max ∧
    (∃ ms, diffKeyedChildren (tiedOps 3 regEmpty) oldC5 newC5 = Except.ok ms ∧
      (∀ m ∈ ms, m.isMove = true) ∧
      ms.length ≤ oldC5.length - LISLength (keyedClaimMapping oldC5 newC5)) :=
  ⟨by decide, by decide, by decide, by simp [oldC5], by decide, by decide, by decide,
   c5_keyed_permutation 0 regEmpty oldC5 newC5 (by decide) (by decide) (by decide)
     (by simp [oldC5]) (by decide) (by decide) (by decide)⟩


theorem expectSome_ok {α : Type} {o : Option α} {a : α}
    (h : expectSome o = .ok a) : o = some a := by
  cases o with
  | none => simp [expectSome] at h
  | some x =>
    simp only [expectSome, pure, Except.pure] at h
    injection h with h
    rw [h]

/-- Two family nodes — whatever their keys — diff without any
assertion: the fragment fast path lands in the text diff. -/
theorem tfrag_pair_noAssertE (F : Nat) (reg : Registry) {a b : VNode}
    (ha : tfragShape a = true) (hb : tfragShape b = true) :
    NoAssertE (diffVNodeF F reg a b) := by
  obtain ⟨pa, ka, tpa, tia, rfl⟩ := tfragShape_elim ha
  obtain ⟨pb, kb, tpb, tib, rfl⟩ := tfragShape_elim hb
  cases F with
  | zero => simp [diffVNodeF, NoAssertE]
  | succ F =>
    simp only [diffVNodeF]
    by_cases hp : (pa == pb) = true
    · simp [hp, NoAssertE, pure, Except.pure]
    · simp only [Bool.not_eq_true] at hp
      simp only [hp, Bool.false_eq_true, if_false]
      cases F with
      | zero => simp [diffVNodeF, NoAssertE]
      | succ F =>
        simp only [diffVNodeF]
        unfold diffText
        by_cases ht : (tpa == tpb) = true
        · simp [ht, NoAssertE, pure, Except.pure]
        · simp only [Bool.not_eq_true] at ht
          by_cases hk : (ka != kb) = true <;>
            simp [ht, hk, NoAssertE, expectSome, Bind.bind, Except.bind,
              pure, Except.pure]

theorem newIndexToOldIndex_noAssertE (old new : List VNode) :
    NoAssertE (newIndexToOldIndex old new) := by
  unfold newIndexToOldIndex
  apply mapM_noAssertE
  intro a _
  apply noAssertE_bind (expectSome_noAssertE _)
  intro k _
  cases oldIndexOf old k <;> exact noAssertE_pure _

theorem removeUnshared_noAssertE (F : Nat) (reg : Registry)
    (l : List VNode) (shared : List String) :
    NoAssertE (removeUnshared (tiedOps F reg) l shared) := by
  unfold removeUnshared
  apply noAssertE_bind
  · apply mapM_noAssertE
    intro a _
    apply noAssertE_bind (expectSome_noAssertE _)
    intro k _
    by_cases hc : shared.contains k = true
    · rw [if_pos hc]
      exact noAssertE_pure _
    · rw [if_neg hc]
      exact (create_half_noAssertE F reg).2.2.1 a
  · intro a _
    exact noAssertE_pure _

theorem middleSegment_noAssertE (F : Nat) (reg : Registry) (oldM newM : List VNode)
    (hO : ∀ v ∈ oldM, tfragShape v = true) (hN : ∀ v ∈ newM, tfragShape v = true)
    (mapIdx : List Nat) :
    ∀ ixs : List Nat, NoAssertE (middleSegment (tiedOps F reg) oldM newM mapIdx ixs) := by
  intro ixs
  induction ixs with
  | nil => exact noAssertE_pure _
  | cons i rest ih =>
    unfold middleSegment
    dsimp only
    apply noAssertE_bind (expectSome_noAssertE _)
    intro newNode hnew
    apply noAssertE_bind (expectSome_noAssertE _)
    intro oldIndex _
    by_cases hs : (oldIndex == u32Max) = true
    · rw [if_pos hs]
      apply noAssertE_bind (createNodeCntF_noAssertE F reg newNode)
      intro y _
      obtain ⟨ms, c⟩ := y
      apply noAssertE_bind ih
      intro q _
      obtain ⟨ms2, c2⟩ := q
      exact noAssertE_pure _
    · rw [if_neg hs]
      apply noAssertE_bind (expectSome_noAssertE _)
      intro oldNode hold
      apply noAssertE_bind (tfrag_pair_noAssertE F reg
        (hN newNode (List.getElem?_mem (expectSome_ok hnew)))
        (hO oldNode (List.getElem?_mem (expectSome_ok hold))))
      intro ms _
      apply noAssertE_bind ((create_half_noAssertE F reg).2.2.2.2.2.2 newNode)
      intro c _
      apply noAssertE_bind (noAssertE_pure _)
      intro y _
      obtain ⟨ms3, c3⟩ := y
      apply noAssertE_bind ih
      intro q _
      obtain ⟨ms2, c2⟩ := q
      exact noAssertE_pure _

theorem lisInPlaceDiffs_noAssertE (F : Nat) (reg : Registry) (oldM newM : List VNode)
    (hO : ∀ v ∈ oldM, tfragShape v = true) (hN : ∀ v ∈ newM, tfragShape v = true)
    (mapIdx : List Nat) :
    ∀ ixs : List Nat,
      NoAssertE (lisInPlaceDiffs (tiedOps F reg) oldM newM mapIdx ixs) := by
  intro ixs
  induction ixs with
  | nil => exact noAssertE_pure _
  | cons i rest ih =>
    unfold lisInPlaceDiffs
    apply noAssertE_bind (expectSome_noAssertE _)
    intro newNode hnew
    apply noAssertE_bind (expectSome_noAssertE _)
    intro oldIndex _
    apply noAssertE_bind (expectSome_noAssertE _)
    intro oldNode hold
    apply noAssertE_bind (tfrag_pair_noAssertE F reg
      (hN newNode (List.getElem?_mem (expectSome_ok hnew)))
      (hO oldNode (List.getElem?_mem (expectSome_ok hold))))
    intro m _
    exact noAssertE_bind ih (fun q _ => noAssertE_pure _)

theorem middleTailBlock_noAssertE (F : Nat) (reg : Registry) (oldM newM : List VNode)
    (hO : ∀ v ∈ oldM, tfragShape v = true) (hN : ∀ v ∈ newM, tfragShape v = true)
    (mapIdx : List Nat) (last : Nat) :
    NoAssertE (middleTailBlock (tiedOps F reg) oldM newM mapIdx last) := by
  unfold middleTailBlock
  by_cases hc : last < newM.length - 1
  · rw [if_pos hc]
    apply noAssertE_bind (middleSegment_noAssertE F reg oldM newM hO hN mapIdx _)
    intro p _
    apply noAssertE_bind (expectSome_noAssertE _)
    intro anchor _
    apply noAssertE_bind ((create_half_noAssertE F reg).2.2.2.2.2.1 anchor)
    intro idOpt _
    apply noAssertE_bind (expectSome_noAssertE _)
    intro id _
    exact noAssertE_pure _
  · rw [if_neg hc]
    exact noAssertE_pure _

theorem middleHeadBlock_noAssertE (F : Nat) (reg : Registry) (oldM newM : List VNode)
    (hO : ∀ v ∈ oldM, tfragShape v = true) (hN : ∀ v ∈ newM, tfragShape v = true)
    (mapIdx : List Nat) (first : Nat) :
    NoAssertE (middleHeadBlock (tiedOps F reg) oldM newM mapIdx first) := by
  unfold middleHeadBlock
  by_cases hc : first > 0
  · rw [if_pos hc]
    apply noAssertE_bind (middleSegment_noAssertE F reg oldM newM hO hN mapIdx _)
    intro p _
    apply noAssertE_bind (expectSome_noAssertE _)
    intro anchor _
    apply noAssertE_bind ((create_half_noAssertE F reg).2.2.2.2.1 anchor)
    intro idOpt _
    apply noAssertE_bind (expectSome_noAssertE _)
    intro id _
    exact noAssertE_pure _
  · rw [if_neg hc]
    exact noAssertE_pure _

theorem gapBlocks_noAssertE (F : Nat) (reg : Registry) (oldM newM : List VNode)
    (hO : ∀ v ∈ oldM, tfragShape v = true) (hN : ∀ v ∈ newM, tfragShape v = true)
    (mapIdx : List Nat) :
    ∀ c : List Nat, NoAssertE (gapBlocks (tiedOps F reg) oldM newM mapIdx c) := by
  intro c
  induction c with
  | nil => exact noAssertE_pure _
  | cons x rest ih =>
    cases rest with
    | nil => exact noAssertE_pure _
    | cons y rest2 =>
      unfold gapBlocks
      dsimp only
      by_cases hgap : x - y > 1
      · rw [if_pos hgap]
        apply noAssertE_bind (middleSegment_noAssertE F reg oldM newM hO hN mapIdx _)
        intro p _
        obtain ⟨ms, c⟩ := p
        apply noAssertE_bind (expectSome_noAssertE _)
        intro anchor _
        apply noAssertE_bind ((create_half_noAssertE F reg).2.2.2.2.1 anchor)
        intro idOpt _
        apply noAssertE_bind (expectSome_noAssertE _)
        intro id _
        apply noAssertE_bind (noAssertE_pure _)
        intro ms1 _
        exact noAssertE_bind ih (fun ms2 _ => noAssertE_pure _)
      · rw [if_neg hgap]
        apply noAssertE_bind (noAssertE_pure _)
        intro ms1 _
        exact noAssertE_bind ih (fun ms2 _ => noAssertE_pure _)

/-- `diff_keyed_middle` fires no assertion once its two entry asserts
pass, over family nodes. -/
theorem diffKeyedMiddle_noAssertE (F : Nat) (reg : Registry) (oldM newM : List VNode)
    (hO : ∀ v ∈ oldM, tfragShape v = true) (hN : ∀ v ∈ newM, tfragShape v = true)
    (hh : ((newM.head?.map VNode.key) == (oldM.head?.map VNode.key)) = false)
    (hll : ((newM.getLast?.map VNode.key) == (oldM.getLast?.map VNode.key)) = false) :
    NoAssertE (diffKeyedMiddle (tiedOps F reg) oldM newM) := by
  unfold diffKeyedMiddle
  rw [hh]
  simp only [Bool.false_eq_true, if_false]
  rw [hll]
  simp only [Bool.false_eq_true, if_false]
  apply noAssertE_bind (newIndexToOldIndex_noAssertE oldM newM)
  intro mapIdx _
  by_cases hsh : (sharedKeyList oldM newM).isEmpty = true
  · rw [if_pos hsh]
    cases hhd : oldM.head? with
    | some firstOld =>
      apply noAssertE_bind ((create_half_noAssertE F reg).2.2.2.1 oldM.tail)
      intro m1 _
      apply noAssertE_bind ((create_half_noAssertE F reg).2.1 newM)
      intro m2 _
      apply noAssertE_bind ((create_half_noAssertE F reg).2.2.2.2.1 firstOld)
      intro idOpt _
      apply noAssertE_bind (expectSome_noAssertE _)
      intro id _
      exact noAssertE_pure _
    | none => exact createAndAppendF_noAssertE F reg newM
  · rw [if_neg hsh]
    apply noAssertE_bind (removeUnshared_noAssertE F reg oldM _)
    intro removals _
    apply noAssertE_bind (lisInPlaceDiffs_noAssertE F reg oldM newM hO hN mapIdx _)
    intro inPlace _
    apply noAssertE_bind (expectSome_noAssertE _)
    intro last _
    apply noAssertE_bind (middleTailBlock_noAssertE F reg oldM newM hO hN mapIdx last)
    intro msA _
    apply noAssertE_bind (gapBlocks_noAssertE F reg oldM newM hO hN mapIdx _)
    intro msB _
    apply noAssertE_bind (expectSome_noAssertE _)
    intro first _
    apply noAssertE_bind (middleHeadBlock_noAssertE F reg oldM newM hO hN mapIdx first)
    intro msC _
    exact noAssertE_pure _


/-- Family lists with unique keys: the keyed reconciliation fires no
assertion, whatever the relation between the two key sets. -/
theorem c8_family_walk (F : Nat) (reg : Registry) (old new : List VNode) (l r : Nat)
    (hfo : ∀ v ∈ old, tfragShape v = true) (hfn : ∀ v ∈ new, tfragShape v = true)
    (hndO : (old.map VNode.key).Nodup) (hndN : (new.map VNode.key).Nodup)
    (hldef : commonKeyLen old new = l)
    (hrdef : commonKeyLen old.reverse new.reverse = r) :
    NoAssertE (diffKeyedChildren (tiedOps (F + 2) reg) old new) := by
  have hkO : ∀ v ∈ old, (VNode.key v).isSome = true := by
    intro v hv
    obtain ⟨k, hk⟩ := tfrag_key (hfo v hv)
    rw [hk]
    rfl
  have hkN : ∀ v ∈ new, (VNode.key v).isSome = true := by
    intro v hv
    obtain ⟨k, hk⟩ := tfrag_key (hfn v hv)
    rw [hk]
    rfl
  have hu1 : assertUniqueKeys old = true := assertUniqueKeys_of hkO hndO
  have hu2 : assertUniqueKeys new = true := assertUniqueKeys_of hkN hndN
  have hscan : scanLeftEnds (tiedOps (F + 2) reg).d old new = .ok ([], l) := by
    rw [← hldef]
    apply scanLeftEnds_spec
    intro o n ho hn hk
    exact tfrag_diff_self F reg (hfn n hn) (hfo o ho) hk.symm
  have hscanR : scanLeftEnds (tiedOps (F + 2) reg).d old.reverse new.reverse =
      .ok ([], r) := by
    rw [← hrdef]
    apply scanLeftEnds_spec
    intro o n ho hn hk
    exact tfrag_diff_self F reg (hfn n (List.mem_reverse.mp hn))
      (hfo o (List.mem_reverse.mp ho)) hk.symm
  have hlle : l ≤ old.length := hldef ▸ commonKeyLen_le_left old new
  have hlleN : l ≤ new.length := hldef ▸ commonKeyLen_le_right old new
  have hrle : r ≤ old.length := by
    have := commonKeyLen_le_left old.reverse new.reverse
    rw [hrdef, List.length_reverse] at this
    exact this
  have hrleN : r ≤ new.length := by
    have := commonKeyLen_le_right old.reverse new.reverse
    rw [hrdef, List.length_reverse] at this
    exact this
  unfold diffKeyedChildren
  simp only [hu1, hu2, Bool.not_true, Bool.false_eq_true, if_false]
  by_cases hl1 : l = old.length
  · cases hgl : old.getLast? with
    | none =>
      have hends : diffKeyedEnds (tiedOps (F + 2) reg) old new =
          .error .panicked := by
        unfold diffKeyedEnds
        rw [hscan]
        simp only [Bind.bind, Except.bind]
        rw [beq_iff_eq.mpr hl1]
        simp only [if_true]
        rw [hgl]
        simp [expectSome, Bind.bind, Except.bind]
      rw [hends]
      simp only [Bind.bind, Except.bind]
      exact noAssertE_panicked
    | some lo =>
      cases hcia : (tiedOps (F + 2) reg).cia (new.drop l) lo with
      | error e =>
        have he : e ≠ DiffErr.assertFailed :=
          noAssertE_error (createAndInsertAfterF_noAssertE (F + 2) reg _ lo) hcia
        have hends : diffKeyedEnds (tiedOps (F + 2) reg) old new = .error e := by
          unfold diffKeyedEnds
          rw [hscan]
          simp only [Bind.bind, Except.bind]
          rw [beq_iff_eq.mpr hl1]
          simp only [if_true]
          rw [hgl]
          simp only [expectSome, pure, Except.pure]
          rw [hcia]
        rw [hends]
        simp only [Bind.bind, Except.bind]
        exact fun hc => he (Except.error.inj hc)
      | ok cms =>
        have hends : diffKeyedEnds (tiedOps (F + 2) reg) old new =
            .ok ([] ++ cms, none) := by
          unfold diffKeyedEnds
          rw [hscan]
          simp only [Bind.bind, Except.bind]
          rw [beq_iff_eq.mpr hl1]
          simp only [if_true]
          rw [hgl]
          simp only [expectSome, pure, Except.pure]
          rw [hcia]
        rw [hends]
        simp only [Bind.bind, Except.bind]
        exact noAssertE_pure _
  · have hlo : l < old.length := lt_of_le_of_ne hlle hl1
    by_cases hl2 : l = new.length
    · cases hd : (tiedOps (F + 2) reg).destroyL (old.drop l) with
      | error e =>
        have he : e ≠ DiffErr.assertFailed :=
          noAssertE_error ((create_half_noAssertE (F + 2) reg).2.2.2.1 (old.drop l)) hd
        have hends : diffKeyedEnds (tiedOps (F + 2) reg) old new = .error e := by
          unfold diffKeyedEnds
          rw [hscan]
          simp only [Bind.bind, Except.bind]
          rw [beq_eq_false_iff_ne.mpr hl1]
          simp only [Bool.false_eq_true, if_false]
          rw [beq_iff_eq.mpr hl2]
          simp only [if_true]
          rw [hd]
        rw [hends]
        simp only [Bind.bind, Except.bind]
        exact fun hc => he (Except.error.inj hc)
      | ok dms =>
        have hends : diffKeyedEnds (tiedOps (F + 2) reg) old new =
            .ok ([] ++ dms, none) := by
          unfold diffKeyedEnds
          rw [hscan]
          simp only [Bind.bind, Except.bind]
          rw [beq_eq_false_iff_ne.mpr hl1]
          simp only [Bool.false_eq_true, if_false]
          rw [beq_iff_eq.mpr hl2]
          simp only [if_true]
          rw [hd]
          simp [Bind.bind, Except.bind, pure, Except.pure]
        rw [hends]
        simp only [Bind.bind, Except.bind]
        exact noAssertE_pure _
    · have hln : l < new.length := lt_of_le_of_ne hlleN hl2
      have hends : diffKeyedEnds (tiedOps (F + 2) reg) old new =
          .ok ([], some (l, r)) := by
        unfold diffKeyedEnds
        rw [hscan]
        simp only [Bind.bind, Except.bind]
        rw [beq_eq_false_iff_ne.mpr hl1]
        simp only [Bool.false_eq_true, if_false]
        rw [beq_eq_false_iff_ne.mpr hl2]
        simp only [Bool.false_eq_true, if_false]
        rw [hscanR]
        simp [Bind.bind, Except.bind, pure, Except.pure]
      rw [hends]
      simp only [Bind.bind, Except.bind]
      have hOMlen : ((old.drop l).take (old.length - r - l)).length =
          old.length - r - l := middle_length old l _ (by omega)
      have hNMlen : ((new.drop l).take (new.length - r - l)).length =
          new.length - r - l := middle_length new l _ (by omega)
      have hnboth : ¬(old.length ≤ l + r ∧ new.length ≤ l + r) := by
        have := middles_not_both_empty hndO hndN (by rw [hldef]; exact hlo)
          (by rw [hldef]; exact hln)
        rwa [hldef, hrdef] at this
      have hcond1 : ((((old.drop l).take (old.length - r - l)).length ==
          ((new.drop l).take (new.length - r - l)).length) &&
          ((old.drop l).take (old.length - r - l)).isEmpty) = false := by
        by_cases hOz : old.length - r - l = 0
        · have hNz : new.length - r - l ≠ 0 := by
            intro hc
            exact hnboth ⟨by omega, by omega⟩
          have hne2 : ((((old.drop l).take (old.length - r - l)).length ==
              ((new.drop l).take (new.length - r - l)).length)) = false := by
            rw [hOMlen, hNMlen, beq_eq_false_iff_ne]
            omega
          rw [hne2, Bool.false_and]
        · have hOne : ((old.drop l).take (old.length - r - l)).isEmpty = false := by
            obtain ⟨a, as, hcons⟩ := List.exists_cons_of_ne_nil (show
                (old.drop l).take (old.length - r - l) ≠ [] by
              intro hc
              rw [hc] at hOMlen
              simp at hOMlen
              omega)
            rw [hcons]
            rfl
          rw [hOne, Bool.and_false]
      rw [hcond1]
      simp only [Bool.false_eq_true, if_false]
      by_cases hNMe : ((new.drop l).take (new.length - r - l)).isEmpty = true
      · rw [if_pos hNMe]
        apply noAssertE_bind ((create_half_noAssertE (F + 2) reg).2.2.2.1 _)
        intro ms _
        exact noAssertE_pure _
      · rw [if_neg hNMe]
        by_cases hOMe : ((old.drop l).take (old.length - r - l)).isEmpty = true
        · rw [if_pos hOMe]
          by_cases hlz : (l == 0) = true
          · rw [if_pos hlz]
            apply noAssertE_bind (expectSome_noAssertE _)
            intro foothold _
            apply noAssertE_bind (createAndInsertBeforeF_noAssertE (F + 2) reg _ _)
            intro ms _
            exact noAssertE_pure _
          · rw [if_neg hlz]
            by_cases hrz : (r == 0) = true
            · rw [if_pos hrz]
              apply noAssertE_bind (expectSome_noAssertE _)
              intro foothold _
              apply noAssertE_bind (createAndInsertAfterF_noAssertE (F + 2) reg _ _)
              intro ms _
              exact noAssertE_pure _
            · rw [if_neg hrz]
              apply noAssertE_bind (expectSome_noAssertE _)
              intro foothold _
              apply noAssertE_bind (createAndInsertAfterF_noAssertE (F + 2) reg _ _)
              intro ms _
              exact noAssertE_pure _
        · rw [if_neg hOMe]
          have hfO : ∀ v ∈ (old.drop l).take (old.length - r - l), tfragShape v = true :=
            fun v hv => hfo v (List.mem_of_mem_drop (List.mem_of_mem_take hv))
          have hfN : ∀ v ∈ (new.drop l).take (new.length - r - l), tfragShape v = true :=
            fun v hv => hfn v (List.mem_of_mem_drop (List.mem_of_mem_take hv))
          have hOMpos : 0 < old.length - r - l := by
            rcases Nat.eq_zero_or_pos (old.length - r - l) with hz | hp
            · exfalso
              apply hOMe
              have : (old.drop l).take (old.length - r - l) = [] := by
                rw [← List.length_eq_zero]
                omega
              rw [this]
              rfl
            · exact hp
          have hNMpos : 0 < new.length - r - l := by
            rcases Nat.eq_zero_or_pos (new.length - r - l) with hz | hp
            · exfalso
              apply hNMe
              have : (new.drop l).take (new.length - r - l) = [] := by
                rw [← List.length_eq_zero]
                omega
              rw [this]
              rfl
            · exact hp
          obtain ⟨om, onn, hom, hon, hkne⟩ := commonKeyLen_mismatch old new
            (by omega) (by omega)
          rw [hldef] at hom hon
          have hh : (((new.drop l).take (new.length - r - l)).head?.map VNode.key ==
              ((old.drop l).take (old.length - r - l)).head?.map VNode.key) = false := by
            rw [middle_head old l (old.length - r - l) (by omega),
              middle_head new l (new.length - r - l) (by omega), hom, hon]
            rw [beq_eq_false_iff_ne]
            simp only [Option.map_some']
            intro hc
            injection hc with hc
            exact hkne hc.symm
          have hrO : r < old.length := by omega
          have hrN : r < new.length := by omega
          obtain ⟨orr, nrr, hor, hnr, hkner⟩ := commonKeyLen_mismatch
            old.reverse new.reverse
            (by rw [hrdef]; simpa using hrO) (by rw [hrdef]; simpa using hrN)
          rw [hrdef] at hor hnr
          rw [List.getElem?_reverse hrO] at hor
          rw [List.getElem?_reverse hrN] at hnr
          have hlastO : ((old.drop l).take (old.length - r - l)).getLast? =
              old[old.length - 1 - r]? := by
            rw [middle_last old l (old.length - r - l) (by omega)]
            congr 1
            omega
          have hlastN : ((new.drop l).take (new.length - r - l)).getLast? =
              new[new.length - 1 - r]? := by
            rw [middle_last new l (new.length - r - l) (by omega)]
            congr 1
            omega
          have hll : (((new.drop l).take (new.length - r - l)).getLast?.map VNode.key ==
              ((old.drop l).take (old.length - r - l)).getLast?.map VNode.key) = false := by
            rw [hlastO, hlastN, hor, hnr]
            rw [beq_eq_false_iff_ne]
            simp only [Option.map_some']
            intro hc
            injection hc with hc
            exact hkner hc.symm
          apply noAssertE_bind (diffKeyedMiddle_noAssertE (F + 2) reg _ _ hfO hfN hh hll)
          intro ms _
          exact noAssertE_pure _


/-- C8: (i) a key collision in either sibling list (two siblings sharing
a key, i.e. a non-Nodup key list) fails the uniqueness assertion of
`diff_keyed_children`; (ii) mixed keyed/unkeyed siblings in the new list
fail the homogeneity assertion of the sibling-list diff; (iii) so does a
mixed old list even when the new list is homogeneous; (iv) under the
precondition — unique keys, homogeneous keying (witnessed here by the
keyed single-text-fragment family, whose nested sibling lists are
singletons and so satisfy the precondition as well) — no assertion
fires: the diff may still panic on unimplemented creations, but never
with an assertion failure.  The asserts are `debug_assert!` in the
source and are modelled as always active. -/
theorem c8_collision_and_homogeneity_asserts (f : Nat) (reg : Registry) :
    (∀ old new : List VNode,
      (¬ (old.map VNode.key).Nodup ∨ ¬ (new.map VNode.key).Nodup) →
      diffKeyedChildren (tiedOps f reg) old new = .error .assertFailed) ∧
    (∀ old new : List VNode, old ≠ [] →
      (∃ a ∈ new, a.key.isSome = true) → (∃ b ∈ new, b.key.isSome = false) →
      diffListF (f + 1) reg old new = .error .assertFailed) ∧
    (∀ old new : List VNode, new ≠ [] →
      (∀ x ∈ new, ∀ y ∈ new, x.key.isSome = y.key.isSome) →
      (∃ a ∈ old, a.key.isSome = true) → (∃ b ∈ old, b.key.isSome = false) →
      diffListF (f + 1) reg old new = .error .assertFailed) ∧
    (∀ old new : List VNode,
      (∀ v ∈ old, tfragShape v = true) → (∀ v ∈ new, tfragShape v = true) →
      (old.map VNode.key).Nodup → (new.map VNode.key).Nodup →
      diffListF (f + 3) reg old new ≠ .error .assertFailed) := by
  refine ⟨?_, ?_, ?_, ?_⟩
  · intro old new h
    unfold diffKeyedChildren
    rcases h with h | h
    · rw [assertUniqueKeys_eq_false_of_dup h]
      rfl
    · by_cases h1 : assertUniqueKeys old = true
      · rw [h1, assertUniqueKeys_eq_false_of_dup h]
        rfl
      · have h1' : assertUniqueKeys old = false := by
          cases hb : assertUniqueKeys old
          · rfl
          · exact absurd hb h1
        rw [h1']
        rfl
  · intro old new hne hex1 hex2
    obtain ⟨a, ha, hka⟩ := hex1
    obtain ⟨b, hb, hkb⟩ := hex2
    obtain ⟨o0, os, rfl⟩ := List.exists_cons_of_ne_nil hne
    obtain ⟨n0, ns, rfl⟩ := List.exists_cons_of_ne_nil (List.ne_nil_of_mem ha)
    have hall : ((n0 :: ns).all fun n => n.key.isSome == n0.key.isSome) = false := by
      rw [List.all_eq_false]
      cases hk0 : n0.key.isSome
      · exact ⟨a, ha, by simp [hka, hk0]⟩
      · exact ⟨b, hb, by simp [hkb, hk0]⟩
    show diffListF (f + 1) reg (o0 :: os) (n0 :: ns) = _
    simp only [diffListF]
    rw [hall]
    rfl
  · intro old new hne hhom hex1 hex2
    obtain ⟨a, ha, hka⟩ := hex1
    obtain ⟨b, hb, hkb⟩ := hex2
    obtain ⟨n0, ns, rfl⟩ := List.exists_cons_of_ne_nil hne
    obtain ⟨o0, os, rfl⟩ := List.exists_cons_of_ne_nil (List.ne_nil_of_mem ha)
    have hall1 : ((n0 :: ns).all fun n => n.key.isSome == n0.key.isSome) = true := by
      rw [List.all_eq_true]
      intro x hx
      rw [hhom x hx n0 (by simp)]
      simp
    have hall2 : ((o0 :: os).all fun o => o.key.isSome == o0.key.isSome) = false := by
      rw [List.all_eq_false]
      cases hk0 : o0.key.isSome
      · exact ⟨a, ha, by simp [hka, hk0]⟩
      · exact ⟨b, hb, by simp [hkb, hk0]⟩
    show diffListF (f + 1) reg (o0 :: os) (n0 :: ns) = _
    simp only [diffListF]
    rw [hall1, hall2]
    rfl
  · intro old new hfo hfn hndO hndN
    cases old with
    | nil =>
      cases new with
      | nil =>
        show NoAssertE (diffListF (f + 2 + 1) reg [] [])
        simp only [diffListF]
        exact noAssertE_pure _
      | cons n0 ns =>
        show NoAssertE (diffListF (f + 2 + 1) reg [] (n0 :: ns))
        simp only [diffListF]
        exact createAndAppendF_noAssertE _ _ _
    | cons o0 os =>
      cases new with
      | nil =>
        show NoAssertE (diffListF (f + 2 + 1) reg (o0 :: os) [])
        simp only [diffListF]
        exact (create_half_noAssertE _ _).2.2.2.1 _
      | cons n0 ns =>
        have hkN : ∀ v ∈ (n0 :: ns), (VNode.key v).isSome = true := by
          intro v hv
          obtain ⟨k, hk⟩ := tfrag_key (hfn v hv)
          rw [hk]
          rfl
        have hkO : ∀ v ∈ (o0 :: os), (VNode.key v).isSome = true := by
          intro v hv
          obtain ⟨k, hk⟩ := tfrag_key (hfo v hv)
          rw [hk]
          rfl
        have hall1 : ((n0 :: ns).all fun n => n.key.isSome == n0.key.isSome) = true := by
          rw [List.all_eq_true]
          intro x hx
          rw [hkN x hx, hkN n0 (by simp)]
          rfl
        have hall2 : ((o0 :: os).all fun o => o.key.isSome == o0.key.isSome) = true := by
          rw [List.all_eq_true]
          intro x hx
          rw [hkO x hx, hkO o0 (by simp)]
          rfl
        show NoAssertE (diffListF (f + 2 + 1) reg (o0 :: os) (n0 :: ns))
        simp only [diffListF]
        rw [hall1, hall2, hkN n0 (by simp), hkO o0 (by simp)]
        simp only [Bool.not_true, Bool.false_eq_true, if_false, Bool.and_self, if_true]
        exact c8_family_walk f reg (o0 :: os) (n0 :: ns) (commonKeyLen (o0 :: os) (n0 :: ns))
          (commonKeyLen (o0 :: os).reverse (n0 :: ns).reverse) hfo hfn hndO hndN rfl rfl

def dupC8 : List VNode :=
  [.Fragment 0 (some "a") [.Text ⟨1, "a", some 1⟩],
   .Fragment 2 (some "a") [.Text ⟨3, "a", some 2⟩]]

def mixedC8 : List VNode :=
  [.Fragment 4 (some "k") [.Text ⟨5, "k", some 3⟩], .Text ⟨6, "y", some 4⟩]

def plainC8 : List VNode := [.Text ⟨7, "x", some 5⟩]

def homC8 : List VNode := [.Text ⟨8, "z", some 6⟩]

def famC8o : List VNode :=
  [.Fragment 10 (some "a") [.Text ⟨11, "a", some 7⟩],
   .Fragment 12 (some "b") [.Text ⟨13, "b", some 8⟩]]

def famC8n : List VNode :=
  [.Fragment 14 (some "b") [.Text ⟨15, "b", some 9⟩],
   .Fragment 16 (some "c") [.Text ⟨17, "c", some 10⟩]]

theorem c8_collision_and_homogeneity_asserts_witness :
    diffKeyedChildren (tiedOps 0 regEmpty) dupC8 dupC8 =
      Except.error DiffErr.assertFailed ∧
    diffListF 1 regEmpty plainC8 mixedC8 = Except.error DiffErr.assertFailed ∧
    diffListF 1 regEmpty mixedC8 homC8 = Except.error DiffErr.assertFailed ∧
    diffListF 3 regEmpty famC8o famC8n ≠ Except.error DiffErr.assertFailed :=
  ⟨(c8_collision_and_homogeneity_asserts 0 regEmpty).1 dupC8 dupC8 (Or.inl (by decide)),
   (c8_collision_and_homogeneity_asserts 0 regEmpty).2.1 plainC8 mixedC8
     (by simp [plainC8]) (by decide) (by decide),
   (c8_collision_and_homogeneity_asserts 0 regEmpty).2.2.1 mixedC8 homC8
     (by simp [homC8]) (by decide) (by decide) (by decide),
   (c8_collision_and_homogeneity_asserts 0 regEmpty).2.2.2 famC8o famC8n
     (by decide) (by decide) (by decide) (by decide)⟩

/-! ## C9 -/

/-- C9: evaluating the boundary branch with an empty main log, an
empty boundary buffer and a one-mutation suspended subtree: the
subtree's mutation stays in the MAIN log, while the boundary's private
buffer receives only the pre-existing prefix (the placeholder
assign-id).  The claim's redirection — descendants' mutations into the
private buffer, nothing of the unresolved subtree in the main log — is
inverted by the code's `take`. -/
theorem c9_boundary_redirection_inverted :
    suspendBoundarySplit [] [] [0] 1 [.CreateTextNode "hi" 2] =
      ([.CreateTextNode "hi" 2], [.AssignId [0] 1]) := rfl

end Dioxus
